import Mathlib

/-!
Strided views of `xtensor` (`include/xtensor/xstrided_view.hpp`).

A shallow embedding of the view builder `detail::get_strided_view_args`, of the
view object `xstrided_view` (its descriptor and its element access) and of the
derived operations built on them, followed by theorems about them.

Conventions of the embedding.

* `std::size_t` is a 64-bit unsigned integer: a `Nat` on which every arithmetic
  operation of the source is followed by `% 2 ^ 64`.  `std::ptrdiff_t` is an `Int`;
  the cast `static_cast<std::size_t>` is `XTENSOR_MU`.
* A `throw` of the source is an `.error` of `Except xerror`.  An access to a
  container outside its bounds (undefined behaviour in C++) is reported as
  `xerror.out_of_bounds`, so that a result `.ok _` also says that no such access
  happened.
* A source expression with a data interface (a container, or a strided view) is
  seen through what the header reads from it: `shape()`, `strides()`,
  `data_offset()` and `layout()`.  All the views built over one source share the
  flat storage of that source, so that two accesses name the same element exactly
  when they compute the same flat index.
-/

namespace xt

/-! ## Machine integers -/

/-- The cast `static_cast<std::size_t>(v)` of a `std::ptrdiff_t` (the macro
`XTENSOR_MU` of `get_strided_view_args`). -/
def XTENSOR_MU (v : Int) : Nat := (v % (2 ^ 64 : Int)).toNat

/-- Sum of two `std::size_t`. -/
def size_add (a b : Nat) : Nat := (a + b) % 2 ^ 64

/-- Product of two `std::size_t`. -/
def size_mul (a b : Nat) : Nat := (a * b) % 2 ^ 64

/-- Difference of two `std::size_t` (wraps around below zero). -/
def size_sub (a b : Nat) : Nat := XTENSOR_MU ((a : Int) - (b : Int))

/-! ## Errors, layouts, slices -/

/-- The failures of the operations of the header. -/
inductive xerror where
  /-- `std::runtime_error("Ellipsis can only appear once.")` -/
  | ellipsis_twice
  /-- `std::runtime_error("Too many slices for view.")` -/
  | too_many_slices
  /-- `transpose_error("Permutation does not have the same size as shape")` -/
  | transpose_size
  /-- `transpose_error("Permutation contains wrong axis")` -/
  | transpose_axis
  /-- `transpose_error("Permutation contains axis more than once")` -/
  | transpose_twice
  /-- `transpose_error("cannot compute transposed layout of dynamic layout")` -/
  | transpose_layout
  /-- `std::runtime_error("Axis argument to squeeze > dimension of expression")` -/
  | squeeze_axis
  /-- `std::runtime_error("Trying to squeeze axis != 1")` -/
  | squeeze_not_one
  /-- `std::runtime_error("Split along axis > dimension.")` -/
  | split_axis
  /-- `std::runtime_error("Split does not result in equal division.")` -/
  | split_rest
  /-- The error of `XTENSOR_ASSERT_MSG(e.dimension() == 1, "Dimension for trim_zeros has to be 1.")` -/
  | trim_zeros_dimension
  /-- Undefined behaviour: an integer division by zero. -/
  | division_by_zero
  /-- A range whose step is zero (the spec's `InvalidStep`). -/
  | invalid_step
  /-- Undefined behaviour: a container is read or written outside its bounds. -/
  | out_of_bounds
  /-- The bound given to a loop of the embedding was too small. -/
  | out_of_fuel
  deriving DecidableEq, Repr

/-- The enumeration `layout_type`. -/
inductive layout_type where
  | dynamic
  | any
  | row_major
  | column_major
  deriving DecidableEq, Repr

/-- The alternatives of `slice_variant<std::ptrdiff_t>`: an integer, an
`xrange_adaptor` (each of its three fields is a value or the placeholder
`xtuph`, here `none`), `xall_tag`, `xellipsis_tag`, `xnewaxis_tag`. -/
inductive slice_variant where
  | index (k : Int)
  | range (start stop step : Option Int)
  | all
  | ellipsis
  | newaxis
  deriving DecidableEq, Repr

/-- Modelled from the spec: `xrange_adaptor::get`, which is defined in
`xslice.hpp` and not in `xstrided_view.hpp`.  A range is reduced against the length `n` of its
axis to `(start, length, step)`: a missing step is `1`, a step `0` is an error,
negative bounds are read as `n + bound`, a missing start is `0` if `step > 0`
else `n - 1`, a missing stop is `n` if `step > 0` else `-1`, and the length is
the number of indices `start, start + step, ...` that lie before `stop`. -/
def xrange_adaptor_get (start stop step : Option Int) (n : Nat) :
    Except xerror (Int × Int × Int) :=
  let st : Int := step.getD 1
  if st = 0 then .error .invalid_step
  else
    let norm : Int → Int := fun b => if b < 0 then (n : Int) + b else b
    let s : Int := match start with
      | some a => norm a
      | none => if 0 < st then 0 else (n : Int) - 1
    let e : Int := match stop with
      | some b => norm b
      | none => if 0 < st then (n : Int) else -1
    let len : Int :=
      if 0 < st then (if s < e then (e - s + st - 1) / st else 0)
      else (if e < s then (s - e - st - 1) / (-st) else 0)
    .ok (s, len, st)

/-- Checked read `v[k]` of a container. -/
def read_at (v : List Nat) (k : Nat) : Except xerror Nat :=
  match v[k]? with
  | some x => .ok x
  | none => .error .out_of_bounds

/-- Checked write `v[k] = x` of a container. -/
def write_at (v : List Nat) (k : Nat) (x : Nat) : Except xerror (List Nat) :=
  if k < v.length then .ok (v.set k x) else .error .out_of_bounds

/-! ## `detail::get_strided_view_args` -/

/-- The variables of the first loop of `get_strided_view_args`. -/
structure dimension_state where
  dimension : Nat
  n_newaxis : Nat
  dimension_check : Int
  has_ellipsis : Bool
  deriving DecidableEq, Repr

/-- One iteration of the first loop (`for (const auto& el : slices)`). -/
def count_slice (st : dimension_state) (el : slice_variant) :
    Except xerror dimension_state :=
  match el with
  | .newaxis =>
      .ok { st with dimension := size_add st.dimension 1,
                    n_newaxis := size_add st.n_newaxis 1 }
  | .index _ =>
      .ok { st with dimension := size_sub st.dimension 1,
                    dimension_check := st.dimension_check - 1 }
  | .ellipsis =>
      if st.has_ellipsis = true then .error .ellipsis_twice
      else .ok { st with has_ellipsis := true }
  | _ => .ok { st with dimension_check := st.dimension_check - 1 }

/-- The first loop of `get_strided_view_args`. -/
def count_slices : List slice_variant → dimension_state → Except xerror dimension_state
  | [], st => .ok st
  | el :: rest, st =>
      match count_slice st el with
      | .ok st' => count_slices rest st'
      | .error err => .error err

/-- The variables of the second and third loops of `get_strided_view_args`. -/
structure view_args_state where
  offset : Nat
  new_shape : List Nat
  new_strides : List Nat
  i : Int
  axis_skip : Int
  idx : Nat
  deriving DecidableEq, Repr

/-- The inner loop of the ellipsis branch, `for (j = 0; j < n_add_all; ++j)`;
the first argument counts the iterations left. -/
def add_all_axes (old_shape old_strides : List Nat) :
    Nat → view_args_state → Except xerror view_args_state
  | 0, st => .ok st
  | j + 1, st => do
      let sh ← read_at old_shape (XTENSOR_MU (st.i - st.axis_skip))
      let new_shape ← write_at st.new_shape st.idx sh
      let sd ← read_at old_strides (XTENSOR_MU (st.i - st.axis_skip))
      let new_strides ← write_at st.new_strides st.idx sd
      add_all_axes old_shape old_strides j
        { st with new_shape := new_shape, new_strides := new_strides,
                  axis_skip := st.axis_skip - 1, idx := size_add st.idx 1 }

/-- The body of the second loop, for the slice `slices[i]`, followed by its `++i`. -/
def apply_slice (old_shape old_strides : List Nat) (n_add_all : Nat)
    (st : view_args_state) (el : slice_variant) : Except xerror view_args_state :=
  match el with
  | .index k => do
      let slice0 := XTENSOR_MU k
      let sd ← read_at old_strides (XTENSOR_MU (st.i - st.axis_skip))
      .ok { st with offset := size_add st.offset (size_mul slice0 sd), i := st.i + 1 }
  | .newaxis => do
      let new_shape ← write_at st.new_shape st.idx 1
      .ok { st with new_shape := new_shape, axis_skip := st.axis_skip + 1,
                    idx := size_add st.idx 1, i := st.i + 1 }
  | .ellipsis => do
      let st' ← add_all_axes old_shape old_strides n_add_all st
      .ok { st' with axis_skip := st'.axis_skip + 1, i := st'.i + 1 }
  | .all => do
      let sh ← read_at old_shape (XTENSOR_MU (st.i - st.axis_skip))
      let new_shape ← write_at st.new_shape st.idx sh
      let sd ← read_at old_strides (XTENSOR_MU (st.i - st.axis_skip))
      let new_strides ← write_at st.new_strides st.idx sd
      .ok { st with new_shape := new_shape, new_strides := new_strides,
                    idx := size_add st.idx 1, i := st.i + 1 }
  | .range start stop step => do
      -- `slice_getter.idx = i - axis_skip; info = visit(slice_getter, slices[i])`
      let n ← read_at old_shape (XTENSOR_MU (st.i - st.axis_skip))
      let info ← xrange_adaptor_get start stop step n
      let sd ← read_at old_strides (XTENSOR_MU (st.i - st.axis_skip))
      let new_shape ← write_at st.new_shape st.idx (XTENSOR_MU info.2.1)
      let new_strides ← write_at st.new_strides st.idx (size_mul (XTENSOR_MU info.2.2) sd)
      .ok { st with offset := size_add st.offset (size_mul (XTENSOR_MU info.1) sd),
                    new_shape := new_shape, new_strides := new_strides,
                    idx := size_add st.idx 1, i := st.i + 1 }

/-- The second loop of `get_strided_view_args`, `for (; i < slices.size(); ++i)`,
over the slices that are left. -/
def apply_slices (old_shape old_strides : List Nat) (n_add_all : Nat) :
    List slice_variant → view_args_state → Except xerror view_args_state
  | [], st => .ok st
  | el :: rest, st =>
      match apply_slice old_shape old_strides n_add_all st el with
      | .ok st' => apply_slices old_shape old_strides n_add_all rest st'
      | .error err => .error err

/-- The third loop, `for (; XTENSOR_MU(i - axis_skip) < old_shape.size(); ++i)`.
The first argument bounds the number of iterations. -/
def append_trailing (old_shape old_strides : List Nat) :
    Nat → view_args_state → Except xerror view_args_state
  | 0, st =>
      if XTENSOR_MU (st.i - st.axis_skip) < old_shape.length then .error .out_of_fuel
      else .ok st
  | fuel + 1, st =>
      if XTENSOR_MU (st.i - st.axis_skip) < old_shape.length then do
        let sh ← read_at old_shape (XTENSOR_MU (st.i - st.axis_skip))
        let new_shape ← write_at st.new_shape st.idx sh
        let sd ← read_at old_strides (XTENSOR_MU (st.i - st.axis_skip))
        let new_strides ← write_at st.new_strides st.idx sd
        append_trailing old_shape old_strides fuel
          { st with new_shape := new_shape, new_strides := new_strides,
                    idx := size_add st.idx 1, i := st.i + 1 }
      else .ok st

/-- The function `detail::get_strided_view_args`.  The predicate
`do_strides_match` is defined in `xstrides.hpp`, not in `xstrided_view.hpp`, and
is a parameter.  The vectors `new_shape` and `new_strides` are created with
`dimension` zeros.  The result is the tuple
`(new_shape, new_strides, offset, new_layout)`. -/
def get_strided_view_args (do_strides_match : List Nat → List Nat → layout_type → Bool)
    (shape strides : List Nat) (base_offset : Nat) (layout : layout_type)
    (slices : List slice_variant) :
    Except xerror (List Nat × List Nat × Nat × layout_type) := do
  let c ← count_slices slices
    { dimension := shape.length, n_newaxis := 0,
      dimension_check := (shape.length : Int), has_ellipsis := false }
  if c.dimension_check < 0 then .error .too_many_slices
  else do
    let n_add_all : Nat :=
      if c.has_ellipsis = true then
        size_sub shape.length (size_sub (size_sub slices.length 1) c.n_newaxis)
      else 0
    let st ← apply_slices shape strides n_add_all slices
      { offset := base_offset,
        new_shape := List.replicate c.dimension 0,
        new_strides := List.replicate c.dimension 0,
        i := 0, axis_skip := 0, idx := 0 }
    let st ← append_trailing shape strides shape.length st
    let new_layout :=
      if do_strides_match st.new_shape st.new_strides layout = true then layout
      else layout_type.dynamic
    .ok (st.new_shape, st.new_strides, st.offset, new_layout)

/-! ## The view object `xstrided_view` -/

/-- Modelled from the spec: `adapt_strides`, which is defined in `xstrides.hpp`
and not in `xstrided_view.hpp`: `backstrides[k] = strides[k] * (shape[k] - 1)`
for `shape[k] > 0`, else `0`. -/
def adapt_strides (shape strides : List Nat) : List Nat :=
  List.zipWith (fun n s => if 0 < n then size_mul s (n - 1) else 0) shape strides

/-- The data members of `xstrided_view`, except the closure `m_e`.  The flat
storage `m_storage` is the map from flat positions to elements (`none` outside
the buffer).  An expression with a data interface is represented in the same
way, by its `storage()`, `shape()`, `strides()`, `data_offset()` and `layout()`;
a container has data offset `0`. -/
structure xstrided_view (α : Type) where
  m_storage : Nat → Option α
  m_shape : List Nat
  m_strides : List Nat
  m_backstrides : List Nat
  m_offset : Nat
  m_layout : layout_type

namespace xstrided_view

variable {α : Type}

/-- The constructor `xstrided_view(e, shape, strides, offset, layout)`: the flat
storage is the one of `e` (`get_flat_storage(m_e)`, which is `e.storage()`). -/
def ctor (e : xstrided_view α) (shape strides : List Nat) (offset : Nat)
    (layout : layout_type) : xstrided_view α :=
  { m_storage := e.m_storage,
    m_shape := shape,
    m_strides := strides,
    m_backstrides := adapt_strides shape strides,
    m_offset := offset,
    m_layout := layout }

/-- The member `dimension()`. -/
def dimension (v : xstrided_view α) : Nat := v.m_shape.length

end xstrided_view

/-- Modelled from the spec: `xt::data_offset`, which is defined in `xstrides.hpp`
and not in `xstrided_view.hpp`: the sum of `i_k * strides[k]` in the size type,
over the last `|strides|` arguments when there are more arguments than
dimensions. -/
def data_offset (strides : List Nat) (args : List Nat) : Nat :=
  (List.zipWith (fun i s => i * s) (args.drop (args.length - strides.length)) strides).sum
    % 2 ^ 64

namespace xstrided_view

variable {α : Type}

/-- The position `index` that `operator()(args...)` computes,
`m_offset + data_offset(strides(), args...)`. -/
def flat_index (v : xstrided_view α) (args : List Nat) : Nat :=
  size_add v.m_offset (data_offset v.m_strides args)

/-- The element access `operator()(args...)`, which returns `m_storage[index]`
(without the checks of a debug build). -/
def operator_call (v : xstrided_view α) (args : List Nat) : Option α :=
  v.m_storage (v.flat_index args)

end xstrided_view

/-- The functions `detail::get_strides(e)` and `detail::get_offset(e)` for an
expression with a data interface are `e.strides()` and `e.data_offset()`. -/
def get_strides {α : Type} (e : xstrided_view α) : List Nat := e.m_strides

/-- See `get_strides`. -/
def get_offset {α : Type} (e : xstrided_view α) : Nat := e.m_offset

/-- The function `strided_view(e, slices)`; its overloads for a source that is
itself an `xstrided_view` compute the same descriptor over the same storage. -/
def strided_view {α : Type} (do_strides_match : List Nat → List Nat → layout_type → Bool)
    (e : xstrided_view α) (slices : List slice_variant) : Except xerror (xstrided_view α) := do
  let args ← get_strided_view_args do_strides_match e.m_shape (get_strides e) (get_offset e)
    e.m_layout slices
  .ok (xstrided_view.ctor e args.1 args.2.1 args.2.2.1 args.2.2.2)

/-! ## Transposition -/

/-- The function `detail::transpose_layout_noexcept`. -/
def transpose_layout_noexcept (l : layout_type) : layout_type :=
  if l = layout_type.row_major then layout_type.column_major
  else if l = layout_type.column_major then layout_type.row_major
  else l

/-- The call `resize_container(c, n)` on a fresh container: `n` zeros. -/
def resize_container (n : Nat) : List Nat := List.replicate n 0

/-- The call `std::copy(src.crbegin(), src.crend(), dst.begin())`. -/
def copy_reversed (src dst : List Nat) : Except xerror (List Nat) :=
  if src.length ≤ dst.length then .ok (src.reverse ++ dst.drop src.length)
  else .error .out_of_bounds

/-- The function `detail::compute_transposed_strides` for an expression with a
data interface. -/
def compute_transposed_strides {α : Type} (e : xstrided_view α) (strides : List Nat) :
    Except xerror (List Nat) :=
  copy_reversed e.m_strides strides

/-- The function `transpose(e)`. -/
def transpose {α : Type} (e : xstrided_view α) : Except xerror (xstrided_view α) := do
  let shape ← copy_reversed e.m_shape (resize_container e.m_shape.length)
  let strides ← compute_transposed_strides e (resize_container e.m_shape.length)
  let new_layout := transpose_layout_noexcept e.m_layout
  .ok (xstrided_view.ctor e shape strides 0 new_layout)

/-- The algorithm `std::is_sorted` with the comparison `lt`: no element is
`lt` than the one before it. -/
def is_sorted (lt : Int → Int → Bool) : List Int → Bool
  | [] => true
  | [_] => true
  | a :: b :: rest => !(lt b a) && is_sorted lt (b :: rest)

/-- The body of the loop of `transpose_impl`, at position `i`. -/
def permute_axis {α : Type} (e : xstrided_view α) (permutation : List Int)
    (temp : List Nat × List Nat) (i : Nat) : Except xerror (List Nat × List Nat) :=
  match permutation[i]? with
  | none => .error .out_of_bounds
  | some p =>
      if e.dimension ≤ XTENSOR_MU p then .error .transpose_axis
      else do
        let perm := XTENSOR_MU p
        let sh ← read_at e.m_shape perm
        let temp_shape ← write_at temp.1 i sh
        let sd ← read_at e.m_strides perm
        let temp_strides ← write_at temp.2 i sd
        .ok (temp_shape, temp_strides)

/-- The loop `for (i = 0; i < e.shape().size(); ++i)` of `transpose_impl`, over
the positions that are left. -/
def permute_axes {α : Type} (e : xstrided_view α) (permutation : List Int) :
    List Nat → List Nat × List Nat → Except xerror (List Nat × List Nat)
  | [], temp => .ok temp
  | i :: rest, temp =>
      match permute_axis e permutation temp i with
      | .ok temp' => permute_axes e permutation rest temp'
      | .error err => .error err

/-- The tags `check_policy::none` and `check_policy::full`. -/
inductive check_policy where
  | none
  | full
  deriving DecidableEq, Repr

/-- The overload `detail::transpose_impl(e, permutation, check_policy::none)`. -/
def transpose_impl_none {α : Type} (e : xstrided_view α) (permutation : List Int) :
    Except xerror (xstrided_view α) :=
  if permutation.length ≠ e.dimension then .error .transpose_size
  else do
    let temp ← permute_axes e permutation (List.range e.m_shape.length)
      (resize_container e.m_shape.length, resize_container e.m_strides.length)
    let new_layout :=
      if is_sorted (fun a b => decide (a < b)) permutation = true then e.m_layout
      else if is_sorted (fun a b => decide (b < a)) permutation = true then
        transpose_layout_noexcept e.m_layout
      else layout_type.dynamic
    .ok (xstrided_view.ctor e temp.1 temp.2 0 new_layout)

/-- The nested loops of `transpose_impl(e, permutation, check_policy::full)`:
is some entry equal to a later one. -/
def axis_appears_twice : List Int → Bool
  | [] => false
  | p :: rest => rest.any (fun q => decide (p = q)) || axis_appears_twice rest

/-- The overload `detail::transpose_impl(e, permutation, check_policy::full)`. -/
def transpose_impl_full {α : Type} (e : xstrided_view α) (permutation : List Int) :
    Except xerror (xstrided_view α) :=
  if axis_appears_twice permutation = true then .error .transpose_twice
  else transpose_impl_none e permutation

/-- The function `detail::transpose_impl`, selected by the tag. -/
def transpose_impl {α : Type} (e : xstrided_view α) (permutation : List Int) :
    check_policy → Except xerror (xstrided_view α)
  | .none => transpose_impl_none e permutation
  | .full => transpose_impl_full e permutation

/-- The function `transpose(e, permutation, check_policy)`. -/
def transpose_permutation {α : Type} (e : xstrided_view α) (permutation : List Int)
    (tag : check_policy) : Except xerror (xstrided_view α) :=
  transpose_impl e permutation tag

/-! ## Sizes, canonical strides and unravelling -/

/-- Modelled from the spec: `compute_size`, which is defined in `xstrides.hpp`
and not in `xstrided_view.hpp`: the product of the lengths, in the size type. -/
def compute_size (shape : List Nat) : Nat := shape.foldl size_mul 1

/-- The strides of a row-major container of the given shape: the stride of an
axis is the product of the lengths of the axes after it, in the size type. -/
def row_major_strides : List Nat → List Nat
  | [] => []
  | _ :: shape => shape.prod % 2 ^ 64 :: row_major_strides shape

/-- Modelled from the spec: `compute_strides(shape, l, strides)`, which is
defined in `xstrides.hpp` and not in `xstrided_view.hpp`: the row-major strides
of `shape` for `row_major`, and the column-major ones (the first axis has stride
`1`) for every other layout. -/
def compute_strides (shape : List Nat) (l : layout_type) : List Nat :=
  if l = layout_type.row_major then row_major_strides shape
  else (row_major_strides shape.reverse).reverse

/-- Successive quotients of `idx` by the strides, each one taken on the
remainder of the one before it. -/
def unravel_from : Nat → List Nat → List Nat
  | _, [] => []
  | idx, s :: strides => idx / s :: unravel_from (idx % s) strides

/-- Modelled from the spec: `detail::unravel_noexcept(idx, strides, l)`, which is
defined in `xstrides.hpp` and not in `xstrided_view.hpp`: the multi-index of the
linear index `idx`, by division from the first axis on for `row_major` and from
the last axis on for every other layout. -/
def unravel_noexcept (idx : Nat) (strides : List Nat) (l : layout_type) : List Nat :=
  if l = layout_type.row_major then unravel_from idx strides
  else (unravel_from idx strides.reverse).reverse

/-- Modelled from the spec: `element_offset(strides, first, last)`, which is
defined in `xstrides.hpp` and not in `xstrided_view.hpp`: the same sum as
`data_offset`, over a sequence of indices. -/
def element_offset (strides : List Nat) (index : List Nat) : Nat := data_offset strides index

namespace xstrided_view

variable {α : Type}

/-- The member `size()`, `compute_size(shape())`. -/
def size (v : xstrided_view α) : Nat := compute_size v.m_shape

/-- The member `element(first, last)`, which returns
`m_storage[m_offset + element_offset(strides(), first, last)]` (without the
check of a debug build). -/
def element (v : xstrided_view α) (index : List Nat) : Option α :=
  v.m_storage (size_add v.m_offset (element_offset v.m_strides index))

end xstrided_view

/-! ## The flat adaptor -/

/-- The data members of `detail::flat_expression_adaptor`, except the scratch
index `m_index`. -/
structure flat_expression_adaptor (α : Type) where
  m_e : xstrided_view α
  m_strides : List Nat
  m_size : Nat
  m_layout : layout_type

namespace flat_expression_adaptor

variable {α : Type}

/-- The constructor `flat_expression_adaptor(e, strides, layout)`. -/
def ctor (e : xstrided_view α) (strides : List Nat) (layout : layout_type) :
    flat_expression_adaptor α :=
  { m_e := e, m_strides := strides, m_size := e.size, m_layout := layout }

/-- The access `operator[](idx)`: the element of the source at the multi-index
`unravel_noexcept(idx, m_strides, m_layout)`. -/
def get (a : flat_expression_adaptor α) (idx : Nat) : Option α :=
  a.m_e.element (unravel_noexcept idx a.m_strides a.m_layout)

end flat_expression_adaptor

/-- The function `detail::get_flat_storage(e, s, l)`: the flat storage that the
adaptor built with the strides `s` and the layout `l` serves. -/
def get_flat_storage {α : Type} (e : xstrided_view α) (s : List Nat) (l : layout_type) :
    Nat → Option α :=
  (flat_expression_adaptor.ctor e s l).get

namespace xstrided_view

variable {α : Type}

/-- The constructor `xstrided_view(e, shape, strides, offset, layout,
flatten_strides, flatten_layout)`: the flat storage is
`get_flat_storage(m_e, flatten_strides, flatten_layout)`. -/
def ctor_flatten (e : xstrided_view α) (shape strides : List Nat) (offset : Nat)
    (layout : layout_type) (flatten_strides : List Nat) (flatten_layout : layout_type) :
    xstrided_view α :=
  { m_storage := get_flat_storage e flatten_strides flatten_layout,
    m_shape := shape,
    m_strides := strides,
    m_backstrides := adapt_strides shape strides,
    m_offset := offset,
    m_layout := layout }

end xstrided_view

/-- The function `strided_view(e, shape, strides, offset, layout)`. -/
def strided_view_of {α : Type} (e : xstrided_view α) (shape strides : List Nat)
    (offset : Nat) (layout : layout_type) : xstrided_view α :=
  xstrided_view.ctor e shape strides offset layout

/-! ## `ravel` and `flatten` -/

/-- The function `detail::transpose_layout`. -/
def transpose_layout (l : layout_type) : Except xerror layout_type :=
  if l ≠ layout_type.row_major ∧ l ≠ layout_type.column_major then .error .transpose_layout
  else .ok (transpose_layout_noexcept l)

/-- The overload `detail::build_ravel_view(e)`. -/
def build_ravel_view {α : Type} (e : xstrided_view α) : xstrided_view α :=
  let new_shape := [e.size]
  let new_strides := [1]
  let offset := get_offset e
  xstrided_view.ctor e new_shape new_strides offset layout_type.dynamic

/-- The overload `detail::build_ravel_view(e, flatten_strides, l)`. -/
def build_ravel_view_flatten {α : Type} (e : xstrided_view α) (flatten_strides : List Nat)
    (l : layout_type) : xstrided_view α :=
  let new_shape := [e.size]
  let new_strides := [1]
  let offset := get_offset e
  xstrided_view.ctor_flatten e new_shape new_strides offset layout_type.dynamic
    flatten_strides l

/-- The function `detail::ravel_impl<same_layout>::run(e)`. -/
def ravel_impl {α : Type} (same_layout : Bool) (e : xstrided_view α) :
    Except xerror (xstrided_view α) :=
  if same_layout = true then .ok (build_ravel_view e)
  else do
    let l ← transpose_layout e.m_layout
    let strides := compute_strides e.m_shape l
    .ok (build_ravel_view_flatten e strides l)

/-- The function `ravel<L>(e)`.  The static layout of the type of `e` (a
template parameter in the source) is the argument `static_layout`; it is
`dynamic` for every view that the functions of the header build. -/
def ravel {α : Type} (L static_layout : layout_type) (e : xstrided_view α) :
    Except xerror (xstrided_view α) :=
  ravel_impl (decide (static_layout = L)) e

/-- The function `flatten(e)`, `ravel<static_layout>(e)`. -/
def flatten {α : Type} (static_layout : layout_type) (e : xstrided_view α) :
    Except xerror (xstrided_view α) :=
  ravel static_layout static_layout e

/-! ## `squeeze` -/

/-- The function `squeeze(e)`. -/
def squeeze {α : Type} (e : xstrided_view α) : xstrided_view α :=
  let new_shape := e.m_shape.filter (fun i => i != 1)
  let old_strides := get_strides e
  let new_strides := old_strides.filter (fun i => i != 0)
  xstrided_view.ctor e new_shape new_strides 0 e.m_layout

/-- The variables of the loop of `squeeze_impl`. -/
structure squeeze_state where
  new_shape : List Nat
  new_strides : List Nat
  ix : Nat

/-- The body of the loop of `squeeze_impl`, at the axis `i`. -/
def squeeze_axis {α : Type} (e : xstrided_view α) (axis : List Nat) (st : squeeze_state)
    (i : Nat) : Except xerror squeeze_state :=
  if axis.contains i then .ok st
  else do
    let n ← read_at e.m_shape i
    let new_shape ← write_at st.new_shape st.ix n
    let s ← read_at (get_strides e) i
    let new_strides ← write_at st.new_strides st.ix s
    .ok { new_shape := new_shape, new_strides := new_strides, ix := size_add st.ix 1 }

/-- The loop `for (i = 0, ix = 0; i < e.dimension(); ++i)` of `squeeze_impl`,
over the axes that are left. -/
def squeeze_axes {α : Type} (e : xstrided_view α) (axis : List Nat) :
    List Nat → squeeze_state → Except xerror squeeze_state
  | [], st => .ok st
  | i :: rest, st =>
      match squeeze_axis e axis st i with
      | .ok st' => squeeze_axes e axis rest st'
      | .error err => .error err

/-- The overload `detail::squeeze_impl(e, axis, check_policy::none)`, for axes
of type `std::size_t`. -/
def squeeze_impl_none {α : Type} (e : xstrided_view α) (axis : List Nat) :
    Except xerror (xstrided_view α) := do
  let new_dim := size_sub e.dimension axis.length
  let st ← squeeze_axes e axis (List.range e.dimension)
    { new_shape := resize_container new_dim, new_strides := resize_container new_dim, ix := 0 }
  .ok (xstrided_view.ctor e st.new_shape st.new_strides 0 e.m_layout)

/-- The loop `for (auto ix : axis)` of `squeeze_impl(e, axis,
check_policy::full)`. -/
def squeeze_check {α : Type} (e : xstrided_view α) : List Nat → Except xerror Unit
  | [] => .ok ()
  | ix :: rest =>
      if ix > e.dimension then .error .squeeze_axis
      else do
        let n ← read_at e.m_shape ix
        if n ≠ 1 then .error .squeeze_not_one
        else squeeze_check e rest

/-- The overload `detail::squeeze_impl(e, axis, check_policy::full)`. -/
def squeeze_impl_full {α : Type} (e : xstrided_view α) (axis : List Nat) :
    Except xerror (xstrided_view α) := do
  squeeze_check e axis
  squeeze_impl_none e axis

/-- The function `squeeze(e, axis, check_policy)`. -/
def squeeze_axes_of {α : Type} (e : xstrided_view α) (axis : List Nat) :
    check_policy → Except xerror (xstrided_view α)
  | .none => squeeze_impl_none e axis
  | .full => squeeze_impl_full e axis

/-! ## `expand_dims` and `atleast_Nd` -/

/-- Checked write `sv[k] = x` of a `slice_vector`. -/
def write_slice (sv : List slice_variant) (k : Nat) (x : slice_variant) :
    Except xerror (List slice_variant) :=
  if k < sv.length then .ok (sv.set k x) else .error .out_of_bounds

/-- The function `expand_dims(e, axis)`. -/
def expand_dims {α : Type} (do_strides_match : List Nat → List Nat → layout_type → Bool)
    (e : xstrided_view α) (axis : Nat) : Except xerror (xstrided_view α) := do
  let sv := List.replicate (size_add e.dimension 1) slice_variant.all
  let sv ← write_slice sv axis slice_variant.newaxis
  strided_view do_strides_match e sv

/-- The value `static_cast<std::size_t>(std::round(double(a) / double(b)))` for
`a ≤ b` below `2 ^ 53`, where the conversions to `double` are exact and the
quotient is rounded to the nearest integer, a half going up. -/
def round_ratio (a b : Nat) : Nat := (2 * a + b) / (2 * b)

/-- The loops `for (; i < stop; ++i) sv[i] = xt::newaxis()` of `atleast_Nd`,
with `count` iterations left. -/
def fill_newaxis (sv : List slice_variant) (i : Nat) :
    Nat → Except xerror (List slice_variant)
  | 0 => .ok sv
  | count + 1 =>
      match write_slice sv i slice_variant.newaxis with
      | .ok sv' => fill_newaxis sv' (i + 1) count
      | .error err => .error err

/-- The slice vector `sv` that `atleast_Nd<N>(e)` builds before its `return`,
for an expression of the given dimension. -/
def atleast_Nd_slices (N : Nat) (dimension : Nat) : Except xerror (List slice_variant) :=
  let sv := List.replicate (max dimension N) slice_variant.all
  if dimension < N then do
    let i := 0
    let stop := round_ratio (size_sub N dimension) N
    let sv ← fill_newaxis sv i (stop - i)
    let i := size_add (max i stop) dimension
    let sv ← fill_newaxis sv i (N - i)
    .ok sv
  else
    .ok sv

/-- The function `atleast_Nd<N>(e)`. -/
def atleast_Nd {α : Type} (do_strides_match : List Nat → List Nat → layout_type → Bool)
    (N : Nat) (e : xstrided_view α) : Except xerror (xstrided_view α) := do
  let sv ← atleast_Nd_slices N e.dimension
  strided_view do_strides_match e sv


/-! ## `atleast_1d`, `atleast_2d`, `atleast_3d` -/

/-- The function `atleast_1d(e)`. -/
def atleast_1d {α : Type} (do_strides_match : List Nat → List Nat → layout_type → Bool)
    (e : xstrided_view α) : Except xerror (xstrided_view α) :=
  atleast_Nd do_strides_match 1 e

/-- The function `atleast_2d(e)`. -/
def atleast_2d {α : Type} (do_strides_match : List Nat → List Nat → layout_type → Bool)
    (e : xstrided_view α) : Except xerror (xstrided_view α) :=
  atleast_Nd do_strides_match 2 e

/-- The function `atleast_3d(e)`. -/
def atleast_3d {α : Type} (do_strides_match : List Nat → List Nat → layout_type → Bool)
    (e : xstrided_view α) : Except xerror (xstrided_view α) :=
  atleast_Nd do_strides_match 3 e

/-! ## `split` -/

/-- The cast `static_cast<std::ptrdiff_t>(v)` of a `std::size_t` (the macro
`XTENSOR_MS` of `get_strided_view_args`). -/
def XTENSOR_MS (v : Nat) : Int := if v < 2 ^ 63 then (v : Int) else (v : Int) - 2 ^ 64

/-- The loop `for (i = 0; i < n; ++i)` of `split`, over the values of `i` that
are left: `sv[axis] = range(i * step, (i + 1) * step)`, then
`result.emplace_back(strided_view(e, sv))`.  The bounds of the range, of type
`std::size_t`, are stored in the slice as `std::ptrdiff_t`. -/
def split_views {α : Type} (do_strides_match : List Nat → List Nat → layout_type → Bool)
    (e : xstrided_view α) (axis step : Nat) :
    List Nat → List slice_variant → Except xerror (List (xstrided_view α))
  | [], _ => .ok []
  | i :: rest, sv => do
      let sv ← write_slice sv axis
        (slice_variant.range (some (XTENSOR_MS (size_mul i step)))
          (some (XTENSOR_MS (size_mul (size_add i 1) step))) none)
      let v ← strided_view do_strides_match e sv
      let result ← split_views do_strides_match e axis step rest sv
      .ok (v :: result)

/-- The function `split(e, n, axis)`.  The division `ax_sz / n` by `n = 0` is
undefined behaviour. -/
def split {α : Type} (do_strides_match : List Nat → List Nat → layout_type → Bool)
    (e : xstrided_view α) (n axis : Nat) : Except xerror (List (xstrided_view α)) :=
  if axis ≥ e.dimension then .error .split_axis
  else do
    let ax_sz ← read_at e.m_shape axis
    let sv := List.replicate e.dimension slice_variant.all
    if n = 0 then .error .division_by_zero
    else
      let step := ax_sz / n
      let rest := ax_sz % n
      if rest ≠ 0 then .error .split_rest
      else split_views do_strides_match e axis step (List.range n) sv

/-! ## `flip` -/

/-- The function `flip(e, axis)`.  The strides of the result have a signed
type; a stride is kept as its value in the size type, so that `strides[axis] *= -1`
is the product by `static_cast<std::size_t>(-1)`. -/
def flip {α : Type} (e : xstrided_view α) (axis : Nat) : Except xerror (xstrided_view α) := do
  let shape := e.m_shape
  let old_strides := get_strides e
  let strides := old_strides
  let s ← read_at strides axis
  let strides ← write_at strides axis (size_mul s (XTENSOR_MU (-1)))
  let os ← read_at old_strides axis
  let n ← read_at e.m_shape axis
  let offset := size_mul os (size_sub n 1)
  .ok (strided_view_of e shape strides offset layout_type.dynamic)

/-! ## `trim_zeros` -/

/-- Modelled from the spec: the element that the iterator `e.cbegin() + k`
names, by the iterable base that is not in `xstrided_view.hpp`: the element of
`e` at the multi-index of `k` in row-major order, which is `(k)` for a 1-D
expression. -/
def iterate {α : Type} (e : xstrided_view α) (k : Nat) : Option α :=
  e.element (unravel_noexcept k (compute_strides e.m_shape layout_type.row_major)
    layout_type.row_major)

/-- The value `std::find_if(first, last, find_fun) - first` for the iterators
that name the elements at the positions of the list, in this order: the number
of elements equal to `0` before the first one that is not.  Reading an element
outside the storage is undefined behaviour. -/
def find_if_distance {α : Type} [Zero α] [DecidableEq α] (read : Nat → Option α) :
    List Nat → Except xerror Nat
  | [] => .ok 0
  | k :: rest =>
      match read k with
      | none => .error .out_of_bounds
      | some x =>
          if x ≠ 0 then .ok 0
          else
            match find_if_distance read rest with
            | .ok d => .ok (d + 1)
            | .error err => .error err

/-- Modelled from the spec: the macro `XTENSOR_ASSERT_MSG(expr, msg)`, which is
defined outside `xstrided_view.hpp`.  It is the assertion of a precondition: a
call with a false `expr` is signalled by the error `msg`. -/
def XTENSOR_ASSERT_MSG (expr : Bool) (msg : xerror) : Except xerror Unit :=
  if expr = true then .ok () else .error msg

/-- The function `trim_zeros(e, direction)`; its variables `begin` and `end`
are `start` and `stop` here. -/
def trim_zeros {α : Type} [Zero α] [DecidableEq α]
    (do_strides_match : List Nat → List Nat → layout_type → Bool)
    (e : xstrided_view α) (direction : String) : Except xerror (xstrided_view α) := do
  XTENSOR_ASSERT_MSG (decide (e.dimension = 1)) xerror.trim_zeros_dimension
  let start : Int := 0
  let stop : Int := XTENSOR_MS e.size
  let start ←
    if direction.data.contains 'f' then do
      let d ← find_if_distance (iterate e) (List.range e.size)
      .ok (d : Int)
    else .ok start
  let stop ←
    if direction.data.contains 'b' ∧ start ≠ stop then do
      let d ← find_if_distance (iterate e) (List.range e.size).reverse
      .ok (stop - (d : Int))
    else .ok stop
  strided_view do_strides_match e [slice_variant.range (some start) (some stop) none]


/-! ## `xstrided_view::is_trivial_broadcast` -/

/-- The algorithm `std::equal(first1, last1, first2)`: the elements of the
first range are compared, in order, with the elements of the second range from
its begin on.  Reading the second range past its end is undefined behaviour. -/
def std_equal : List Nat → List Nat → Except xerror Bool
  | [], _ => .ok true
  | _ :: _, [] => .error .out_of_bounds
  | a :: first, b :: second => if a = b then std_equal first second else .ok false

namespace xstrided_view

variable {α : Type}

/-- The member `is_trivial_broadcast(str)`:
`str.size() == strides().size() && std::equal(str.cbegin(), str.cend(), strides().begin())`. -/
def is_trivial_broadcast (v : xstrided_view α) (str : List Nat) : Except xerror Bool :=
  if str.length = v.m_strides.length then std_equal str v.m_strides else .ok false

end xstrided_view


/-! ## The effect of a slice list, as lists -/

/-- The triple `(start, length, step)` of a range against an axis of length `n`
(zeros when the reduction fails). -/
def range_info (start stop step : Option Int) (n : Nat) : Int × Int × Int :=
  match xrange_adaptor_get start stop step n with
  | .ok info => info
  | .error _ => (0, 0, 0)

/-- Number of source axes that a slice addresses, an ellipsis standing for
`n_add_all` of them. -/
def slice_axes (n_add_all : Nat) : slice_variant → Nat
  | .newaxis => 0
  | .ellipsis => n_add_all
  | _ => 1

/-- Number of view axes that a slice emits. -/
def slice_rank (n_add_all : Nat) : slice_variant → Nat
  | .index _ => 0
  | .ellipsis => n_add_all
  | _ => 1

/-- The lengths of the view axes that a slice addressed to the source axis
`axis` emits. -/
def slice_shape (shape : List Nat) (n_add_all : Nat) (el : slice_variant) (axis : Nat) :
    List Nat :=
  match el with
  | .index _ => []
  | .newaxis => [1]
  | .ellipsis => (shape.drop axis).take n_add_all
  | .all => [shape.getD axis 0]
  | .range start stop step => [XTENSOR_MU (range_info start stop step (shape.getD axis 0)).2.1]

/-- The strides of the view axes that a slice addressed to the source axis
`axis` emits. -/
def slice_strides (shape strides : List Nat) (n_add_all : Nat) (el : slice_variant)
    (axis : Nat) : List Nat :=
  match el with
  | .index _ => []
  | .newaxis => [0]
  | .ellipsis => (strides.drop axis).take n_add_all
  | .all => [strides.getD axis 0]
  | .range start stop step =>
      [size_mul (XTENSOR_MU (range_info start stop step (shape.getD axis 0)).2.2)
        (strides.getD axis 0)]

/-- What a slice addressed to the source axis `axis` adds to the offset. -/
def slice_offset (shape strides : List Nat) (el : slice_variant) (axis : Nat) : Nat :=
  match el with
  | .index k => XTENSOR_MU k * strides.getD axis 0
  | .range start stop step =>
      XTENSOR_MU (range_info start stop step (shape.getD axis 0)).1 * strides.getD axis 0
  | _ => 0

/-- The slice addressed to the source axis `axis` finds the axes it reads, and
reduces when it is a range. -/
def slice_addressed (shape : List Nat) (n_add_all : Nat) (el : slice_variant) (axis : Nat) :
    Prop :=
  match el with
  | .newaxis => True
  | .ellipsis => axis + n_add_all ≤ shape.length
  | .range start stop step =>
      axis < shape.length ∧
        xrange_adaptor_get start stop step (shape.getD axis 0)
          = .ok (range_info start stop step (shape.getD axis 0))
  | _ => axis < shape.length

/-- The source axis reached after the slices, the first of which is addressed to
`axis`. -/
def axis_after (n_add_all : Nat) : List slice_variant → Nat → Nat
  | [], axis => axis
  | el :: rest, axis => axis_after n_add_all rest (axis + slice_axes n_add_all el)

/-- The lengths of the view axes emitted by the slices. -/
def view_shape (shape : List Nat) (n_add_all : Nat) : List slice_variant → Nat → List Nat
  | [], _ => []
  | el :: rest, axis =>
      slice_shape shape n_add_all el axis
        ++ view_shape shape n_add_all rest (axis + slice_axes n_add_all el)

/-- The strides of the view axes emitted by the slices. -/
def view_strides (shape strides : List Nat) (n_add_all : Nat) :
    List slice_variant → Nat → List Nat
  | [], _ => []
  | el :: rest, axis =>
      slice_strides shape strides n_add_all el axis
        ++ view_strides shape strides n_add_all rest (axis + slice_axes n_add_all el)

/-- What the slices add to the offset (before reduction modulo `2 ^ 64`). -/
def view_offset (shape strides : List Nat) (n_add_all : Nat) : List slice_variant → Nat → Nat
  | [], _ => 0
  | el :: rest, axis =>
      slice_offset shape strides el axis
        + view_offset shape strides n_add_all rest (axis + slice_axes n_add_all el)

/-- Every slice finds the axes it reads. -/
def slices_addressed (shape : List Nat) (n_add_all : Nat) : List slice_variant → Nat → Prop
  | [], _ => True
  | el :: rest, axis =>
      slice_addressed shape n_add_all el axis
        ∧ slices_addressed shape n_add_all rest (axis + slice_axes n_add_all el)

/-- The state of the second loop when the source axis `axis` is reached: the view
axes written so far are `written_shape` and `written_strides`, and `room` zeros
follow them. -/
structure filled (st : view_args_state) (written_shape written_strides : List Nat)
    (room axis : Nat) : Prop where
  axis_eq : st.i - st.axis_skip = (axis : Int)
  shape_eq : st.new_shape = written_shape ++ List.replicate room 0
  strides_eq : st.new_strides = written_strides ++ List.replicate room 0
  length_shape : written_shape.length = st.idx
  length_strides : written_strides.length = st.idx
  bounded : st.idx + room < 2 ^ 64

/-- An integer slice. -/
def is_index : slice_variant → Bool
  | .index _ => true
  | _ => false

/-- A slice that is neither `newaxis` nor `ellipsis`: it addresses one source axis. -/
def is_addressing : slice_variant → Bool
  | .newaxis => false
  | .ellipsis => false
  | _ => true

/-- Number of `NewAxis` slices. -/
def n_newaxis_of (slices : List slice_variant) : Nat := slices.count .newaxis

/-- Number of `Index` slices. -/
def n_scalar_of (slices : List slice_variant) : Nat := slices.countP is_index

/-- Number of `Ellipsis` slices. -/
def n_ellipsis_of (slices : List slice_variant) : Nat := slices.count .ellipsis

/-- Number of slices that are neither `NewAxis` nor `Ellipsis`. -/
def n_addressing_of (slices : List slice_variant) : Nat := slices.countP is_addressing

/-- The expansion count of the ellipsis, in the spec's words:
`source_dim - (|slices| - 1 - n_newaxis)` when the list has an ellipsis. -/
def ellipsis_count (shape : List Nat) (slices : List slice_variant) : Nat :=
  if slice_variant.ellipsis ∈ slices then
    shape.length - (slices.length - 1 - n_newaxis_of slices)
  else 0

/-! ## The index translation of a slice list -/

/-- An `Index` lies inside its axis, and so do all the indices of a `Range`
(its first and its last one do). -/
def slice_inside (shape : List Nat) (el : slice_variant) (axis : Nat) : Bool :=
  match el with
  | .index k => decide (0 ≤ k) && decide (k < (shape.getD axis 0 : Int))
  | .range start stop step =>
      let info := range_info start stop step (shape.getD axis 0)
      decide (0 ≤ info.2.1) &&
        (decide (info.2.1 = 0) ||
          (decide (0 ≤ info.1) && decide (info.1 < (shape.getD axis 0 : Int)) &&
            decide (0 ≤ info.1 + (info.2.1 - 1) * info.2.2) &&
            decide (info.1 + (info.2.1 - 1) * info.2.2 < (shape.getD axis 0 : Int))))
  | _ => true

/-- Every `Index` and every `Range` of the list lies inside the axis it
addresses, the first slice being addressed to `axis`. -/
def slices_inside (shape : List Nat) (n_add_all : Nat) : List slice_variant → Nat → Bool
  | [], _ => true
  | el :: rest, axis =>
      slice_inside shape el axis
        && slices_inside shape n_add_all rest (axis + slice_axes n_add_all el)

/-- The source indices that one slice gives for the view indices `i` of the axes
it emits: an `Index(k)` axis gets `k`, a `Range` axis gets `start + i * step`, an
`All` axis or the axes of an `Ellipsis` get `i`, and a `NewAxis` gets nothing. -/
def translate_slice (shape : List Nat) (el : slice_variant) (axis : Nat) (i : List Nat) :
    List Nat :=
  match el with
  | .index k => [k.toNat]
  | .range start stop step =>
      let info := range_info start stop step (shape.getD axis 0)
      [(info.1 + (i.headD 0 : Int) * info.2.2).toNat]
  | .newaxis => []
  | .all => i
  | .ellipsis => i

/-- The index translation from the source axis `axis` on: each slice translates
the view indices of the axes it emits, and the trailing axes keep theirs. -/
def translate_from (shape : List Nat) (n_add_all : Nat) :
    List slice_variant → Nat → List Nat → List Nat
  | [], _, i => i
  | el :: rest, axis, i =>
      translate_slice shape el axis (i.take (slice_rank n_add_all el))
        ++ translate_from shape n_add_all rest (axis + slice_axes n_add_all el)
            (i.drop (slice_rank n_add_all el))

/-- The index translation `t` of a slice list: it sends a multi-index of the view
to the multi-index of the source. -/
def index_translation (shape : List Nat) (slices : List slice_variant) (i : List Nat) :
    List Nat :=
  translate_from shape (ellipsis_count shape slices) slices 0 i

/-- The sum of `i_k * strides[k]`. -/
def dot (i strides : List Nat) : Nat := (List.zipWith (fun x s => x * s) i strides).sum

/-- The multi-index `i` is in range for `shape`. -/
def in_range (i shape : List Nat) : Prop := List.Forall₂ (fun x n => x < n) i shape

/-- The entries of the permutation at the positions `l` are axes. -/
def axes_valid (dim : Nat) (permutation : List Int) (l : List Nat) : Prop :=
  ∀ i ∈ l, ∀ p, permutation[i]? = some p → XTENSOR_MU p < dim

/-- The error is a `transpose_error` of the header. -/
def is_transpose_error : xerror → Bool
  | .transpose_size => true
  | .transpose_axis => true
  | .transpose_twice => true
  | .transpose_layout => true
  | _ => false

/-! ## Concrete sources -/

/-- The row-major container `{{1, 2, 3}, {4, 5, 6}}` of the documentation of
`strided_view`. -/
def array_2x3 : xstrided_view Nat :=
  { m_storage := fun k => [1, 2, 3, 4, 5, 6][k]?,
    m_shape := [2, 3],
    m_strides := [3, 1],
    m_backstrides := [3, 2],
    m_offset := 0,
    m_layout := layout_type.row_major }

/-- A row-major container of shape `[2, 3, 4]` whose element at the flat
position `k` is `k`. -/
def array_2x3x4 : xstrided_view Nat :=
  { m_storage := fun k => if k < 24 then some k else none,
    m_shape := [2, 3, 4],
    m_strides := [12, 4, 1],
    m_backstrides := [12, 8, 3],
    m_offset := 0,
    m_layout := layout_type.row_major }

/-- A predicate `do_strides_match` that never holds, for the examples in which
the layout of the result plays no part. -/
def no_strides_match : List Nat → List Nat → layout_type → Bool := fun _ _ _ => false

/-- A view of shape `[2, 3, 4]` into a buffer of 32 elements, from the flat
position `5` on: a source with a data offset. -/
def array_2x3x4_from_5 : xstrided_view Nat :=
  { m_storage := fun k => if k < 32 then some k else none,
    m_shape := [2, 3, 4],
    m_strides := [12, 4, 1],
    m_backstrides := [12, 8, 3],
    m_offset := 5,
    m_layout := layout_type.row_major }

/-- A row-major container of shape `[3, 4]` whose element at the flat position
`k` is `k`. -/
def array_3x4 : xstrided_view Nat :=
  { m_storage := fun k => if k < 12 then some k else none,
    m_shape := [3, 4],
    m_strides := [4, 1],
    m_backstrides := [8, 3],
    m_offset := 0,
    m_layout := layout_type.row_major }

/-- The rows `1` and `2` of `array_3x4`, that is the view
`strided_view(array_3x4, {range(1, 3)})`: a source with data offset `4`. -/
def rows_1_2_of_3x4 : xstrided_view Nat :=
  xstrided_view.ctor array_3x4 [2, 4] [4, 1] 4 layout_type.dynamic

/-- A 1-D container of `4` elements whose element at the position `k` is `k`. -/
def array_4 : xstrided_view Nat :=
  { m_storage := fun k => if k < 4 then some k else none,
    m_shape := [4],
    m_strides := [1],
    m_backstrides := [3],
    m_offset := 0,
    m_layout := layout_type.row_major }

/-! ## Vocabulary for the later claims -/

/-- The errors of the second and third loops. -/
def is_loop_error : xerror → Bool
  | .out_of_bounds => true
  | .invalid_step => true
  | .out_of_fuel => true
  | _ => false

/-- A row-major container of shape `[4, 2]` whose element at the flat position
`k` is `k`. -/
def array_4x2 : xstrided_view Nat :=
  { m_storage := fun k => if k < 8 then some k else none,
    m_shape := [4, 2],
    m_strides := [2, 1],
    m_backstrides := [6, 1],
    m_offset := 0,
    m_layout := layout_type.row_major }

/-- The number of elements equal to `0` before the first element of the list
that is not `0` (the length of the list if it has none). -/
def leading_zeros {α : Type} [Zero α] [DecidableEq α] (l : List α) : Nat :=
  l.findIdx (fun x => decide (x ≠ 0))

/-- The first index that `trim_zeros` keeps, for the elements `l`: the number of
leading zeros when the direction has an `f`, else `0`. -/
def trim_start {α : Type} [Zero α] [DecidableEq α] (direction : String) (l : List α) : Nat :=
  if direction.data.contains 'f' then leading_zeros l else 0

/-- The index after the last one that `trim_zeros` keeps, for the elements `l`:
the length less the number of trailing zeros when the direction has a `b` and
the start is not the length, else the length. -/
def trim_stop {α : Type} [Zero α] [DecidableEq α] (direction : String) (l : List α) : Nat :=
  if direction.data.contains 'b' ∧ trim_start direction l ≠ l.length then
    l.length - leading_zeros l.reverse
  else l.length

/-- A 1-D container with the elements `0, 0, 1, 2, 0, 3, 0`. -/
def array_zeros : xstrided_view Nat :=
  { m_storage := fun k => [0, 0, 1, 2, 0, 3, 0][k]?,
    m_shape := [7],
    m_strides := [1],
    m_backstrides := [6],
    m_offset := 0,
    m_layout := layout_type.row_major }

/-- A row-major container of shape `[3, 1]` with the elements `1, 2, 3`. -/
def array_3x1 : xstrided_view Nat :=
  { m_storage := fun k => [1, 2, 3][k]?,
    m_shape := [3, 1],
    m_strides := [1, 1],
    m_backstrides := [2, 0],
    m_offset := 0,
    m_layout := layout_type.row_major }


/-! ## Vocabulary for the checks of the view builder -/

/-- The slice is no range with the step `0`. -/
def step_nonzero : slice_variant → Bool
  | .range _ _ step => decide (step.getD 1 ≠ 0)
  | _ => true

/-- No range of the list has the step `0`. -/
def steps_nonzero (l : List slice_variant) : Bool := l.all step_nonzero

/-- The slice, with `all` in the place of a range whose step is `0`: a slice
that addresses the same axis and emits one axis as well, and reduces. -/
def all_for_zero_step (el : slice_variant) : slice_variant :=
  if step_nonzero el = true then el else slice_variant.all

/-- The variables `new_shape`, `new_strides`, `offset`, `i`, `axis_skip` and
`idx` of `get_strided_view_args` after its three loops, before the layout is
chosen: the same statements as in `get_strided_view_args`. -/
def view_args_final (shape strides : List Nat) (base_offset : Nat)
    (slices : List slice_variant) : Except xerror view_args_state := do
  let c ← count_slices slices
    { dimension := shape.length, n_newaxis := 0,
      dimension_check := (shape.length : Int), has_ellipsis := false }
  if c.dimension_check < 0 then .error .too_many_slices
  else do
    let n_add_all : Nat :=
      if c.has_ellipsis = true then
        size_sub shape.length (size_sub (size_sub slices.length 1) c.n_newaxis)
      else 0
    let st ← apply_slices shape strides n_add_all slices
      { offset := base_offset,
        new_shape := List.replicate c.dimension 0,
        new_strides := List.replicate c.dimension 0,
        i := 0, axis_skip := 0, idx := 0 }
    append_trailing shape strides shape.length st


/-- The identity permutation `0, 1, ..., n - 1` of the axes, as a list of signed
integers. -/
def identity_permutation (n : Nat) : List Int := (List.range n).map (fun (i : Nat) => (i : Int))

/-! ## Lemmas on the view builder -/

theorem XTENSOR_MU_natCast (a : Nat) : XTENSOR_MU (a : Int) = a % 2 ^ 64 := by
  unfold XTENSOR_MU
  have : ((a : Int) % (2 ^ 64 : Int)) = ((a % 2 ^ 64 : Nat) : Int) := by push_cast; rfl
  rw [this, Int.toNat_natCast]

theorem XTENSOR_MU_of_lt {a : Nat} (h : a < 2 ^ 64) : XTENSOR_MU (a : Int) = a := by
  rw [XTENSOR_MU_natCast, Nat.mod_eq_of_lt h]

theorem XTENSOR_MU_lt (v : Int) : XTENSOR_MU v < 2 ^ 64 := by
  unfold XTENSOR_MU
  have h1 : 0 ≤ v % (2 ^ 64 : Int) := Int.emod_nonneg _ (by norm_num)
  have h2 : v % (2 ^ 64 : Int) < 2 ^ 64 := Int.emod_lt_of_pos _ (by norm_num)
  omega

theorem bind_ok {β γ : Type} {x : Except xerror β} {f : β → Except xerror γ} {c : γ}
    (h : (x >>= f) = .ok c) : ∃ b, x = .ok b ∧ f b = .ok c := by
  cases x with
  | error e => cases h
  | ok b => exact ⟨b, rfl, h⟩

theorem read_at_ok {v : List Nat} {k x : Nat} (h : read_at v k = .ok x) :
    k < v.length ∧ v.getD k 0 = x ∧ v[k]? = some x := by
  unfold read_at at h
  cases hk : v[k]? with
  | none => rw [hk] at h; cases h
  | some y =>
    rw [hk] at h
    injection h with h
    subst h
    refine ⟨?_, ?_, rfl⟩
    · exact (List.getElem?_eq_some_iff.mp hk).1
    · simp [List.getD, hk]

theorem read_at_of_lt {v : List Nat} {k : Nat} (h : k < v.length) :
    read_at v k = .ok (v.getD k 0) := by
  unfold read_at
  rw [List.getElem?_eq_getElem h]
  simp [List.getD, List.getElem?_eq_getElem h]

theorem write_at_ok {v l : List Nat} {k x : Nat} (h : write_at v k x = .ok l) :
    k < v.length ∧ l = v.set k x := by
  unfold write_at at h
  split at h
  · injection h with h; exact ⟨by assumption, h.symm⟩
  · cases h

/-- Writing at the first free position of a vector that ends in zeros. -/
theorem write_at_fill {pre l : List Nat} {r k x : Nat}
    (h : write_at (pre ++ List.replicate r 0) k x = .ok l) (hk : pre.length = k) :
    1 ≤ r ∧ l = (pre ++ [x]) ++ List.replicate (r - 1) 0 := by
  obtain ⟨h1, h2⟩ := write_at_ok h
  subst hk
  cases r with
  | zero => simp at h1
  | succ r =>
    refine ⟨by omega, ?_⟩
    rw [h2]
    simp [List.replicate_succ, List.set_append]

theorem drop_take_succ {l : List Nat} {a : Nat} (j : Nat) (h : a < l.length) :
    (l.drop a).take (j + 1) = l.getD a 0 :: (l.drop (a + 1)).take j := by
  rw [List.drop_eq_getElem_cons h, List.take_succ_cons]
  simp [List.getD, List.getElem?_eq_getElem h]

theorem size_add_one_of_lt {k n : Nat} (h : k < n) (hn : n < 2 ^ 64) : size_add k 1 = k + 1 := by
  unfold size_add
  exact Nat.mod_eq_of_lt (by omega)

/-- One emitted axis: the state after a read of the source axis `axis` and a
write of both vectors at `idx`. -/
theorem filled_emit {st : view_args_state} {psh psd : List Nat} {r a : Nat}
    {nsh nsd : List Nat} {x y : Nat} (i' skip' : Int) (o' : Nat) (a' : Nat)
    (hf : filled st psh psd r a)
    (h1 : write_at st.new_shape st.idx x = .ok nsh)
    (h2 : write_at st.new_strides st.idx y = .ok nsd)
    (ha : i' - skip' = (a' : Int)) :
    1 ≤ r ∧ filled { offset := o', new_shape := nsh, new_strides := nsd, i := i',
                     axis_skip := skip', idx := size_add st.idx 1 }
        (psh ++ [x]) (psd ++ [y]) (r - 1) a' := by
  rw [hf.shape_eq] at h1
  rw [hf.strides_eq] at h2
  obtain ⟨hr, e1⟩ := write_at_fill h1 hf.length_shape
  obtain ⟨_, e2⟩ := write_at_fill h2 hf.length_strides
  have hb := hf.bounded
  have hidx : size_add st.idx 1 = st.idx + 1 :=
    size_add_one_of_lt (n := st.idx + r) (by omega) hb
  refine ⟨hr, ⟨ha, e1, e2, ?_, ?_, ?_⟩⟩
  · simp [hidx, hf.length_shape]
  · simp [hidx, hf.length_strides]
  · simp only [hidx]; omega

theorem axis_read {shape : List Nat} {st : view_args_state} {psh psd : List Nat} {r a x : Nat}
    (hd : shape.length < 2 ^ 64) (l : List Nat) (hl : l.length = shape.length)
    (hf : filled st psh psd r a) (hal : a ≤ shape.length)
    (h : read_at l (XTENSOR_MU (st.i - st.axis_skip)) = .ok x) :
    a < shape.length ∧ x = l.getD a 0 := by
  rw [hf.axis_eq, XTENSOR_MU_of_lt (by omega)] at h
  obtain ⟨h1, h2, _⟩ := read_at_ok h
  exact ⟨by omega, h2.symm⟩

theorem add_all_axes_filled {shape strides : List Nat} (hd : shape.length < 2 ^ 64)
    (hs : strides.length = shape.length) :
    ∀ (j : Nat) (st st' : view_args_state) (psh psd : List Nat) (r a : Nat),
      add_all_axes shape strides j st = .ok st' → filled st psh psd r a → a ≤ shape.length →
      a + j ≤ shape.length ∧ j ≤ r ∧ st'.offset = st.offset ∧ st'.i = st.i ∧
      filled st' (psh ++ (shape.drop a).take j) (psd ++ (strides.drop a).take j) (r - j)
        (a + j) := by
  intro j
  induction j with
  | zero =>
    intro st st' psh psd r a h hf hal
    simp only [add_all_axes] at h
    injection h with h
    subst h
    simpa using ⟨hal, hf⟩
  | succ j ih =>
    intro st st' psh psd r a h hf hal
    simp only [add_all_axes] at h
    obtain ⟨sh, h1, h⟩ := bind_ok h
    obtain ⟨nsh, h2, h⟩ := bind_ok h
    obtain ⟨sd, h3, h⟩ := bind_ok h
    obtain ⟨nsd, h4, h⟩ := bind_ok h
    obtain ⟨ha1, hsh⟩ := axis_read hd shape rfl hf hal h1
    obtain ⟨_, hsd⟩ := axis_read hd strides hs hf hal h3
    have hax : st.i - (st.axis_skip - 1) = ((a + 1 : Nat) : Int) := by
      have := hf.axis_eq; push_cast; omega
    obtain ⟨hr, hf'⟩ := filled_emit st.i (st.axis_skip - 1) st.offset (a + 1) hf h2 h4 hax
    obtain ⟨k1, k2, k3, k4, k5⟩ := ih _ st' _ _ _ _ h hf' (by omega)
    refine ⟨by omega, by omega, k3, k4, ?_⟩
    have e1 : (shape.drop a).take (j + 1) = sh :: (shape.drop (a + 1)).take j := by
      rw [drop_take_succ j ha1, hsh]
    have e2 : (strides.drop a).take (j + 1) = sd :: (strides.drop (a + 1)).take j := by
      rw [drop_take_succ j (by omega), hsd]
    rw [e1, e2]
    have e3 : r - 1 - j = r - (j + 1) := by omega
    have e4 : a + 1 + j = a + (j + 1) := by omega
    simpa [e3, e4, List.append_assoc] using k5

theorem size_add_mul_mod (o a b : Nat) :
    size_add o (size_mul a b) % 2 ^ 64 = (o + a * b) % 2 ^ 64 := by
  unfold size_add size_mul
  rw [Nat.mod_mod, Nat.add_mod_mod]

/-- The effect of the body of the second loop on one slice. -/
theorem apply_slice_filled {shape strides : List Nat} {n_add_all : Nat}
    (hd : shape.length < 2 ^ 64) (hs : strides.length = shape.length)
    (el : slice_variant) (st st' : view_args_state) (psh psd : List Nat) (r a : Nat)
    (h : apply_slice shape strides n_add_all st el = .ok st')
    (hf : filled st psh psd r a) (hal : a ≤ shape.length) :
    slice_addressed shape n_add_all el a ∧
    a + slice_axes n_add_all el ≤ shape.length ∧
    slice_rank n_add_all el ≤ r ∧
    st'.offset % 2 ^ 64 = (st.offset + slice_offset shape strides el a) % 2 ^ 64 ∧
    filled st' (psh ++ slice_shape shape n_add_all el a)
      (psd ++ slice_strides shape strides n_add_all el a)
      (r - slice_rank n_add_all el) (a + slice_axes n_add_all el) := by
  have hax := hf.axis_eq
  cases el with
  | index k =>
    simp only [apply_slice] at h
    obtain ⟨sd, h1, h⟩ := bind_ok h
    injection h with h
    subst h
    obtain ⟨ha1, hsd⟩ := axis_read hd strides hs hf hal h1
    refine ⟨ha1, by simpa [slice_axes] using ha1, by simp [slice_rank], ?_, ?_⟩
    · simp only [slice_offset]
      rw [size_add_mul_mod, hsd]
    · simp only [slice_shape, slice_strides, slice_rank, slice_axes, List.append_nil]
      exact ⟨by simp only []; push_cast; omega, hf.shape_eq, hf.strides_eq, hf.length_shape,
        hf.length_strides, by simpa using hf.bounded⟩
  | newaxis =>
    simp only [apply_slice] at h
    obtain ⟨nsh, h1, h⟩ := bind_ok h
    injection h with h
    subst h
    have h1' := h1
    rw [hf.shape_eq] at h1'
    obtain ⟨hr, e1⟩ := write_at_fill h1' hf.length_shape
    have hb := hf.bounded
    have hidx : size_add st.idx 1 = st.idx + 1 :=
      size_add_one_of_lt (n := st.idx + r) (by omega) hb
    refine ⟨trivial, by simpa [slice_axes] using hal, by simpa [slice_rank] using hr,
      by simp [slice_offset], ?_⟩
    simp only [slice_shape, slice_strides, slice_rank, slice_axes]
    refine ⟨by simp only []; push_cast; omega, e1, ?_, ?_, ?_, ?_⟩
    · simp only []
      rw [hf.strides_eq]
      obtain ⟨r', rfl⟩ : ∃ r', r = r' + 1 := ⟨r - 1, by omega⟩
      simp [List.replicate_succ]
    · simp [hidx, hf.length_shape]
    · simp [hidx, hf.length_strides]
    · simp only [hidx]; omega
  | ellipsis =>
    simp only [apply_slice] at h
    obtain ⟨st1, h1, h⟩ := bind_ok h
    injection h with h
    subst h
    obtain ⟨k1, k2, k3, k4, k5⟩ := add_all_axes_filled hd hs _ _ _ _ _ _ _ h1 hf hal
    refine ⟨k1, k1, k2, by simp [slice_offset, k3], ?_⟩
    simp only [slice_shape, slice_strides, slice_rank, slice_axes]
    exact ⟨by have := k5.axis_eq; simp only []; omega, k5.shape_eq, k5.strides_eq,
      k5.length_shape, k5.length_strides, k5.bounded⟩
  | all =>
    simp only [apply_slice] at h
    obtain ⟨sh, h1, h⟩ := bind_ok h
    obtain ⟨nsh, h2, h⟩ := bind_ok h
    obtain ⟨sd, h3, h⟩ := bind_ok h
    obtain ⟨nsd, h4, h⟩ := bind_ok h
    injection h with h
    subst h
    obtain ⟨ha1, hsh⟩ := axis_read hd shape rfl hf hal h1
    obtain ⟨_, hsd⟩ := axis_read hd strides hs hf hal h3
    have hax' : st.i + 1 - st.axis_skip = ((a + 1 : Nat) : Int) := by push_cast; omega
    obtain ⟨hr, hf'⟩ := filled_emit (st.i + 1) st.axis_skip st.offset (a + 1) hf h2 h4 hax'
    refine ⟨ha1, by simpa [slice_axes] using ha1, by simpa [slice_rank] using hr,
      by simp [slice_offset], ?_⟩
    simp only [slice_shape, slice_strides, slice_rank, slice_axes]
    rw [← hsh, ← hsd]
    exact hf'
  | range start stop step =>
    simp only [apply_slice] at h
    obtain ⟨n, h1, h⟩ := bind_ok h
    obtain ⟨info, h2, h⟩ := bind_ok h
    obtain ⟨sd, h3, h⟩ := bind_ok h
    obtain ⟨nsh, h4, h⟩ := bind_ok h
    obtain ⟨nsd, h5, h⟩ := bind_ok h
    injection h with h
    subst h
    obtain ⟨ha1, hn⟩ := axis_read hd shape rfl hf hal h1
    obtain ⟨_, hsd⟩ := axis_read hd strides hs hf hal h3
    have hinfo : range_info start stop step (shape.getD a 0) = info := by
      unfold range_info
      rw [← hn, h2]
    have hax' : st.i + 1 - st.axis_skip = ((a + 1 : Nat) : Int) := by push_cast; omega
    obtain ⟨hr, hf'⟩ := filled_emit (st.i + 1) st.axis_skip
      (size_add st.offset (size_mul (XTENSOR_MU info.1) sd)) (a + 1) hf h4 h5 hax'
    refine ⟨⟨ha1, by rw [hinfo, ← hn, h2]⟩, by simpa [slice_axes] using ha1,
      by simpa [slice_rank] using hr, ?_, ?_⟩
    · simp only [slice_offset]
      rw [size_add_mul_mod, hinfo, hsd]
    · simp only [slice_shape, slice_strides, slice_rank, slice_axes]
      rw [hinfo, ← hsd]
      exact hf'

theorem slice_shape_length {shape : List Nat} {n_add_all : Nat} {el : slice_variant} {a : Nat}
    (h : slice_addressed shape n_add_all el a) :
    (slice_shape shape n_add_all el a).length = slice_rank n_add_all el := by
  cases el <;> simp only [slice_shape, slice_rank, List.length_nil, List.length_singleton]
  simp only [slice_addressed] at h
  rw [List.length_take, List.length_drop]
  omega

theorem slice_strides_length {shape strides : List Nat} {n_add_all : Nat} {el : slice_variant}
    {a : Nat} (hs : strides.length = shape.length) (h : slice_addressed shape n_add_all el a) :
    (slice_strides shape strides n_add_all el a).length = slice_rank n_add_all el := by
  cases el <;> simp only [slice_strides, slice_rank, List.length_nil, List.length_singleton]
  simp only [slice_addressed] at h
  rw [List.length_take, List.length_drop]
  omega

/-- The effect of the second loop. -/
theorem apply_slices_filled {shape strides : List Nat} {n_add_all : Nat}
    (hd : shape.length < 2 ^ 64) (hs : strides.length = shape.length) :
    ∀ (rest : List slice_variant) (st st' : view_args_state) (psh psd : List Nat) (r a : Nat),
      apply_slices shape strides n_add_all rest st = .ok st' →
      filled st psh psd r a → a ≤ shape.length →
      slices_addressed shape n_add_all rest a ∧
      axis_after n_add_all rest a ≤ shape.length ∧
      (view_shape shape n_add_all rest a).length ≤ r ∧
      st'.offset % 2 ^ 64 = (st.offset + view_offset shape strides n_add_all rest a) % 2 ^ 64 ∧
      filled st' (psh ++ view_shape shape n_add_all rest a)
        (psd ++ view_strides shape strides n_add_all rest a)
        (r - (view_shape shape n_add_all rest a).length) (axis_after n_add_all rest a) := by
  intro rest
  induction rest with
  | nil =>
    intro st st' psh psd r a h hf hal
    simp only [apply_slices] at h
    injection h with h
    subst h
    simpa [slices_addressed, axis_after, view_shape, view_strides, view_offset] using ⟨hal, hf⟩
  | cons el rest ih =>
    intro st st' psh psd r a h hf hal
    simp only [apply_slices] at h
    cases h1 : apply_slice shape strides n_add_all st el with
    | error err => rw [h1] at h; cases h
    | ok st1 =>
      rw [h1] at h
      obtain ⟨k1, k2, k3, k4, k5⟩ := apply_slice_filled hd hs el st st1 psh psd r a h1 hf hal
      obtain ⟨m1, m2, m3, m4, m5⟩ := ih st1 st' _ _ _ _ h k5 k2
      have hlen := slice_shape_length k1
      simp only [slices_addressed, axis_after, view_shape, view_strides, view_offset,
        List.length_append]
      refine ⟨⟨k1, m1⟩, m2, by omega, ?_, ?_⟩
      · rw [m4, Nat.add_mod, k4]
        omega
      · have e : r - slice_rank n_add_all el
            - (view_shape shape n_add_all rest (a + slice_axes n_add_all el)).length
            = r - ((slice_shape shape n_add_all el a).length
              + (view_shape shape n_add_all rest (a + slice_axes n_add_all el)).length) := by
          omega
        rw [← e, ← List.append_assoc, ← List.append_assoc]
        exact m5

theorem append_trailing_filled {shape strides : List Nat} (hd : shape.length < 2 ^ 64)
    (hs : strides.length = shape.length) :
    ∀ (fuel : Nat) (st st' : view_args_state) (psh psd : List Nat) (r a : Nat),
      append_trailing shape strides fuel st = .ok st' → filled st psh psd r a →
      a ≤ shape.length →
      shape.length - a ≤ r ∧ st'.offset = st.offset ∧
      filled st' (psh ++ shape.drop a) (psd ++ strides.drop a) (r - (shape.length - a))
        shape.length := by
  intro fuel
  induction fuel with
  | zero =>
    intro st st' psh psd r a h hf hal
    simp only [append_trailing] at h
    rw [hf.axis_eq, XTENSOR_MU_of_lt (by omega)] at h
    split at h
    · cases h
    · injection h with h
      subst h
      have e : a = shape.length := by omega
      subst e
      have e2 : List.drop shape.length strides = [] := by
        rw [← hs]; exact List.drop_length strides
      simpa [e2] using hf
  | succ fuel ih =>
    intro st st' psh psd r a h hf hal
    simp only [append_trailing] at h
    split at h
    · rename_i hc
      obtain ⟨sh, h1, h⟩ := bind_ok h
      obtain ⟨nsh, h2, h⟩ := bind_ok h
      obtain ⟨sd, h3, h⟩ := bind_ok h
      obtain ⟨nsd, h4, h⟩ := bind_ok h
      obtain ⟨ha1, hsh⟩ := axis_read hd shape rfl hf hal h1
      obtain ⟨_, hsd⟩ := axis_read hd strides hs hf hal h3
      have hax : st.i + 1 - st.axis_skip = ((a + 1 : Nat) : Int) := by
        have := hf.axis_eq; push_cast; omega
      obtain ⟨hr, hf'⟩ := filled_emit (st.i + 1) st.axis_skip st.offset (a + 1) hf h2 h4 hax
      obtain ⟨k1, k2, k3⟩ := ih _ st' _ _ _ _ h hf' (by omega)
      refine ⟨by omega, k2, ?_⟩
      have e1 : shape.drop a = sh :: shape.drop (a + 1) := by
        rw [List.drop_eq_getElem_cons ha1, hsh]
        simp [List.getD, List.getElem?_eq_getElem ha1]
      have e2 : strides.drop a = sd :: strides.drop (a + 1) := by
        have ha2 : a < strides.length := by omega
        rw [List.drop_eq_getElem_cons ha2, hsd]
        simp [List.getD, List.getElem?_eq_getElem ha2]
      rw [e1, e2]
      have e3 : r - 1 - (shape.length - (a + 1)) = r - (shape.length - a) := by omega
      simpa [e3, List.append_assoc] using k3
    · rename_i hc
      rw [hf.axis_eq, XTENSOR_MU_of_lt (by omega)] at hc
      injection h with h
      subst h
      have e : a = shape.length := by omega
      subst e
      have e2 : List.drop shape.length strides = [] := by
        rw [← hs]; exact List.drop_length strides
      simpa [e2] using hf

theorem XTENSOR_MU_cast (v : Int) : ((XTENSOR_MU v : Nat) : Int) = v % (2 ^ 64 : Int) := by
  unfold XTENSOR_MU
  exact Int.toNat_of_nonneg (Int.emod_nonneg _ (by norm_num))

theorem XTENSOR_MU_eq_of_nonneg {v : Int} (h0 : 0 ≤ v) (h1 : v < 2 ^ 64) :
    ((XTENSOR_MU v : Nat) : Int) = v := by
  rw [XTENSOR_MU_cast, Int.emod_eq_of_lt h0 h1]

theorem size_add_cast (a b : Nat) :
    ((size_add a b : Nat) : Int) = ((a : Int) + b) % (2 ^ 64 : Int) := by
  unfold size_add
  push_cast
  rfl

theorem size_sub_cast (a b : Nat) :
    ((size_sub a b : Nat) : Int) = ((a : Int) - b) % (2 ^ 64 : Int) := by
  unfold size_sub
  exact XTENSOR_MU_cast _

theorem size_add_lt (a b : Nat) : size_add a b < 2 ^ 64 := Nat.mod_lt _ (by norm_num)

theorem size_sub_lt (a b : Nat) : size_sub a b < 2 ^ 64 := XTENSOR_MU_lt _

/-- The counters after the first loop. -/
theorem count_slices_spec :
    ∀ (l : List slice_variant) (st st' : dimension_state), count_slices l st = .ok st' →
      st'.dimension_check = st.dimension_check - (n_addressing_of l : Int) ∧
      ((st'.n_newaxis : Int) % (2 ^ 64 : Int)
        = ((st.n_newaxis : Int) + n_newaxis_of l) % (2 ^ 64 : Int)) ∧
      ((st'.dimension : Int) % (2 ^ 64 : Int)
        = ((st.dimension : Int) + n_newaxis_of l - n_scalar_of l) % (2 ^ 64 : Int)) ∧
      (st.dimension < 2 ^ 64 → st'.dimension < 2 ^ 64) ∧
      (st.n_newaxis < 2 ^ 64 → st'.n_newaxis < 2 ^ 64) ∧
      st'.has_ellipsis = (st.has_ellipsis || decide (slice_variant.ellipsis ∈ l)) ∧
      n_ellipsis_of l + (if st.has_ellipsis = true then 1 else 0) ≤ 1 := by
  intro l
  induction l with
  | nil =>
    intro st st' h
    simp only [count_slices] at h
    injection h with h
    subst h
    simp [n_addressing_of, n_newaxis_of, n_scalar_of, n_ellipsis_of]
    split <;> simp
  | cons el rest ih =>
    intro st st' h
    simp only [count_slices] at h
    cases h1 : count_slice st el with
    | error err => rw [h1] at h; cases h
    | ok st1 =>
      rw [h1] at h
      obtain ⟨k1, k2, k3, k4, k5, k6, k7⟩ := ih st1 st' h
      cases el with
      | index k =>
        simp only [count_slice] at h1
        injection h1 with h1
        subst h1
        simp only [] at k1 k2 k3 k4 k5 k6 k7
        refine ⟨?_, ?_, ?_, fun _ => k4 (size_sub_lt _ _), k5, ?_, ?_⟩
        · simp [n_addressing_of, is_addressing, List.countP_cons] at k1 ⊢; omega
        · simpa [n_newaxis_of, List.count_cons] using k2
        · rw [k3, size_sub_cast]
          simp [n_newaxis_of, n_scalar_of, is_index, List.count_cons, List.countP_cons]
          omega
        · simpa using k6
        · simpa [n_ellipsis_of, List.count_cons] using k7
      | newaxis =>
        simp only [count_slice] at h1
        injection h1 with h1
        subst h1
        simp only [] at k1 k2 k3 k4 k5 k6 k7
        refine ⟨?_, ?_, ?_, fun _ => k4 (size_add_lt _ _), fun _ => k5 (size_add_lt _ _), ?_, ?_⟩
        · simp [n_addressing_of, is_addressing, List.countP_cons] at k1 ⊢; omega
        · rw [k2, size_add_cast]
          simp [n_newaxis_of, List.count_cons]
          omega
        · rw [k3, size_add_cast]
          simp [n_newaxis_of, n_scalar_of, is_index, List.count_cons, List.countP_cons]
          omega
        · simpa using k6
        · simpa [n_ellipsis_of, List.count_cons] using k7
      | ellipsis =>
        simp only [count_slice] at h1
        split at h1
        · cases h1
        · rename_i hne
          injection h1 with h1
          subst h1
          simp only [] at k1 k2 k3 k4 k5 k6 k7
          refine ⟨?_, ?_, ?_, k4, k5, ?_, ?_⟩
          · simp [n_addressing_of, is_addressing, List.countP_cons] at k1 ⊢; omega
          · simpa [n_newaxis_of, List.count_cons] using k2
          · simpa [n_newaxis_of, n_scalar_of, is_index, List.count_cons, List.countP_cons]
              using k3
          · simp [k6]
          · simp [n_ellipsis_of, List.count_cons] at k7 ⊢
            simp [hne]
            omega
      | all =>
        simp only [count_slice] at h1
        injection h1 with h1
        subst h1
        simp only [] at k1 k2 k3 k4 k5 k6 k7
        refine ⟨?_, ?_, ?_, k4, k5, ?_, ?_⟩
        · simp [n_addressing_of, is_addressing, List.countP_cons] at k1 ⊢; omega
        · simpa [n_newaxis_of, List.count_cons] using k2
        · simpa [n_newaxis_of, n_scalar_of, is_index, List.count_cons, List.countP_cons]
            using k3
        · simpa using k6
        · simpa [n_ellipsis_of, List.count_cons] using k7
      | range s e t =>
        simp only [count_slice] at h1
        injection h1 with h1
        subst h1
        simp only [] at k1 k2 k3 k4 k5 k6 k7
        refine ⟨?_, ?_, ?_, k4, k5, ?_, ?_⟩
        · simp [n_addressing_of, is_addressing, List.countP_cons] at k1 ⊢; omega
        · simpa [n_newaxis_of, List.count_cons] using k2
        · simpa [n_newaxis_of, n_scalar_of, is_index, List.count_cons, List.countP_cons]
            using k3
        · simpa using k6
        · simpa [n_ellipsis_of, List.count_cons] using k7
theorem length_eq_counts (l : List slice_variant) :
    l.length = n_newaxis_of l + n_addressing_of l + n_ellipsis_of l := by
  induction l with
  | nil => simp [n_newaxis_of, n_addressing_of, n_ellipsis_of]
  | cons el rest ih =>
    cases el <;>
      simp [n_newaxis_of, n_addressing_of, n_ellipsis_of, is_addressing, List.count_cons,
        List.countP_cons] at ih ⊢ <;> omega

theorem n_ellipsis_pos_of_mem {l : List slice_variant} (h : slice_variant.ellipsis ∈ l) :
    0 < n_ellipsis_of l := by
  unfold n_ellipsis_of
  exact List.count_pos_iff.mpr h

theorem n_ellipsis_zero_of_not_mem {l : List slice_variant} (h : slice_variant.ellipsis ∉ l) :
    n_ellipsis_of l = 0 := by
  unfold n_ellipsis_of
  exact List.count_eq_zero.mpr h

/-- The expansion count in the spec's words, when the list has one ellipsis and
does not address too many axes. -/
theorem ellipsis_count_eq {shape : List Nat} {slices : List slice_variant}
    (h1 : n_ellipsis_of slices ≤ 1) :
    ellipsis_count shape slices
      = if slice_variant.ellipsis ∈ slices then shape.length - n_addressing_of slices else 0 := by
  unfold ellipsis_count
  split
  · rename_i hm
    have := n_ellipsis_pos_of_mem hm
    have := length_eq_counts slices
    omega
  · rfl

/-- View axes emitted and source axes addressed differ by the numbers of
`NewAxis` and `Index` slices. -/
theorem view_shape_length {shape : List Nat} {n_add_all : Nat} :
    ∀ (l : List slice_variant) (a : Nat), slices_addressed shape n_add_all l a →
      (view_shape shape n_add_all l a).length + a + n_scalar_of l
        = axis_after n_add_all l a + n_newaxis_of l := by
  intro l
  induction l with
  | nil => intro a _; simp [view_shape, axis_after, n_scalar_of, n_newaxis_of]
  | cons el rest ih =>
    intro a h
    obtain ⟨h1, h2⟩ := h
    have e := ih _ h2
    have e1 := slice_shape_length h1
    simp only [view_shape, axis_after, List.length_append, e1]
    cases el <;>
      simp [n_scalar_of, n_newaxis_of, is_index, slice_rank, slice_axes, List.count_cons,
        List.countP_cons] at e ⊢ <;> omega

theorem view_strides_length {shape strides : List Nat} {n_add_all : Nat}
    (hs : strides.length = shape.length) :
    ∀ (l : List slice_variant) (a : Nat), slices_addressed shape n_add_all l a →
      (view_strides shape strides n_add_all l a).length
        = (view_shape shape n_add_all l a).length := by
  intro l
  induction l with
  | nil => intro a _; simp [view_shape, view_strides]
  | cons el rest ih =>
    intro a h
    obtain ⟨h1, h2⟩ := h
    simp only [view_shape, view_strides, List.length_append, ih _ h2, slice_shape_length h1,
      slice_strides_length hs h1]

/-- The value of `n_add_all` that the code computes. -/
theorem n_add_all_eq {shape : List Nat} {slices : List slice_variant} {c : dimension_state}
    (hd : shape.length < 2 ^ 64)
    (hc : count_slices slices
      { dimension := shape.length, n_newaxis := 0,
        dimension_check := (shape.length : Int), has_ellipsis := false } = .ok c)
    (hchk : ¬ c.dimension_check < 0) :
    (if c.has_ellipsis = true then
        size_sub shape.length (size_sub (size_sub slices.length 1) c.n_newaxis)
      else 0) = ellipsis_count shape slices := by
  obtain ⟨k1, k2, k3, k4, k5, k6, k7⟩ := count_slices_spec _ _ _ hc
  simp only [Bool.false_or] at k6
  simp only [Bool.false_eq_true, if_false, Nat.add_zero] at k7
  simp only [] at k1 k2 k5
  rw [ellipsis_count_eq k7, k6]
  by_cases hm : slice_variant.ellipsis ∈ slices
  · simp only [hm, decide_True, if_true]
    have p := n_ellipsis_pos_of_mem hm
    have q := length_eq_counts slices
    have hx := k5 (by norm_num)
    have e1 := size_sub_cast slices.length 1
    have e2 := size_sub_cast (size_sub slices.length 1) c.n_newaxis
    have e3 := size_sub_cast shape.length (size_sub (size_sub slices.length 1) c.n_newaxis)
    have : ((size_sub shape.length (size_sub (size_sub slices.length 1) c.n_newaxis) : Nat) : Int)
        = ((shape.length - n_addressing_of slices : Nat) : Int) := by
      rw [e3, e2, e1]
      push_cast at k2 ⊢
      omega
    exact_mod_cast this
  · simp [hm]
/-- What `get_strided_view_args` returns when it returns: the axes emitted by the
slices followed by the trailing source axes. -/
theorem get_strided_view_args_sound
    {dsm : List Nat → List Nat → layout_type → Bool} {shape strides : List Nat} {base : Nat}
    {layout : layout_type} {slices : List slice_variant}
    {sh sd : List Nat} {off : Nat} {lay : layout_type}
    (hd : shape.length < 2 ^ 64) (hs : strides.length = shape.length)
    (h : get_strided_view_args dsm shape strides base layout slices = .ok (sh, sd, off, lay)) :
    n_ellipsis_of slices ≤ 1 ∧ n_addressing_of slices ≤ shape.length ∧
    slices_addressed shape (ellipsis_count shape slices) slices 0 ∧
    axis_after (ellipsis_count shape slices) slices 0 ≤ shape.length ∧
    sh = view_shape shape (ellipsis_count shape slices) slices 0
          ++ shape.drop (axis_after (ellipsis_count shape slices) slices 0) ∧
    sd = view_strides shape strides (ellipsis_count shape slices) slices 0
          ++ strides.drop (axis_after (ellipsis_count shape slices) slices 0) ∧
    off % 2 ^ 64
      = (base + view_offset shape strides (ellipsis_count shape slices) slices 0) % 2 ^ 64 ∧
    lay = (if dsm sh sd layout = true then layout else layout_type.dynamic) ∧
    sh.length < 2 ^ 64 := by
  unfold get_strided_view_args at h
  obtain ⟨c, hc, h⟩ := bind_ok h
  split at h
  · cases h
  rename_i hchk
  obtain ⟨st1, h1, h⟩ := bind_ok h
  obtain ⟨st2, h2, h⟩ := bind_ok h
  rw [n_add_all_eq hd hc hchk] at h1
  obtain ⟨k1, k2, k3, k4, k5, k6, k7⟩ := count_slices_spec _ _ _ hc
  simp only [Bool.false_eq_true, if_false, Nat.add_zero] at k7
  simp only [] at k1 k3 k4
  have hdim := k4 hd
  have hf0 : filled
      { offset := base, new_shape := List.replicate c.dimension 0,
        new_strides := List.replicate c.dimension 0, i := 0, axis_skip := 0, idx := 0 }
      [] [] c.dimension 0 :=
    ⟨by simp, by simp, by simp, by simp, by simp, by simpa using hdim⟩
  obtain ⟨m1, m2, m3, m4, m5⟩ := apply_slices_filled hd hs slices _ st1 _ _ _ _ h1 hf0 (by omega)
  obtain ⟨t1, t2, t3⟩ := append_trailing_filled hd hs _ st1 st2 _ _ _ _ h2 m5 m2
  have hcount := view_shape_length slices 0 m1
  -- the vectors are filled exactly
  have hroom : c.dimension
      - (view_shape shape (ellipsis_count shape slices) slices 0).length
      - (shape.length - axis_after (ellipsis_count shape slices) slices 0) = 0 := by
    have hdimc : ((c.dimension : Nat) : Int) = (c.dimension : Int) % (2 ^ 64 : Int) :=
      (Int.emod_eq_of_lt (by omega) (by exact_mod_cast hdim)).symm
    rw [k3] at hdimc
    omega
  rw [hroom] at t3
  have e1 := t3.shape_eq
  have e2 := t3.strides_eq
  simp only [List.replicate_zero, List.append_nil, List.nil_append] at e1 e2
  injection h with h
  simp only [Prod.mk.injEq] at h
  obtain ⟨r1, r2, r3, r4⟩ := h
  refine ⟨k7, by omega, m1, m2, ?_, ?_, ?_, ?_, ?_⟩
  · rw [← r1, e1]
  · rw [← r2, e2]
  · rw [← r3, t2, m4]
  · rw [← r4, r1, r2]
  · have b1 := t3.length_shape
    have b2 := t3.bounded
    simp only [List.nil_append] at b1
    rw [← r1, e1, b1]
    omega
theorem dot_nil_left (s : List Nat) : dot [] s = 0 := by simp [dot]

theorem dot_cons (x : Nat) (i : List Nat) (y : Nat) (s : List Nat) :
    dot (x :: i) (y :: s) = x * y + dot i s := by simp [dot]

theorem dot_append {i1 s1 : List Nat} (i2 s2 : List Nat) (h : i1.length = s1.length) :
    dot (i1 ++ i2) (s1 ++ s2) = dot i1 s1 + dot i2 s2 := by
  unfold dot
  rw [List.zipWith_append _ _ _ _ _ h, List.sum_append]

theorem in_range_length {i shape : List Nat} (h : in_range i shape) : i.length = shape.length :=
  List.Forall₂.length_eq h

theorem data_offset_eq_dot {strides i : List Nat} (h : i.length = strides.length) :
    data_offset strides i = dot i strides % 2 ^ 64 := by
  unfold data_offset dot
  rw [h, Nat.sub_self, List.drop_zero]

theorem in_range_append_iff {i s1 s2 : List Nat} :
    in_range i (s1 ++ s2) ↔
      in_range (i.take s1.length) s1 ∧ in_range (i.drop s1.length) s2 := by
  unfold in_range
  constructor
  · intro h
    exact ⟨List.forall₂_take_append i s1 s2 h, List.forall₂_drop_append i s1 s2 h⟩
  · rintro ⟨h1, h2⟩
    have := List.rel_append h1 h2
    simpa using this

theorem in_range_append {i1 i2 s1 s2 : List Nat} (h1 : in_range i1 s1) (h2 : in_range i2 s2) :
    in_range (i1 ++ i2) (s1 ++ s2) := List.rel_append h1 h2

theorem drop_eq_take_append (l : List Nat) (a k : Nat) :
    l.drop a = (l.drop a).take k ++ l.drop (a + k) := by
  rw [← List.drop_drop, List.take_append_drop]
theorem take_one_drop {l : List Nat} {a : Nat} (h : a < l.length) :
    (l.drop a).take 1 = [l.getD a 0] := by
  have := drop_take_succ (l := l) 0 h
  simpa using this

theorem in_range_nil_right {i : List Nat} (h : in_range i []) : i = [] := by
  cases h; rfl

theorem in_range_singleton_right {i : List Nat} {n : Nat} (h : in_range i [n]) :
    ∃ j, i = [j] ∧ j < n := by
  cases h with
  | cons h1 h2 => cases h2; exact ⟨_, rfl, h1⟩

theorem XTENSOR_MU_of_nonneg {v : Int} (h : 0 ≤ v) : XTENSOR_MU v = v.toNat % 2 ^ 64 := by
  have e : XTENSOR_MU v = XTENSOR_MU ((v.toNat : Nat) : Int) := by
    rw [Int.toNat_of_nonneg h]
  rw [e, XTENSOR_MU_natCast]

theorem size_mul_cast (a b : Nat) :
    ((size_mul a b : Nat) : Int) = ((a : Int) * b) % (2 ^ 64 : Int) := by
  unfold size_mul
  push_cast
  rfl

/-- The indices of a range that lies inside its axis. -/
theorem range_index_inside {start len step : Int} {n j : Nat}
    (h0 : 0 ≤ start) (h1 : start < n) (h2 : 0 ≤ start + (len - 1) * step)
    (h3 : start + (len - 1) * step < n) (hj : (j : Int) ≤ len - 1) :
    0 ≤ start + (j : Int) * step ∧ start + (j : Int) * step < n := by
  have hj0 : (0 : Int) ≤ j := Int.natCast_nonneg j
  rcases le_or_lt 0 step with hstep | hstep
  · have a1 : (j : Int) * step ≤ (len - 1) * step := mul_le_mul_of_nonneg_right hj hstep
    have a2 : 0 ≤ (j : Int) * step := mul_nonneg hj0 hstep
    constructor <;> linarith
  · have a1 : (len - 1) * step ≤ (j : Int) * step :=
      mul_le_mul_of_nonpos_right hj (le_of_lt hstep)
    have a2 : (j : Int) * step ≤ 0 := mul_nonpos_of_nonneg_of_nonpos hj0 (le_of_lt hstep)
    constructor <;> linarith

/-- Address equivalence for one slice. -/
theorem translate_slice_spec {shape strides : List Nat} {n_add_all : Nat} {el : slice_variant}
    {a : Nat} (hs : strides.length = shape.length)
    (hadr : slice_addressed shape n_add_all el a) (hin : slice_inside shape el a = true)
    (i : List Nat) (hi : in_range i (slice_shape shape n_add_all el a)) :
    in_range (translate_slice shape el a i) ((shape.drop a).take (slice_axes n_add_all el)) ∧
    (dot i (slice_strides shape strides n_add_all el a) + slice_offset shape strides el a)
        % 2 ^ 64
      = dot (translate_slice shape el a i) ((strides.drop a).take (slice_axes n_add_all el))
        % 2 ^ 64 := by
  cases el with
  | index k =>
    simp only [slice_addressed] at hadr
    simp only [slice_shape] at hi
    have hi' := in_range_nil_right hi
    subst hi'
    simp only [slice_inside, Bool.and_eq_true, decide_eq_true_eq] at hin
    simp only [translate_slice, slice_axes, slice_strides, slice_offset,
      take_one_drop hadr, take_one_drop (hs ▸ hadr : a < strides.length)]
    constructor
    · refine List.Forall₂.cons ?_ List.Forall₂.nil
      omega
    · rw [XTENSOR_MU_of_nonneg hin.1]
      simp only [dot_nil_left, dot_cons, Nat.zero_add, Nat.add_zero]
      rw [Nat.mul_mod, Nat.mod_mod, ← Nat.mul_mod]
  | newaxis =>
    simp only [slice_shape] at hi
    obtain ⟨j, rfl, hj⟩ := in_range_singleton_right hi
    simp only [translate_slice, slice_axes, slice_strides, slice_offset, List.take_zero]
    exact ⟨List.Forall₂.nil, by simp [dot]⟩
  | ellipsis =>
    simp only [slice_shape] at hi
    simp only [translate_slice, slice_axes, slice_strides, slice_offset, Nat.add_zero]
    exact ⟨hi, trivial⟩
  | all =>
    simp only [slice_addressed] at hadr
    simp only [slice_shape] at hi
    simp only [translate_slice, slice_axes, slice_strides, slice_offset, Nat.add_zero,
      take_one_drop hadr, take_one_drop (hs ▸ hadr : a < strides.length)]
    exact ⟨hi, trivial⟩
  | range start stop step =>
    simp only [slice_addressed] at hadr
    simp only [slice_shape] at hi
    obtain ⟨j, rfl, hj⟩ := in_range_singleton_right hi
    simp only [slice_inside, Bool.and_eq_true, Bool.or_eq_true, decide_eq_true_eq] at hin
    simp only [translate_slice, slice_axes, slice_strides, slice_offset,
      take_one_drop hadr.1, take_one_drop (hs ▸ hadr.1 : a < strides.length), List.headD_cons]
    generalize range_info start stop step (shape.getD a 0) = info at hin hj ⊢
    obtain ⟨hlen, hcases⟩ := hin
    have hjlen : (j : Int) ≤ info.2.1 - 1 := by
      rw [XTENSOR_MU_of_nonneg hlen] at hj
      have : j < info.2.1.toNat := lt_of_lt_of_le hj (Nat.mod_le _ _)
      omega
    rcases hcases with h0 | ⟨⟨⟨b0, b1⟩, b2⟩, b3⟩
    · omega
    obtain ⟨c0, c1⟩ := range_index_inside b0 b1 b2 b3 hjlen
    constructor
    · refine List.Forall₂.cons ?_ List.Forall₂.nil
      omega
    · simp only [dot_cons, dot_nil_left, Nat.add_zero]
      have key : (((j * size_mul (XTENSOR_MU info.2.2) (strides.getD a 0)
            + XTENSOR_MU info.1 * strides.getD a 0 : Nat) : Int))
          ≡ (((info.1 + (j : Int) * info.2.2).toNat * strides.getD a 0 : Nat) : Int)
            [ZMOD ((2 ^ 64 : Nat) : Int)] := by
        push_cast
        rw [size_mul_cast, XTENSOR_MU_cast, XTENSOR_MU_cast, Int.toNat_of_nonneg c0]
        have e : (info.1 + (j : Int) * info.2.2) * (strides.getD a 0 : Int)
            = (j : Int) * (info.2.2 * (strides.getD a 0 : Int))
              + info.1 * (strides.getD a 0 : Int) := by ring
        rw [e]
        refine Int.ModEq.add (Int.ModEq.mul_left _ ?_) (Int.ModEq.mul_right _ ?_)
        · exact (Int.mod_modEq _ _).trans (Int.ModEq.mul_right _ (Int.mod_modEq _ _))
        · exact Int.mod_modEq _ _
      exact (Int.natCast_modEq_iff.mp key)
/-- Address equivalence for the slices from the source axis `a` on. -/
theorem translate_from_spec {shape strides : List Nat} {n_add_all : Nat}
    (hs : strides.length = shape.length) :
    ∀ (rest : List slice_variant) (a : Nat) (i : List Nat),
      slices_addressed shape n_add_all rest a →
      slices_inside shape n_add_all rest a = true →
      in_range i (view_shape shape n_add_all rest a
        ++ shape.drop (axis_after n_add_all rest a)) →
      in_range (translate_from shape n_add_all rest a i) (shape.drop a) ∧
      (dot i (view_strides shape strides n_add_all rest a
            ++ strides.drop (axis_after n_add_all rest a))
          + view_offset shape strides n_add_all rest a) % 2 ^ 64
        = dot (translate_from shape n_add_all rest a i) (strides.drop a) % 2 ^ 64 := by
  intro rest
  induction rest with
  | nil =>
    intro a i _ _ hi
    simpa [translate_from, view_shape, view_strides, view_offset, axis_after] using hi
  | cons el rest ih =>
    intro a i hadr hin hi
    obtain ⟨hadr1, hadr2⟩ := hadr
    simp only [slices_inside, Bool.and_eq_true] at hin
    obtain ⟨hin1, hin2⟩ := hin
    simp only [view_shape, axis_after, List.append_assoc] at hi
    obtain ⟨hi1, hi2⟩ := in_range_append_iff.mp hi
    have hlen := slice_shape_length hadr1
    have hlen' := slice_strides_length hs hadr1
    rw [hlen] at hi1 hi2
    obtain ⟨p1, p2⟩ := translate_slice_spec hs hadr1 hin1 _ hi1
    obtain ⟨q1, q2⟩ := ih _ _ hadr2 hin2 hi2
    simp only [translate_from, view_strides, view_offset, axis_after, List.append_assoc]
    constructor
    · rw [drop_eq_take_append shape a (slice_axes n_add_all el)]
      exact in_range_append p1 q1
    · have e1 : dot i (slice_strides shape strides n_add_all el a
            ++ (view_strides shape strides n_add_all rest (a + slice_axes n_add_all el)
              ++ strides.drop (axis_after n_add_all rest (a + slice_axes n_add_all el))))
          = dot (i.take (slice_rank n_add_all el))
              (slice_strides shape strides n_add_all el a)
            + dot (i.drop (slice_rank n_add_all el))
              (view_strides shape strides n_add_all rest (a + slice_axes n_add_all el)
                ++ strides.drop (axis_after n_add_all rest (a + slice_axes n_add_all el))) := by
        conv_lhs => rw [← List.take_append_drop (slice_rank n_add_all el) i]
        exact dot_append _ _ (by rw [in_range_length hi1, hlen, hlen'])
      have e2 : dot (translate_slice shape el a (i.take (slice_rank n_add_all el))
            ++ translate_from shape n_add_all rest (a + slice_axes n_add_all el)
                (i.drop (slice_rank n_add_all el))) (strides.drop a)
          = dot (translate_slice shape el a (i.take (slice_rank n_add_all el)))
              ((strides.drop a).take (slice_axes n_add_all el))
            + dot (translate_from shape n_add_all rest (a + slice_axes n_add_all el)
                (i.drop (slice_rank n_add_all el)))
              (strides.drop (a + slice_axes n_add_all el)) := by
        conv_lhs => rw [drop_eq_take_append strides a (slice_axes n_add_all el)]
        refine dot_append _ _ ?_
        rw [in_range_length p1]
        simp [List.length_take, List.length_drop, hs]
      rw [e1, e2]
      omega

/-- Lengths of the descriptor that `get_strided_view_args` returns. -/
theorem get_strided_view_args_length
    {dsm : List Nat → List Nat → layout_type → Bool} {shape strides : List Nat} {base : Nat}
    {layout : layout_type} {slices : List slice_variant}
    {sh sd : List Nat} {off : Nat} {lay : layout_type}
    (hd : shape.length < 2 ^ 64) (hs : strides.length = shape.length)
    (h : get_strided_view_args dsm shape strides base layout slices = .ok (sh, sd, off, lay)) :
    sd.length = sh.length ∧
    (sh.length : Int) = (shape.length : Int) + n_newaxis_of slices - n_scalar_of slices ∧
    sh.length < 2 ^ 64 := by
  obtain ⟨k1, k2, k3, k4, k5, k6, k7, k8, hlt⟩ := get_strided_view_args_sound hd hs h
  have e1 := view_shape_length slices 0 k3
  have e2 := view_strides_length hs slices 0 k3
  refine ⟨?_, ?_, hlt⟩
  · rw [k5, k6]
    simp [e2, hs]
  · rw [k5]
    simp only [List.length_append, List.length_drop]
    omega
theorem ok_bind {β γ : Type} (b : β) (f : β → Except xerror γ) :
    ((Except.ok b : Except xerror β) >>= f) = f b := rfl

theorem write_at_of_lt {v : List Nat} {k : Nat} (x : Nat) (h : k < v.length) :
    write_at v k x = .ok (v.set k x) := by
  unfold write_at
  rw [if_pos h]

theorem filled_idx_lt {st : view_args_state} {psh psd : List Nat} {r a : Nat}
    (hf : filled st psh psd r a) (hr : 1 ≤ r) :
    st.idx < st.new_shape.length ∧ st.idx < st.new_strides.length := by
  rw [hf.shape_eq, hf.strides_eq]
  simp only [List.length_append, List.length_replicate, hf.length_shape, hf.length_strides]
  omega

theorem filled_axis {shape : List Nat} {st : view_args_state} {psh psd : List Nat} {r a : Nat}
    (hd : shape.length < 2 ^ 64) (hf : filled st psh psd r a) (hal : a ≤ shape.length) :
    XTENSOR_MU (st.i - st.axis_skip) = a := by
  rw [hf.axis_eq, XTENSOR_MU_of_lt (by omega)]

/-- The inner loop of the ellipsis branch succeeds when the axes exist and there
is room for them. -/
theorem add_all_axes_complete {shape strides : List Nat} (hd : shape.length < 2 ^ 64)
    (hs : strides.length = shape.length) :
    ∀ (j : Nat) (st : view_args_state) (psh psd : List Nat) (r a : Nat),
      filled st psh psd r a → a + j ≤ shape.length → j ≤ r →
      ∃ st', add_all_axes shape strides j st = .ok st' := by
  intro j
  induction j with
  | zero => intro st _ _ _ _ _ _ _; exact ⟨st, rfl⟩
  | succ j ih =>
    intro st psh psd r a hf haj hjr
    obtain ⟨w1, w2⟩ := filled_idx_lt hf (by omega)
    have hax := filled_axis hd hf (by omega)
    have r1 : read_at shape (XTENSOR_MU (st.i - st.axis_skip)) = .ok (shape.getD a 0) := by
      rw [hax]; exact read_at_of_lt (by omega)
    have r2 : read_at strides (XTENSOR_MU (st.i - st.axis_skip)) = .ok (strides.getD a 0) := by
      rw [hax]; exact read_at_of_lt (by omega)
    have hax' : st.i - (st.axis_skip - 1) = ((a + 1 : Nat) : Int) := by
      have := hf.axis_eq; push_cast; omega
    obtain ⟨_, hf'⟩ := filled_emit st.i (st.axis_skip - 1) st.offset (a + 1) hf
      (write_at_of_lt (shape.getD a 0) w1) (write_at_of_lt (strides.getD a 0) w2) hax'
    obtain ⟨st', h'⟩ := ih _ _ _ _ _ hf' (by omega) (by omega)
    refine ⟨st', ?_⟩
    simp only [add_all_axes, r1, r2, write_at_of_lt _ w1, write_at_of_lt _ w2]
    exact h'

/-- The body of the second loop succeeds on a slice that finds its axes and has
room for the axes it emits. -/
theorem apply_slice_complete {shape strides : List Nat} {n_add_all : Nat}
    (hd : shape.length < 2 ^ 64) (hs : strides.length = shape.length)
    (el : slice_variant) (st : view_args_state) (psh psd : List Nat) (r a : Nat)
    (hf : filled st psh psd r a) (hal : a ≤ shape.length)
    (hadr : slice_addressed shape n_add_all el a) (hr : slice_rank n_add_all el ≤ r) :
    ∃ st', apply_slice shape strides n_add_all st el = .ok st' := by
  have hax := filled_axis hd hf hal
  cases el with
  | index k =>
    simp only [slice_addressed] at hadr
    have r2 : read_at strides (XTENSOR_MU (st.i - st.axis_skip)) = .ok (strides.getD a 0) := by
      rw [hax]; exact read_at_of_lt (by omega)
    simp only [apply_slice, r2]
    exact ⟨_, rfl⟩
  | newaxis =>
    simp only [slice_rank] at hr
    obtain ⟨w1, _⟩ := filled_idx_lt hf hr
    simp only [apply_slice, write_at_of_lt _ w1]
    exact ⟨_, rfl⟩
  | ellipsis =>
    simp only [slice_addressed] at hadr
    simp only [slice_rank] at hr
    obtain ⟨st1, h1⟩ := add_all_axes_complete hd hs n_add_all st psh psd r a hf hadr hr
    simp only [apply_slice, h1]
    exact ⟨_, rfl⟩
  | all =>
    simp only [slice_addressed] at hadr
    simp only [slice_rank] at hr
    obtain ⟨w1, w2⟩ := filled_idx_lt hf hr
    have r1 : read_at shape (XTENSOR_MU (st.i - st.axis_skip)) = .ok (shape.getD a 0) := by
      rw [hax]; exact read_at_of_lt (by omega)
    have r2 : read_at strides (XTENSOR_MU (st.i - st.axis_skip)) = .ok (strides.getD a 0) := by
      rw [hax]; exact read_at_of_lt (by omega)
    simp only [apply_slice, r1, r2, write_at_of_lt _ w1, write_at_of_lt _ w2]
    exact ⟨_, rfl⟩
  | range start stop step =>
    simp only [slice_addressed] at hadr
    simp only [slice_rank] at hr
    obtain ⟨w1, w2⟩ := filled_idx_lt hf hr
    have r1 : read_at shape (XTENSOR_MU (st.i - st.axis_skip)) = .ok (shape.getD a 0) := by
      rw [hax]; exact read_at_of_lt (by omega)
    have r2 : read_at strides (XTENSOR_MU (st.i - st.axis_skip)) = .ok (strides.getD a 0) := by
      rw [hax]; exact read_at_of_lt (by omega)
    simp only [apply_slice, r1, ok_bind, hadr.2, r2, write_at_of_lt _ w1, write_at_of_lt _ w2]
    exact ⟨_, rfl⟩

/-- The second loop succeeds on slices that find their axes and have room. -/
theorem apply_slices_complete {shape strides : List Nat} {n_add_all : Nat}
    (hd : shape.length < 2 ^ 64) (hs : strides.length = shape.length) :
    ∀ (rest : List slice_variant) (st : view_args_state) (psh psd : List Nat) (r a : Nat),
      filled st psh psd r a → a ≤ shape.length →
      slices_addressed shape n_add_all rest a →
      (view_shape shape n_add_all rest a).length ≤ r →
      ∃ st', apply_slices shape strides n_add_all rest st = .ok st' := by
  intro rest
  induction rest with
  | nil => intro st _ _ _ _ _ _ _ _; exact ⟨st, rfl⟩
  | cons el rest ih =>
    intro st psh psd r a hf hal hadr hr
    obtain ⟨hadr1, hadr2⟩ := hadr
    simp only [view_shape, List.length_append, slice_shape_length hadr1] at hr
    obtain ⟨st1, h1⟩ := apply_slice_complete hd hs el st psh psd r a hf hal hadr1 (by omega)
    obtain ⟨_, k2, _, _, k5⟩ := apply_slice_filled hd hs el st st1 psh psd r a h1 hf hal
    obtain ⟨st', h'⟩ := ih st1 _ _ _ _ k5 k2 hadr2 (by omega)
    refine ⟨st', ?_⟩
    simp only [apply_slices, h1]
    exact h'

/-- The third loop succeeds when there is room for the trailing axes. -/
theorem append_trailing_complete {shape strides : List Nat} (hd : shape.length < 2 ^ 64)
    (hs : strides.length = shape.length) :
    ∀ (fuel : Nat) (st : view_args_state) (psh psd : List Nat) (r a : Nat),
      filled st psh psd r a → a ≤ shape.length → shape.length - a ≤ r →
      shape.length - a ≤ fuel →
      ∃ st', append_trailing shape strides fuel st = .ok st' := by
  intro fuel
  induction fuel with
  | zero =>
    intro st psh psd r a hf hal _ hfuel
    have hax := filled_axis hd hf hal
    simp only [append_trailing, hax]
    rw [if_neg (by omega)]
    exact ⟨_, rfl⟩
  | succ fuel ih =>
    intro st psh psd r a hf hal hr hfuel
    have hax := filled_axis hd hf hal
    simp only [append_trailing, hax]
    by_cases hc : a < shape.length
    · rw [if_pos hc]
      obtain ⟨w1, w2⟩ := filled_idx_lt hf (by omega)
      have hax' : st.i + 1 - st.axis_skip = ((a + 1 : Nat) : Int) := by
        have := hf.axis_eq; push_cast; omega
      obtain ⟨_, hf'⟩ := filled_emit (st.i + 1) st.axis_skip st.offset (a + 1) hf
        (write_at_of_lt (shape.getD a 0) w1) (write_at_of_lt (strides.getD a 0) w2) hax'
      obtain ⟨st', h'⟩ := ih _ _ _ _ _ hf' (by omega) (by omega) (by omega)
      refine ⟨st', ?_⟩
      simp only [read_at_of_lt hc, read_at_of_lt (hs ▸ hc : a < strides.length),
        write_at_of_lt _ w1, write_at_of_lt _ w2]
      exact h'
    · rw [if_neg hc]
      exact ⟨_, rfl⟩

/-- The first loop succeeds when there is at most one ellipsis. -/
theorem count_slices_complete :
    ∀ (l : List slice_variant) (st : dimension_state),
      n_ellipsis_of l + (if st.has_ellipsis = true then 1 else 0) ≤ 1 →
      ∃ st', count_slices l st = .ok st' := by
  intro l
  induction l with
  | nil => intro st _; exact ⟨st, rfl⟩
  | cons el rest ih =>
    intro st h
    cases el with
    | ellipsis =>
      simp only [n_ellipsis_of, List.count_cons_self] at h
      have hne : ¬ st.has_ellipsis = true := by
        intro hc; simp [hc] at h
      simp only [count_slices, count_slice, if_neg hne]
      exact ih _ (by simp [n_ellipsis_of] at h ⊢; omega)
    | index k =>
      simp only [count_slices, count_slice]
      exact ih _ (by simpa [n_ellipsis_of, List.count_cons] using h)
    | newaxis =>
      simp only [count_slices, count_slice]
      exact ih _ (by simpa [n_ellipsis_of, List.count_cons] using h)
    | all =>
      simp only [count_slices, count_slice]
      exact ih _ (by simpa [n_ellipsis_of, List.count_cons] using h)
    | range s e t =>
      simp only [count_slices, count_slice]
      exact ih _ (by simpa [n_ellipsis_of, List.count_cons] using h)
theorem n_scalar_le_n_addressing (l : List slice_variant) :
    n_scalar_of l ≤ n_addressing_of l := by
  unfold n_scalar_of n_addressing_of
  apply List.countP_mono_left
  intro x _ hx
  cases x <;> simp_all [is_index, is_addressing]

theorem axis_after_le {shape : List Nat} {n_add_all : Nat} :
    ∀ (l : List slice_variant) (a : Nat), slices_addressed shape n_add_all l a →
      a ≤ shape.length → axis_after n_add_all l a ≤ shape.length := by
  intro l
  induction l with
  | nil => intro a _ h; simpa [axis_after] using h
  | cons el rest ih =>
    intro a h hal
    obtain ⟨h1, h2⟩ := h
    simp only [axis_after]
    apply ih _ h2
    cases el <;> simp only [slice_addressed, slice_axes] at h1 ⊢ <;> omega

/-- The builder returns when the first loop accepts the list, every slice finds
its axes, and the dimension of the view fits in a `std::size_t`. -/
theorem get_strided_view_args_complete
    (dsm : List Nat → List Nat → layout_type → Bool) {shape strides : List Nat} (base : Nat)
    (layout : layout_type) {slices : List slice_variant}
    (hd : shape.length < 2 ^ 64) (hs : strides.length = shape.length)
    (hD : (shape.length : Int) + n_newaxis_of slices - n_scalar_of slices < 2 ^ 64)
    (he : n_ellipsis_of slices ≤ 1) (ha : n_addressing_of slices ≤ shape.length)
    (hadr : slices_addressed shape (ellipsis_count shape slices) slices 0) :
    ∃ res, get_strided_view_args dsm shape strides base layout slices = .ok res := by
  obtain ⟨c, hc⟩ := count_slices_complete slices
    { dimension := shape.length, n_newaxis := 0,
      dimension_check := (shape.length : Int), has_ellipsis := false } (by simpa using he)
  obtain ⟨k1, k2, k3, k4, k5, k6, k7⟩ := count_slices_spec _ _ _ hc
  simp only [] at k1 k3 k4
  have hchk : ¬ c.dimension_check < 0 := by omega
  have hdim := k4 hd
  have hsc := n_scalar_le_n_addressing slices
  have hdimc : ((c.dimension : Nat) : Int)
      = (shape.length : Int) + n_newaxis_of slices - n_scalar_of slices := by
    have e : ((c.dimension : Nat) : Int) = (c.dimension : Int) % (2 ^ 64 : Int) :=
      (Int.emod_eq_of_lt (by omega) (by exact_mod_cast hdim)).symm
    rw [e, k3]
    exact Int.emod_eq_of_lt (by omega) hD
  have hcount := view_shape_length slices 0 hadr
  have haa := axis_after_le slices 0 hadr (by omega)
  have hf0 : filled
      { offset := base, new_shape := List.replicate c.dimension 0,
        new_strides := List.replicate c.dimension 0, i := 0, axis_skip := 0, idx := 0 }
      [] [] c.dimension 0 :=
    ⟨by simp, by simp, by simp, by simp, by simp, by simpa using hdim⟩
  obtain ⟨st1, h1⟩ := apply_slices_complete hd hs slices _ _ _ _ _ hf0 (by omega) hadr
    (by omega)
  obtain ⟨m1, m2, m3, m4, m5⟩ := apply_slices_filled hd hs slices _ st1 _ _ _ _ h1 hf0 (by omega)
  obtain ⟨st2, h2⟩ := append_trailing_complete hd hs shape.length st1 _ _ _ _ m5 m2
    (by omega) (by omega)
  refine ⟨(st2.new_shape, st2.new_strides, st2.offset,
    if dsm st2.new_shape st2.new_strides layout = true then layout
    else layout_type.dynamic), ?_⟩
  unfold get_strided_view_args
  simp only [hc, ok_bind, if_neg hchk, n_add_all_eq hd hc hchk, h1, h2]
theorem add_all_axes_offset {shape strides : List Nat} :
    ∀ (j : Nat) (st st' : view_args_state),
      add_all_axes shape strides j st = .ok st' → st'.offset = st.offset := by
  intro j
  induction j with
  | zero =>
    intro st st' h
    simp only [add_all_axes] at h
    injection h with h
    rw [← h]
  | succ j ih =>
    intro st st' h
    simp only [add_all_axes] at h
    obtain ⟨sh, h1, h⟩ := bind_ok h
    obtain ⟨nsh, h2, h⟩ := bind_ok h
    obtain ⟨sd, h3, h⟩ := bind_ok h
    obtain ⟨nsd, h4, h⟩ := bind_ok h
    have e := ih _ _ h
    exact e

theorem apply_slice_offset_lt {shape strides : List Nat} {n_add_all : Nat}
    {st st' : view_args_state} {el : slice_variant}
    (h : apply_slice shape strides n_add_all st el = .ok st') (ho : st.offset < 2 ^ 64) :
    st'.offset < 2 ^ 64 := by
  cases el with
  | index k =>
    simp only [apply_slice] at h
    obtain ⟨sd, h1, h⟩ := bind_ok h
    injection h with h
    subst h
    exact size_add_lt _ _
  | newaxis =>
    simp only [apply_slice] at h
    obtain ⟨nsh, h1, h⟩ := bind_ok h
    injection h with h
    subst h
    exact ho
  | ellipsis =>
    simp only [apply_slice] at h
    obtain ⟨st1, h1, h⟩ := bind_ok h
    injection h with h
    subst h
    simp only []
    rw [add_all_axes_offset _ _ _ h1]
    exact ho
  | all =>
    simp only [apply_slice] at h
    obtain ⟨sh, h1, h⟩ := bind_ok h
    obtain ⟨nsh, h2, h⟩ := bind_ok h
    obtain ⟨sd, h3, h⟩ := bind_ok h
    obtain ⟨nsd, h4, h⟩ := bind_ok h
    injection h with h
    subst h
    exact ho
  | range start stop step =>
    simp only [apply_slice] at h
    obtain ⟨n, h1, h⟩ := bind_ok h
    obtain ⟨info, h2, h⟩ := bind_ok h
    obtain ⟨sd, h3, h⟩ := bind_ok h
    obtain ⟨nsh, h4, h⟩ := bind_ok h
    obtain ⟨nsd, h5, h⟩ := bind_ok h
    injection h with h
    subst h
    exact size_add_lt _ _

theorem apply_slices_offset_lt {shape strides : List Nat} {n_add_all : Nat} :
    ∀ (rest : List slice_variant) (st st' : view_args_state),
      apply_slices shape strides n_add_all rest st = .ok st' → st.offset < 2 ^ 64 →
      st'.offset < 2 ^ 64 := by
  intro rest
  induction rest with
  | nil =>
    intro st st' h ho
    simp only [apply_slices] at h
    injection h with h
    rw [← h]; exact ho
  | cons el rest ih =>
    intro st st' h ho
    simp only [apply_slices] at h
    cases h1 : apply_slice shape strides n_add_all st el with
    | error err => rw [h1] at h; cases h
    | ok st1 =>
      rw [h1] at h
      have e := ih _ _ h (apply_slice_offset_lt h1 ho)
      exact e

/-- The descriptor that `get_strided_view_args` returns, in closed form. -/
theorem get_strided_view_args_eq
    {dsm : List Nat → List Nat → layout_type → Bool} {shape strides : List Nat} {base : Nat}
    {layout : layout_type} {slices : List slice_variant}
    {sh sd : List Nat} {off : Nat} {lay : layout_type}
    (hd : shape.length < 2 ^ 64) (hs : strides.length = shape.length) (hb : base < 2 ^ 64)
    (h : get_strided_view_args dsm shape strides base layout slices = .ok (sh, sd, off, lay)) :
    sh = view_shape shape (ellipsis_count shape slices) slices 0
          ++ shape.drop (axis_after (ellipsis_count shape slices) slices 0) ∧
    sd = view_strides shape strides (ellipsis_count shape slices) slices 0
          ++ strides.drop (axis_after (ellipsis_count shape slices) slices 0) ∧
    off = (base + view_offset shape strides (ellipsis_count shape slices) slices 0) % 2 ^ 64 ∧
    lay = (if dsm sh sd layout = true then layout else layout_type.dynamic) := by
  obtain ⟨_, _, _, _, k5, k6, k7, k8, _⟩ := get_strided_view_args_sound hd hs h
  refine ⟨k5, k6, ?_, k8⟩
  have hlt : off < 2 ^ 64 := by
    unfold get_strided_view_args at h
    obtain ⟨c, hc, h⟩ := bind_ok h
    split at h
    · cases h
    obtain ⟨st1, h1, h⟩ := bind_ok h
    obtain ⟨st2, h2, h⟩ := bind_ok h
    injection h with h
    simp only [Prod.mk.injEq] at h
    have o1 := apply_slices_offset_lt _ _ _ h1 hb
    obtain ⟨c1, c2, c3, c4, c5, c6, c7⟩ := count_slices_spec _ _ _ hc
    simp only [] at c4
    have hf0 : filled
        { offset := base, new_shape := List.replicate c.dimension 0,
          new_strides := List.replicate c.dimension 0, i := 0, axis_skip := 0, idx := 0 }
        [] [] c.dimension 0 :=
      ⟨by simp, by simp, by simp, by simp, by simp, by simpa using c4 hd⟩
    rw [n_add_all_eq hd hc (by assumption)] at h1
    obtain ⟨m1, m2, m3, m4, m5⟩ := apply_slices_filled hd hs slices _ st1 _ _ _ _ h1 hf0 (by omega)
    obtain ⟨t1, t2, t3⟩ := append_trailing_filled hd hs _ st1 st2 _ _ _ _ h2 m5 m2
    rw [← h.2.2.1, t2]
    exact o1
  rw [← k7]
  exact (Nat.mod_eq_of_lt hlt).symm
theorem axis_after_append (n_add_all : Nat) (l1 l2 : List slice_variant) (a : Nat) :
    axis_after n_add_all (l1 ++ l2) a = axis_after n_add_all l2 (axis_after n_add_all l1 a) := by
  induction l1 generalizing a with
  | nil => rfl
  | cons el rest ih => rw [List.cons_append]; simp only [axis_after]; exact ih _

theorem view_shape_append (shape : List Nat) (n_add_all : Nat) (l1 l2 : List slice_variant)
    (a : Nat) :
    view_shape shape n_add_all (l1 ++ l2) a
      = view_shape shape n_add_all l1 a
        ++ view_shape shape n_add_all l2 (axis_after n_add_all l1 a) := by
  induction l1 generalizing a with
  | nil => rfl
  | cons el rest ih =>
    rw [List.cons_append]; simp only [view_shape, axis_after, List.append_assoc]; rw [ih]

theorem view_strides_append (shape strides : List Nat) (n_add_all : Nat)
    (l1 l2 : List slice_variant) (a : Nat) :
    view_strides shape strides n_add_all (l1 ++ l2) a
      = view_strides shape strides n_add_all l1 a
        ++ view_strides shape strides n_add_all l2 (axis_after n_add_all l1 a) := by
  induction l1 generalizing a with
  | nil => rfl
  | cons el rest ih =>
    rw [List.cons_append]; simp only [view_strides, axis_after, List.append_assoc]; rw [ih]

theorem view_offset_append (shape strides : List Nat) (n_add_all : Nat)
    (l1 l2 : List slice_variant) (a : Nat) :
    view_offset shape strides n_add_all (l1 ++ l2) a
      = view_offset shape strides n_add_all l1 a
        + view_offset shape strides n_add_all l2 (axis_after n_add_all l1 a) := by
  induction l1 generalizing a with
  | nil => simp [view_offset, axis_after]
  | cons el rest ih =>
    rw [List.cons_append]; simp only [view_offset, axis_after, Nat.add_assoc]; rw [ih]

theorem slices_addressed_append (shape : List Nat) (n_add_all : Nat)
    (l1 l2 : List slice_variant) (a : Nat) :
    slices_addressed shape n_add_all (l1 ++ l2) a
      ↔ slices_addressed shape n_add_all l1 a
        ∧ slices_addressed shape n_add_all l2 (axis_after n_add_all l1 a) := by
  induction l1 generalizing a with
  | nil => simp [slices_addressed, axis_after]
  | cons el rest ih =>
    rw [List.cons_append]; simp only [slices_addressed, axis_after, and_assoc]; rw [ih]

theorem slices_inside_append (shape : List Nat) (n_add_all : Nat)
    (l1 l2 : List slice_variant) (a : Nat) :
    slices_inside shape n_add_all (l1 ++ l2) a
      = (slices_inside shape n_add_all l1 a
        && slices_inside shape n_add_all l2 (axis_after n_add_all l1 a)) := by
  induction l1 generalizing a with
  | nil => simp [slices_inside, axis_after]
  | cons el rest ih =>
    rw [List.cons_append]; simp only [slices_inside, axis_after, Bool.and_assoc]; rw [ih]

/-! Lists without an ellipsis do not depend on the expansion count. -/

theorem axis_after_congr {n m : Nat} :
    ∀ (l : List slice_variant) (a : Nat), slice_variant.ellipsis ∉ l →
      axis_after n l a = axis_after m l a := by
  intro l
  induction l with
  | nil => intro a _; rfl
  | cons el rest ih =>
    intro a h
    simp only [List.mem_cons, not_or] at h
    simp only [axis_after]
    cases el <;> first | exact absurd rfl h.1 | exact ih _ h.2

theorem axis_after_eq_count :
    ∀ (l : List slice_variant) (a n : Nat), slice_variant.ellipsis ∉ l →
      axis_after n l a = a + n_addressing_of l := by
  intro l
  induction l with
  | nil => intro a n _; simp [axis_after, n_addressing_of]
  | cons el rest ih =>
    intro a n h
    simp only [List.mem_cons, not_or] at h
    simp only [axis_after, ih _ _ h.2]
    cases el <;>
      simp [slice_axes, n_addressing_of, is_addressing, List.countP_cons] at h ⊢ <;> omega

theorem view_shape_congr {shape : List Nat} {n m : Nat} :
    ∀ (l : List slice_variant) (a : Nat), slice_variant.ellipsis ∉ l →
      view_shape shape n l a = view_shape shape m l a := by
  intro l
  induction l with
  | nil => intro a _; rfl
  | cons el rest ih =>
    intro a h
    simp only [List.mem_cons, not_or] at h
    simp only [view_shape]
    cases el <;> first | exact absurd rfl h.1 | (simp only [slice_shape, slice_axes]; rw [ih _ h.2])

theorem view_strides_congr {shape strides : List Nat} {n m : Nat} :
    ∀ (l : List slice_variant) (a : Nat), slice_variant.ellipsis ∉ l →
      view_strides shape strides n l a = view_strides shape strides m l a := by
  intro l
  induction l with
  | nil => intro a _; rfl
  | cons el rest ih =>
    intro a h
    simp only [List.mem_cons, not_or] at h
    simp only [view_strides]
    cases el <;>
      first | exact absurd rfl h.1 | (simp only [slice_strides, slice_axes]; rw [ih _ h.2])

theorem view_offset_congr {shape strides : List Nat} {n m : Nat} :
    ∀ (l : List slice_variant) (a : Nat), slice_variant.ellipsis ∉ l →
      view_offset shape strides n l a = view_offset shape strides m l a := by
  intro l
  induction l with
  | nil => intro a _; rfl
  | cons el rest ih =>
    intro a h
    simp only [List.mem_cons, not_or] at h
    simp only [view_offset]
    cases el <;> first | exact absurd rfl h.1 | (simp only [slice_axes]; rw [ih _ h.2])

theorem slices_addressed_congr {shape : List Nat} {n m : Nat} :
    ∀ (l : List slice_variant) (a : Nat), slice_variant.ellipsis ∉ l →
      (slices_addressed shape n l a ↔ slices_addressed shape m l a) := by
  intro l
  induction l with
  | nil => intro a _; rfl
  | cons el rest ih =>
    intro a h
    simp only [List.mem_cons, not_or] at h
    simp only [slices_addressed]
    cases el <;>
      first
      | exact absurd rfl h.1
      | (simp only [slice_addressed, slice_axes]; rw [ih _ h.2])

theorem slices_inside_congr {shape : List Nat} {n m : Nat} :
    ∀ (l : List slice_variant) (a : Nat), slice_variant.ellipsis ∉ l →
      slices_inside shape n l a = slices_inside shape m l a := by
  intro l
  induction l with
  | nil => intro a _; rfl
  | cons el rest ih =>
    intro a h
    simp only [List.mem_cons, not_or] at h
    simp only [slices_inside]
    cases el <;> first | exact absurd rfl h.1 | (simp only [slice_axes]; rw [ih _ h.2])
/-- The counters of the first loop do not tell a range from an `all`. -/
theorem counts_range_all (shape : List Nat) (pre post : List slice_variant)
    (start stop step : Option Int) :
    n_newaxis_of (pre ++ .range start stop step :: post) = n_newaxis_of (pre ++ .all :: post) ∧
    n_scalar_of (pre ++ .range start stop step :: post) = n_scalar_of (pre ++ .all :: post) ∧
    n_ellipsis_of (pre ++ .range start stop step :: post) = n_ellipsis_of (pre ++ .all :: post) ∧
    n_addressing_of (pre ++ .range start stop step :: post)
      = n_addressing_of (pre ++ .all :: post) ∧
    ellipsis_count shape (pre ++ .range start stop step :: post)
      = ellipsis_count shape (pre ++ .all :: post) := by
  refine ⟨?_, ?_, ?_, ?_, ?_⟩
  · simp [n_newaxis_of, List.count_cons]
  · simp [n_scalar_of, is_index, List.countP_cons]
  · simp [n_ellipsis_of, List.count_cons]
  · simp [n_addressing_of, is_addressing, List.countP_cons]
  · simp [ellipsis_count, n_newaxis_of, List.count_cons]

/-- The range branch, general part: the result is the one for the list that has
`all` in the place of the range, with the length, the stride and the offset of
the range at that axis. -/
theorem range_branch_vs_all
    (dsm : List Nat → List Nat → layout_type → Bool) (shape strides : List Nat) (base : Nat)
    (layout : layout_type) (pre post : List slice_variant) (start stop step : Option Int)
    (sh sd : List Nat) (off : Nat) (lay : layout_type)
    (hd : shape.length < 2 ^ 64) (hs : strides.length = shape.length) (hb : base < 2 ^ 64)
    (h : get_strided_view_args dsm shape strides base layout
          (pre ++ .range start stop step :: post) = .ok (sh, sd, off, lay)) :
    let n_add_all := ellipsis_count shape (pre ++ .range start stop step :: post)
    let axis := axis_after n_add_all pre 0
    let p := (view_shape shape n_add_all pre 0).length
    let info := range_info start stop step (shape.getD axis 0)
    axis < shape.length ∧
    xrange_adaptor_get start stop step (shape.getD axis 0) = .ok info ∧
    ∃ sh' sd' off' lay',
      get_strided_view_args dsm shape strides base layout (pre ++ .all :: post)
        = .ok (sh', sd', off', lay') ∧
      sh'[p]? = some (shape.getD axis 0) ∧ sd'[p]? = some (strides.getD axis 0) ∧
      sh = sh'.set p (XTENSOR_MU info.2.1) ∧
      sd = sd'.set p (size_mul (XTENSOR_MU info.2.2) (strides.getD axis 0)) ∧
      off = size_add off' (size_mul (XTENSOR_MU info.1) (strides.getD axis 0)) := by
  dsimp only
  obtain ⟨c1, c2, c3, c4, c5⟩ := counts_range_all shape pre post start stop step
  obtain ⟨k1, k2, k3, k4, _, _, _, _, _⟩ := get_strided_view_args_sound hd hs h
  obtain ⟨l1, l2, l3⟩ := get_strided_view_args_length hd hs h
  obtain ⟨e1, e2, e3, _⟩ := get_strided_view_args_eq hd hs hb h
  obtain ⟨a1, a2, a3⟩ := (slices_addressed_append _ _ _ _ _).mp k3
  have hadr : slices_addressed shape (ellipsis_count shape (pre ++ .all :: post))
      (pre ++ .all :: post) 0 := by
    rw [← c5]
    exact (slices_addressed_append _ _ _ _ _).mpr ⟨a1, a2.1, a3⟩
  obtain ⟨⟨sh', sd', off', lay'⟩, h'⟩ := get_strided_view_args_complete dsm base layout hd hs
    (by rw [← c1, ← c2]; omega) (by rw [← c3]; exact k1) (by rw [← c4]; exact k2) hadr
  obtain ⟨f1, f2, f3, _⟩ := get_strided_view_args_eq hd hs hb h'
  rw [← c5] at f1 f2 f3
  have hlen := view_strides_length hs pre 0 a1
  refine ⟨a2.1, a2.2, sh', sd', off', lay', h', ?_, ?_, ?_, ?_, ?_⟩
  · rw [f1, view_shape_append]
    simp only [view_shape, slice_shape, List.append_assoc, List.cons_append, List.nil_append]
    rw [List.getElem?_append_right (le_refl _)]
    simp
  · rw [f2, view_strides_append]
    simp only [view_strides, slice_strides, List.append_assoc, List.cons_append,
      List.nil_append]
    rw [← hlen, List.getElem?_append_right (le_refl _)]
    simp
  · rw [e1, f1, view_shape_append, view_shape_append, axis_after_append, axis_after_append]
    simp only [view_shape, slice_shape, slice_axes, axis_after, List.append_assoc,
      List.cons_append, List.nil_append]
    rw [List.set_append_right _ _ (le_refl _)]
    simp only [Nat.sub_self, List.set_cons_zero]
  · rw [e2, f2, view_strides_append, view_strides_append, axis_after_append,
      axis_after_append]
    simp only [view_strides, slice_strides, slice_axes, axis_after, List.append_assoc,
      List.cons_append, List.nil_append]
    rw [← hlen, List.set_append_right _ _ (le_refl _)]
    simp only [Nat.sub_self, List.set_cons_zero]
  · rw [e3, f3, view_offset_append, view_offset_append]
    simp only [view_offset, slice_offset, slice_axes]
    unfold size_add size_mul
    omega
/-- The view that `strided_view` returns has the descriptor computed by
`get_strided_view_args` and the storage of its source. -/
theorem strided_view_ok {α : Type} {dsm : List Nat → List Nat → layout_type → Bool}
    {e v : xstrided_view α} {slices : List slice_variant}
    (h : strided_view dsm e slices = .ok v) :
    get_strided_view_args dsm e.m_shape e.m_strides e.m_offset e.m_layout slices
        = .ok (v.m_shape, v.m_strides, v.m_offset, v.m_layout) ∧
      v.m_storage = e.m_storage := by
  unfold strided_view at h
  obtain ⟨args, h1, h⟩ := bind_ok h
  injection h with h
  subst h
  exact ⟨h1, rfl⟩

/-- Address equivalence of a view built from a slice list, with the facts that
let it be applied again to the view. -/
theorem strided_view_flat_index {α : Type} {dsm : List Nat → List Nat → layout_type → Bool}
    {e v : xstrided_view α} {slices : List slice_variant}
    (hd : e.m_shape.length < 2 ^ 64) (hs : e.m_strides.length = e.m_shape.length)
    (h : strided_view dsm e slices = .ok v)
    (hin : slices_inside e.m_shape (ellipsis_count e.m_shape slices) slices 0 = true)
    (i : List Nat) (hi : in_range i v.m_shape) :
    in_range (index_translation e.m_shape slices i) e.m_shape ∧
    v.flat_index i = e.flat_index (index_translation e.m_shape slices i) ∧
    v.operator_call i = e.operator_call (index_translation e.m_shape slices i) := by
  obtain ⟨h1, hst⟩ := strided_view_ok h
  obtain ⟨_, _, k3, k4, k5, k6, k7, _, _⟩ := get_strided_view_args_sound hd hs h1
  obtain ⟨l1, _, _⟩ := get_strided_view_args_length hd hs h1
  rw [k5] at hi
  obtain ⟨p1, p2⟩ := translate_from_spec hs slices 0 i k3 hin hi
  simp only [List.drop_zero] at p1 p2
  have hflat : v.flat_index i = e.flat_index (index_translation e.m_shape slices i) := by
    unfold xstrided_view.flat_index index_translation
    rw [data_offset_eq_dot (by rw [l1, k5]; exact in_range_length hi),
      data_offset_eq_dot (by rw [hs]; exact in_range_length p1), k6]
    unfold size_add
    omega
  refine ⟨p1, hflat, ?_⟩
  unfold xstrided_view.operator_call
  rw [hflat, hst]

/-- A view built from a slice list is again a well-formed source. -/
theorem strided_view_wf {α : Type} {dsm : List Nat → List Nat → layout_type → Bool}
    {e v : xstrided_view α} {slices : List slice_variant}
    (hd : e.m_shape.length < 2 ^ 64) (hs : e.m_strides.length = e.m_shape.length)
    (h : strided_view dsm e slices = .ok v) :
    v.m_shape.length < 2 ^ 64 ∧ v.m_strides.length = v.m_shape.length := by
  obtain ⟨h1, _⟩ := strided_view_ok h
  obtain ⟨l1, _, l3⟩ := get_strided_view_args_length hd hs h1
  exact ⟨l3, l1⟩
theorem axis_after_replicate_all (n_add_all : Nat) (n a : Nat) :
    axis_after n_add_all (List.replicate n slice_variant.all) a = a + n := by
  induction n generalizing a with
  | zero => rfl
  | succ n ih =>
    simp only [List.replicate_succ, axis_after, slice_axes, ih]
    omega

theorem slices_addressed_replicate_all {shape : List Nat} (n_add_all : Nat) (n a : Nat)
    (h : a + n ≤ shape.length) :
    slices_addressed shape n_add_all (List.replicate n slice_variant.all) a := by
  induction n generalizing a with
  | zero => trivial
  | succ n ih =>
    simp only [List.replicate_succ, slices_addressed, slice_addressed, slice_axes]
    exact ⟨by omega, ih _ (by omega)⟩

theorem view_shape_replicate_all {shape : List Nat} (n_add_all : Nat) (n a : Nat)
    (h : a + n ≤ shape.length) :
    view_shape shape n_add_all (List.replicate n slice_variant.all) a
      = (shape.drop a).take n := by
  induction n generalizing a with
  | zero => simp [view_shape]
  | succ n ih =>
    simp only [List.replicate_succ, view_shape, slice_shape, slice_axes]
    rw [ih _ (by omega), drop_take_succ n (by omega)]
    rfl

theorem view_strides_replicate_all {shape strides : List Nat} (n_add_all : Nat) (n a : Nat)
    (h : a + n ≤ strides.length) :
    view_strides shape strides n_add_all (List.replicate n slice_variant.all) a
      = (strides.drop a).take n := by
  induction n generalizing a with
  | zero => simp [view_strides]
  | succ n ih =>
    simp only [List.replicate_succ, view_strides, slice_strides, slice_axes]
    rw [ih _ (by omega), drop_take_succ n (by omega)]
    rfl

theorem view_offset_replicate_all {shape strides : List Nat} (n_add_all : Nat) (n a : Nat) :
    view_offset shape strides n_add_all (List.replicate n slice_variant.all) a = 0 := by
  induction n generalizing a with
  | zero => rfl
  | succ n ih => simp only [List.replicate_succ, view_offset, slice_offset, ih]

theorem not_mem_of_n_ellipsis {pre post : List slice_variant}
    (h : n_ellipsis_of (pre ++ slice_variant.ellipsis :: post) ≤ 1) :
    slice_variant.ellipsis ∉ pre ∧ slice_variant.ellipsis ∉ post := by
  simp only [n_ellipsis_of, List.count_append, List.count_cons_self] at h
  constructor
  · intro hm
    have := List.count_pos_iff.mpr hm
    omega
  · intro hm
    have := List.count_pos_iff.mpr hm
    omega

/-- The ellipsis branch, general part: the axes that the ellipsis emits are the
source axes at its position, and the result is the one for the list in which
the ellipsis is replaced by that many `all`. -/
theorem ellipsis_branch_vs_all
    (dsm : List Nat → List Nat → layout_type → Bool) (shape strides : List Nat) (base : Nat)
    (layout : layout_type) (pre post : List slice_variant)
    (sh sd : List Nat) (off : Nat) (lay : layout_type)
    (hd : shape.length < 2 ^ 64) (hs : strides.length = shape.length) (hb : base < 2 ^ 64)
    (h : get_strided_view_args dsm shape strides base layout
          (pre ++ .ellipsis :: post) = .ok (sh, sd, off, lay)) :
    let n := shape.length
      - ((pre ++ slice_variant.ellipsis :: post).length - 1
          - n_newaxis_of (pre ++ slice_variant.ellipsis :: post))
    let axis := n_addressing_of pre
    let p := n_newaxis_of pre + n_addressing_of pre - n_scalar_of pre
    axis + n ≤ shape.length ∧
    (sh.drop p).take n = (shape.drop axis).take n ∧
    (sd.drop p).take n = (strides.drop axis).take n ∧
    get_strided_view_args dsm shape strides base layout
        (pre ++ List.replicate n slice_variant.all ++ post) = .ok (sh, sd, off, lay) := by
  have hn : shape.length
      - ((pre ++ slice_variant.ellipsis :: post).length - 1
          - n_newaxis_of (pre ++ slice_variant.ellipsis :: post))
      = ellipsis_count shape (pre ++ slice_variant.ellipsis :: post) := by
    simp [ellipsis_count]
  dsimp only
  rw [hn]
  generalize hA : ellipsis_count shape (pre ++ slice_variant.ellipsis :: post) = n at *
  obtain ⟨k1, k2, k3, k4, _, _, _, _, _⟩ := get_strided_view_args_sound hd hs h
  obtain ⟨l1, l2, l3⟩ := get_strided_view_args_length hd hs h
  obtain ⟨e1, e2, e3, e4⟩ := get_strided_view_args_eq hd hs hb h
  rw [hA] at k3 k4 e1 e2 e3
  obtain ⟨hpre, hpost⟩ := not_mem_of_n_ellipsis k1
  obtain ⟨a1, a2, a3⟩ := (slices_addressed_append _ _ _ _ _).mp k3
  simp only [slice_addressed, slice_axes] at a2 a3
  have hax : axis_after n pre 0 = n_addressing_of pre := by
    rw [axis_after_eq_count pre 0 n hpre]; omega
  have hp := view_shape_length pre 0 a1
  have hp' := view_strides_length hs pre 0 a1
  rw [hax] at a2 a3 hp
  have hnA : n = shape.length - n_addressing_of (pre ++ slice_variant.ellipsis :: post) := by
    rw [← hA, ellipsis_count_eq k1]
    simp
  -- the expanded list
  have c1 : n_newaxis_of (pre ++ List.replicate n slice_variant.all ++ post)
      = n_newaxis_of (pre ++ slice_variant.ellipsis :: post) := by
    simp [n_newaxis_of, List.count_cons, List.count_replicate]
  have c2 : n_scalar_of (pre ++ List.replicate n slice_variant.all ++ post)
      = n_scalar_of (pre ++ slice_variant.ellipsis :: post) := by
    simp [n_scalar_of, is_index, List.countP_cons, List.countP_replicate]
  have c3 : slice_variant.ellipsis ∉ pre ++ List.replicate n slice_variant.all ++ post := by
    simp [hpre, hpost, List.mem_replicate]
  have c4 : n_addressing_of (pre ++ List.replicate n slice_variant.all ++ post)
      = n_addressing_of (pre ++ slice_variant.ellipsis :: post) + n := by
    simp [n_addressing_of, is_addressing, List.countP_cons, List.countP_replicate]
    omega
  have c5 : ellipsis_count shape (pre ++ List.replicate n slice_variant.all ++ post) = 0 := by
    unfold ellipsis_count
    rw [if_neg c3]
  have hadr : slices_addressed shape 0 (pre ++ List.replicate n slice_variant.all ++ post) 0 := by
    rw [slices_addressed_append, slices_addressed_append, axis_after_append,
      axis_after_replicate_all, axis_after_congr pre 0 (m := n) hpre, hax]
    exact ⟨⟨(slices_addressed_congr pre 0 hpre).mp a1,
      slices_addressed_replicate_all 0 n _ a2⟩, (slices_addressed_congr post _ hpost).mp a3⟩
  have hrun : ∃ res, get_strided_view_args dsm shape strides base layout
      (pre ++ List.replicate n slice_variant.all ++ post) = .ok res :=
    get_strided_view_args_complete dsm base layout hd hs
      (by rw [c1, c2]; omega) (by rw [n_ellipsis_zero_of_not_mem c3]; omega)
      (by rw [c4]; omega) (by rw [c5]; exact hadr)
  obtain ⟨⟨sh', sd', off', lay'⟩, h'⟩ := hrun
  obtain ⟨f1, f2, f3, f4⟩ := get_strided_view_args_eq hd hs hb h'
  rw [c5] at f1 f2 f3
  have g1 : sh' = sh := by
    rw [e1, f1]
    simp only [view_shape_append, axis_after_append, axis_after_replicate_all, view_shape,
      slice_shape, slice_axes, axis_after, axis_after_congr pre 0 (m := n) hpre, hax,
      view_shape_replicate_all 0 n _ a2, view_shape_congr pre 0 (m := n) hpre,
      view_shape_congr post _ (m := n) hpost, axis_after_congr post _ (m := n) hpost,
      List.append_assoc]
  have g2 : sd' = sd := by
    rw [e2, f2]
    simp only [view_strides_append, axis_after_append, axis_after_replicate_all, view_strides,
      slice_strides, slice_axes, axis_after, axis_after_congr pre 0 (m := n) hpre, hax,
      view_strides_replicate_all 0 n _ (hs ▸ a2), view_strides_congr pre 0 (m := n) hpre,
      view_strides_congr post _ (m := n) hpost, axis_after_congr post _ (m := n) hpost,
      List.append_assoc]
  have g3 : off' = off := by
    rw [e3, f3]
    simp only [view_offset_append, axis_after_append, axis_after_replicate_all, view_offset,
      slice_offset, slice_axes, axis_after, axis_after_congr pre 0 (m := n) hpre, hax,
      view_offset_replicate_all, view_offset_congr pre 0 (m := n) hpre,
      view_offset_congr post _ (m := n) hpost, Nat.zero_add, Nat.add_zero]
  have g4 : lay' = lay := by rw [e4, f4, g1, g2]
  refine ⟨a2, ?_, ?_, ?_⟩
  · rw [e1, view_shape_append]
    simp only [view_shape, slice_shape, List.append_assoc]
    have hpl : n_newaxis_of pre + n_addressing_of pre - n_scalar_of pre
        = (view_shape shape n pre 0).length := by omega
    rw [hpl, List.drop_left, hax, List.take_left']
    rw [List.length_take, List.length_drop]
    omega
  · rw [e2, view_strides_append]
    simp only [view_strides, slice_strides, List.append_assoc]
    have hpl : n_newaxis_of pre + n_addressing_of pre - n_scalar_of pre
        = (view_strides shape strides n pre 0).length := by omega
    rw [hpl, List.drop_left, hax, List.take_left']
    rw [List.length_take, List.length_drop]
    omega
  · rw [h', g1, g2, g3, g4]
/-! ## Lemmas on transposition -/

theorem axis_appears_twice_iff (perm : List Int) :
    axis_appears_twice perm = true ↔ ¬ perm.Nodup := by
  induction perm with
  | nil => simp [axis_appears_twice]
  | cons p rest ih =>
    simp only [axis_appears_twice, Bool.or_eq_true, List.any_eq_true, decide_eq_true_eq,
      List.nodup_cons, ih]
    constructor
    · rintro (⟨q, hq, rfl⟩ | h)
      · exact fun hn => hn.1 hq
      · exact fun hn => h hn.2
    · intro h
      by_cases hm : p ∈ rest
      · exact Or.inl ⟨p, hm, rfl⟩
      · exact Or.inr (fun hn => h ⟨hm, hn⟩)

/-- The cast of a representable entry is below the dimension exactly when the
entry is an axis. -/
theorem XTENSOR_MU_lt_iff {p : Int} {n : Nat} (hn : n < 2 ^ 63)
    (hp : -(2 ^ 63 : Int) ≤ p ∧ p < 2 ^ 63) :
    XTENSOR_MU p < n ↔ (0 ≤ p ∧ p < n) := by
  have h := XTENSOR_MU_cast p
  constructor
  · intro hlt
    omega
  · rintro ⟨h0, h1⟩
    have : ((XTENSOR_MU p : Nat) : Int) = p := by
      rw [h]; exact Int.emod_eq_of_lt h0 (by omega)
    omega

theorem permute_axis_ok {α : Type} {e : xstrided_view α} {permutation : List Int}
    (temp : List Nat × List Nat) {i : Nat} {p : Int}
    (hs : e.m_strides.length = e.m_shape.length)
    (hp : permutation[i]? = some p) (hv : XTENSOR_MU p < e.dimension)
    (h1 : i < temp.1.length) (h2 : i < temp.2.length) :
    permute_axis e permutation temp i
      = .ok (temp.1.set i (e.m_shape.getD (XTENSOR_MU p) 0),
             temp.2.set i (e.m_strides.getD (XTENSOR_MU p) 0)) := by
  unfold xstrided_view.dimension at hv
  simp only [permute_axis, hp, xstrided_view.dimension, if_neg (not_le.mpr hv),
    read_at_of_lt hv, read_at_of_lt (hs ▸ hv : XTENSOR_MU p < e.m_strides.length), ok_bind,
    write_at_of_lt _ h1, write_at_of_lt _ h2]

theorem permute_axis_bad {α : Type} {e : xstrided_view α} {permutation : List Int}
    (temp : List Nat × List Nat) {i : Nat} {p : Int}
    (hp : permutation[i]? = some p) (hv : ¬ XTENSOR_MU p < e.dimension) :
    permute_axis e permutation temp i = .error .transpose_axis := by
  simp only [permute_axis, hp, if_pos (not_lt.mp hv)]

/-- The loop of `transpose_impl` ends without error exactly when every entry is
an axis, and otherwise throws "wrong axis". -/
theorem permute_axes_spec {α : Type} {e : xstrided_view α} {permutation : List Int}
    (hs : e.m_strides.length = e.m_shape.length) :
    ∀ (l : List Nat) (temp : List Nat × List Nat),
      (∀ i ∈ l, i < permutation.length ∧ i < temp.1.length ∧ i < temp.2.length) →
      (axes_valid e.dimension permutation l →
        ∃ temp', permute_axes e permutation l temp = .ok temp') ∧
      (¬ axes_valid e.dimension permutation l →
        permute_axes e permutation l temp = .error .transpose_axis) := by
  intro l
  induction l with
  | nil =>
    intro temp _
    refine ⟨fun _ => ⟨temp, rfl⟩, fun h => ?_⟩
    exact absurd (fun i hi => by cases hi) h
  | cons i rest ih =>
    intro temp hb
    obtain ⟨b0, b1, b2⟩ := hb i (List.mem_cons_self _ _)
    have hp : permutation[i]? = some permutation[i] := List.getElem?_eq_getElem b0
    by_cases hv : XTENSOR_MU permutation[i] < e.dimension
    · have hstep := permute_axis_ok temp hs hp hv b1 b2
      have hb' : ∀ j ∈ rest, j < permutation.length
          ∧ j < (temp.1.set i (e.m_shape.getD (XTENSOR_MU permutation[i]) 0)).length
          ∧ j < (temp.2.set i (e.m_strides.getD (XTENSOR_MU permutation[i]) 0)).length := by
        intro j hj
        obtain ⟨c0, c1, c2⟩ := hb j (List.mem_cons_of_mem _ hj)
        simpa using ⟨c0, c1, c2⟩
      obtain ⟨r1, r2⟩ := ih (temp.1.set i (e.m_shape.getD (XTENSOR_MU permutation[i]) 0),
        temp.2.set i (e.m_strides.getD (XTENSOR_MU permutation[i]) 0)) hb'
      simp only [permute_axes, hstep]
      constructor
      · intro hall
        exact r1 (fun j hj => hall j (List.mem_cons_of_mem _ hj))
      · intro hnot
        apply r2
        intro hall
        apply hnot
        intro j hj q hq
        rcases List.mem_cons.mp hj with rfl | hj'
        · rw [hp] at hq
          injection hq with hq
          rw [← hq]; exact hv
        · exact hall j hj' q hq
    · have hstep := permute_axis_bad temp hp hv
      simp only [permute_axes, hstep]
      constructor
      · intro hall
        exact absurd (hall i (List.mem_cons_self _ _) _ hp) hv
      · intro _; trivial
theorem axes_valid_range_iff (dim : Nat) (permutation : List Int) :
    axes_valid dim permutation (List.range permutation.length)
      ↔ ∀ p ∈ permutation, XTENSOR_MU p < dim := by
  unfold axes_valid
  constructor
  · intro h p hp
    obtain ⟨i, hi, rfl⟩ := List.getElem_of_mem hp
    exact h i (List.mem_range.mpr hi) _ (List.getElem?_eq_getElem hi)
  · intro h i _ p hp
    exact h p (List.getElem?_mem hp)

/-- The outcome of `transpose_impl` with the full check, case by case. -/
theorem transpose_impl_full_cases {α : Type} (e : xstrided_view α) (permutation : List Int)
    (hs : e.m_strides.length = e.m_shape.length) :
    (¬ permutation.Nodup → transpose_impl_full e permutation = .error .transpose_twice) ∧
    (permutation.Nodup → permutation.length ≠ e.dimension →
      transpose_impl_full e permutation = .error .transpose_size) ∧
    (permutation.Nodup → permutation.length = e.dimension →
      (¬ ∀ p ∈ permutation, XTENSOR_MU p < e.dimension) →
      transpose_impl_full e permutation = .error .transpose_axis) ∧
    (permutation.Nodup → permutation.length = e.dimension →
      (∀ p ∈ permutation, XTENSOR_MU p < e.dimension) →
      ∃ v, transpose_impl_full e permutation = .ok v) := by
  have hloop : permutation.length = e.dimension →
      (axes_valid e.dimension permutation (List.range e.m_shape.length) →
        ∃ temp', permute_axes e permutation (List.range e.m_shape.length)
          (resize_container e.m_shape.length, resize_container e.m_strides.length)
            = .ok temp') ∧
      (¬ axes_valid e.dimension permutation (List.range e.m_shape.length) →
        permute_axes e permutation (List.range e.m_shape.length)
          (resize_container e.m_shape.length, resize_container e.m_strides.length)
            = .error .transpose_axis) := by
    intro hlen
    apply permute_axes_spec hs
    intro i hi
    have := List.mem_range.mp hi
    unfold xstrided_view.dimension at hlen
    simp only [resize_container, List.length_replicate]
    omega
  refine ⟨?_, ?_, ?_, ?_⟩
  · intro hdup
    unfold transpose_impl_full
    rw [if_pos ((axis_appears_twice_iff _).mpr hdup)]
  · intro hnd hlen
    unfold transpose_impl_full transpose_impl_none
    rw [if_neg (fun h => (axis_appears_twice_iff _).mp h hnd), if_pos hlen]
  · intro hnd hlen hbad
    obtain ⟨_, r2⟩ := hloop hlen
    have hlen' : e.m_shape.length = permutation.length := hlen.symm
    rw [hlen', axes_valid_range_iff] at r2
    unfold transpose_impl_full transpose_impl_none
    rw [if_neg (fun h => (axis_appears_twice_iff _).mp h hnd), if_neg (not_not.mpr hlen),
      hlen', r2 hbad]
    rfl
  · intro hnd hlen hgood
    obtain ⟨r1, _⟩ := hloop hlen
    have hlen' : e.m_shape.length = permutation.length := hlen.symm
    rw [hlen', axes_valid_range_iff] at r1
    obtain ⟨temp', ht⟩ := r1 hgood
    unfold transpose_impl_full transpose_impl_none
    rw [if_neg (fun h => (axis_appears_twice_iff _).mp h hnd), if_neg (not_not.mpr hlen),
      hlen', ht]
    exact ⟨_, rfl⟩
theorem dot_reverse {i s : List Nat} (h : i.length = s.length) :
    dot i.reverse s.reverse = dot i s := by
  unfold dot
  rw [← List.reverse_zipWith h, List.sum_reverse]

/-- What `transpose(e)` builds: the reversed descriptor, read from the flat
position `0` of the storage of `e`. -/
theorem transpose_eq {α : Type} (e : xstrided_view α)
    (hs : e.m_strides.length = e.m_shape.length) :
    transpose e = .ok (xstrided_view.ctor e e.m_shape.reverse e.m_strides.reverse 0
      (transpose_layout_noexcept e.m_layout)) := by
  unfold transpose compute_transposed_strides copy_reversed resize_container
  simp only [List.length_replicate, le_refl, if_true, hs, ok_bind, List.drop_replicate,
    Nat.sub_self, List.replicate_zero, List.append_nil]

/-- The flat index of `transpose(e)` at `i` is the flat index of `e` at the
reversed multi-index, taken from the flat position `0` instead of the data
offset of `e`; the two agree when the data offset of `e` is `0`. -/
theorem transpose_flat_index {α : Type} (e t : xstrided_view α)
    (hs : e.m_strides.length = e.m_shape.length) (h : transpose e = .ok t)
    (i : List Nat) (hi : i.length = e.dimension) :
    t.flat_index i = size_add 0 (data_offset e.m_strides i.reverse) ∧
    e.flat_index i.reverse = size_add e.m_offset (data_offset e.m_strides i.reverse) ∧
    (e.m_offset = 0 → t.flat_index i = e.flat_index i.reverse
      ∧ t.operator_call i = e.operator_call i.reverse) := by
  rw [transpose_eq e hs] at h
  injection h with h
  subst h
  unfold xstrided_view.dimension at hi
  have e1 : (xstrided_view.ctor e e.m_shape.reverse e.m_strides.reverse 0
      (transpose_layout_noexcept e.m_layout)).flat_index i
      = size_add 0 (data_offset e.m_strides i.reverse) := by
    unfold xstrided_view.flat_index xstrided_view.ctor
    simp only []
    rw [data_offset_eq_dot (by simp [hi, hs]), data_offset_eq_dot (by simp [hi, hs]),
      ← dot_reverse (by simp [hi, hs]), List.reverse_reverse]
  refine ⟨e1, rfl, fun h0 => ?_⟩
  have e2 : (xstrided_view.ctor e e.m_shape.reverse e.m_strides.reverse 0
      (transpose_layout_noexcept e.m_layout)).flat_index i = e.flat_index i.reverse := by
    rw [e1]
    unfold xstrided_view.flat_index
    rw [h0]
  refine ⟨e2, ?_⟩
  unfold xstrided_view.operator_call
  rw [e2]
  rfl

theorem set_length_append_replicate (pre : List Nat) (m x : Nat) :
    (pre ++ List.replicate (m + 1) 0).set pre.length x
      = (pre ++ [x]) ++ List.replicate m 0 := by
  rw [List.set_append_right _ _ (le_refl _)]
  simp [List.replicate_succ]

/-- The loop of `transpose_impl` fills the positions `k, k + 1, ...` with the
entries of the source that the permutation names. -/
theorem permute_axes_fill {α : Type} {e : xstrided_view α} {permutation : List Int}
    (hs : e.m_strides.length = e.m_shape.length)
    (hv : ∀ p ∈ permutation, XTENSOR_MU p < e.dimension) :
    ∀ (m k : Nat) (psh psd : List Nat), psh.length = k → psd.length = k →
      k + m ≤ permutation.length →
      permute_axes e permutation (List.range' k m)
          (psh ++ List.replicate m 0, psd ++ List.replicate m 0)
        = .ok (psh ++ (List.range' k m).map
                  (fun i => e.m_shape.getD (XTENSOR_MU (permutation.getD i 0)) 0),
               psd ++ (List.range' k m).map
                  (fun i => e.m_strides.getD (XTENSOR_MU (permutation.getD i 0)) 0)) := by
  intro m
  induction m with
  | zero =>
    intro k psh psd _ _ _
    simp [permute_axes]
  | succ m ih =>
    intro k psh psd h1 h2 hk
    subst h1
    have hkl : psh.length < permutation.length := by omega
    have hp : permutation[psh.length]? = some permutation[psh.length] :=
      List.getElem?_eq_getElem hkl
    have hd : permutation.getD psh.length 0 = permutation[psh.length] := by
      simp [List.getD, hp]
    have hstep := permute_axis_ok (psh ++ List.replicate (m + 1) 0,
        psd ++ List.replicate (m + 1) 0) hs hp (hv _ (List.getElem_mem hkl))
      (by simp) (by simp [h2])
    have e2 : ∀ y, (psd ++ List.replicate (m + 1) 0).set psh.length y
        = (psd ++ [y]) ++ List.replicate m 0 := by
      intro y
      rw [← h2]
      exact set_length_append_replicate psd m y
    simp only [set_length_append_replicate, e2] at hstep
    rw [List.range'_succ]
    simp only [permute_axes, hstep, List.map_cons, hd]
    rw [ih (psh.length + 1) _ _ (by simp) (by simp [h2]) (by omega)]
    simp [List.append_assoc]

theorem map_range_getD (permutation : List Int) (g : Int → Nat) :
    (List.range permutation.length).map (fun i => g (permutation.getD i 0))
      = permutation.map g := by
  apply List.ext_getElem
  · simp
  · intro i h1 h2
    simp only [List.length_map, List.length_range] at h1
    simp [List.getD, List.getElem?_eq_getElem h1]

/-- What `transpose(e, permutation)` builds for a permutation of the right size
whose entries are axes: the permuted shape and strides, read from the flat
position `0` of the storage of `e`. -/
theorem transpose_impl_none_eq {α : Type} (e : xstrided_view α) (permutation : List Int)
    (hs : e.m_strides.length = e.m_shape.length)
    (hlen : permutation.length = e.dimension)
    (hv : ∀ p ∈ permutation, XTENSOR_MU p < e.dimension) :
    ∃ t, transpose_impl_none e permutation = .ok t ∧
      t.m_shape = permutation.map (fun p => e.m_shape.getD (XTENSOR_MU p) 0) ∧
      t.m_strides = permutation.map (fun p => e.m_strides.getD (XTENSOR_MU p) 0) ∧
      t.m_offset = 0 ∧ t.m_storage = e.m_storage := by
  have hlen' : permutation.length = e.m_shape.length := hlen
  have hfill := permute_axes_fill hs hv e.m_shape.length 0 [] [] rfl rfl (by omega)
  simp only [List.nil_append, ← List.range_eq_range'] at hfill
  unfold transpose_impl_none
  rw [if_neg (not_not.mpr hlen)]
  simp only [resize_container, hs, hfill, ok_bind]
  have g1 := map_range_getD permutation (fun p => e.m_shape.getD (XTENSOR_MU p) 0)
  have g2 := map_range_getD permutation (fun p => e.m_strides.getD (XTENSOR_MU p) 0)
  simp only [] at g1 g2
  rw [← hlen', g1, g2]
  exact ⟨_, rfl, rfl, rfl, rfl, rfl⟩

/-! ## Lemmas on sizes, canonical strides and unravelling -/


theorem foldl_size_mul (l : List Nat) (a : Nat) (h : a < 2 ^ 64) :
    l.foldl size_mul a = (a * l.prod) % 2 ^ 64 := by
  induction l generalizing a with
  | nil => simp only [List.foldl_nil, List.prod_nil, Nat.mul_one]; omega
  | cons x rest ih =>
    simp only [List.foldl_cons, List.prod_cons]
    rw [ih _ (show size_mul a x < 2 ^ 64 from Nat.mod_lt _ (by norm_num))]
    unfold size_mul
    rw [Nat.mod_mul_mod, Nat.mul_assoc]

theorem compute_size_eq (shape : List Nat) : compute_size shape = shape.prod % 2 ^ 64 := by
  unfold compute_size
  rw [foldl_size_mul _ _ (by norm_num), Nat.one_mul]

theorem compute_size_lt (shape : List Nat) : compute_size shape < 2 ^ 64 := by
  rw [compute_size_eq]; exact Nat.mod_lt _ (by norm_num)

theorem compute_size_singleton {n : Nat} (h : n < 2 ^ 64) : compute_size [n] = n := by
  rw [compute_size_eq]; simp only [List.prod_cons, List.prod_nil, Nat.mul_one]; omega

theorem row_major_strides_length (shape : List Nat) :
    (row_major_strides shape).length = shape.length := by
  induction shape with
  | nil => rfl
  | cons n rest ih => simp only [row_major_strides, List.length_cons, ih]

theorem unravel_from_length (strides : List Nat) (idx : Nat) :
    (unravel_from idx strides).length = strides.length := by
  induction strides generalizing idx with
  | nil => rfl
  | cons s rest ih => simp only [unravel_from, List.length_cons, ih]

theorem compute_strides_length (shape : List Nat) (l : layout_type) :
    (compute_strides shape l).length = shape.length := by
  unfold compute_strides
  split
  · exact row_major_strides_length _
  · rw [List.length_reverse, row_major_strides_length, List.length_reverse]

/-- Mixed-radix decomposition over the row-major strides. -/
theorem unravel_from_row_major (shape : List Nat) (idx : Nat)
    (hp : shape.prod < 2 ^ 64) (hi : idx < shape.prod) :
    dot (unravel_from idx (row_major_strides shape)) (row_major_strides shape) = idx ∧
      in_range (unravel_from idx (row_major_strides shape)) shape := by
  induction shape generalizing idx with
  | nil =>
    simp only [List.prod_nil] at hi
    refine ⟨?_, List.Forall₂.nil⟩
    simp only [row_major_strides, unravel_from, dot_nil_left]; omega
  | cons n rest ih =>
    simp only [List.prod_cons] at hp hi
    have hn : 0 < n := Nat.pos_of_ne_zero (by rintro rfl; simp at hi)
    have hP : 0 < rest.prod := Nat.pos_of_ne_zero (by intro h0; rw [h0] at hi; simp at hi)
    have hle : rest.prod ≤ n * rest.prod := Nat.le_mul_of_pos_left _ hn
    have hPlt : rest.prod < 2 ^ 64 := lt_of_le_of_lt hle hp
    simp only [row_major_strides, unravel_from, Nat.mod_eq_of_lt hPlt, dot_cons]
    obtain ⟨e1, e2⟩ := ih (idx % rest.prod) hPlt (Nat.mod_lt _ hP)
    refine ⟨?_, List.Forall₂.cons ?_ e2⟩
    · rw [e1]; exact Nat.div_add_mod' idx rest.prod
    · exact Nat.div_lt_of_lt_mul (by rw [Nat.mul_comm]; exact hi)

theorem in_range_reverse {i s : List Nat} (h : in_range i s) : in_range i.reverse s.reverse :=
  List.rel_reverse h

/-- Mixed-radix decomposition over the canonical strides of a layout. -/
theorem unravel_noexcept_spec (shape : List Nat) (l : layout_type) (idx : Nat)
    (hp : shape.prod < 2 ^ 64) (hi : idx < shape.prod) :
    dot (unravel_noexcept idx (compute_strides shape l) l) (compute_strides shape l) = idx ∧
      in_range (unravel_noexcept idx (compute_strides shape l) l) shape := by
  unfold unravel_noexcept compute_strides
  split
  · exact unravel_from_row_major shape idx hp hi
  · rw [List.reverse_reverse]
    obtain ⟨e1, e2⟩ := unravel_from_row_major shape.reverse idx
      (by rw [List.prod_reverse]; exact hp) (by rw [List.prod_reverse]; exact hi)
    refine ⟨?_, ?_⟩
    · rw [dot_reverse (by rw [unravel_from_length]), e1]
    · have := in_range_reverse e2
      rwa [List.reverse_reverse] at this

theorem data_offset_singleton (i : Nat) : data_offset [1] [i] = i % 2 ^ 64 := by
  simp [data_offset]

theorem transpose_layout_ok {l : layout_type}
    (h : l = layout_type.row_major ∨ l = layout_type.column_major) :
    transpose_layout l = .ok (transpose_layout_noexcept l) := by
  rcases h with h | h <;> subst h <;> rfl

theorem transpose_layout_error {l : layout_type}
    (h : ¬ (l = layout_type.row_major ∨ l = layout_type.column_major)) :
    transpose_layout l = .error xerror.transpose_layout := by
  cases l <;> first | rfl | exact absurd (Or.inl rfl) h | exact absurd (Or.inr rfl) h

/-- What `ravel<L>(e)` returns, by the two branches of `ravel_impl`. -/
theorem ravel_cases {α : Type} (L static_layout : layout_type) (e : xstrided_view α) :
    (static_layout = L → ravel L static_layout e = .ok (build_ravel_view e)) ∧
    (static_layout ≠ L →
      (e.m_layout = layout_type.row_major ∨ e.m_layout = layout_type.column_major) →
      ravel L static_layout e
        = .ok (build_ravel_view_flatten e
            (compute_strides e.m_shape (transpose_layout_noexcept e.m_layout))
            (transpose_layout_noexcept e.m_layout))) ∧
    (static_layout ≠ L →
      ¬ (e.m_layout = layout_type.row_major ∨ e.m_layout = layout_type.column_major) →
      ravel L static_layout e = .error xerror.transpose_layout) := by
  refine ⟨?_, ?_, ?_⟩
  · intro h
    simp [ravel, ravel_impl, h]
  · intro h hl
    simp [ravel, ravel_impl, h, transpose_layout_ok hl]
    rfl
  · intro h hl
    simp [ravel, ravel_impl, h, transpose_layout_error hl]
    rfl

theorem build_ravel_view_size {α : Type} (e : xstrided_view α) :
    (build_ravel_view e).size = e.m_shape.prod % 2 ^ 64 := by
  show compute_size [compute_size e.m_shape] = _
  rw [compute_size_singleton (compute_size_lt _)]
  exact compute_size_eq _



/-- The element of a source with the canonical strides of a layout, at the
multi-index of a linear index, is at that linear index from the data offset. -/
theorem element_unravel {α : Type} (e : xstrided_view α) (l : layout_type) (i : Nat)
    (hstr : e.m_strides = compute_strides e.m_shape l)
    (hp : e.m_shape.prod < 2 ^ 64) (hi : i < e.m_shape.prod) :
    e.element (unravel_noexcept i (compute_strides e.m_shape l) l)
        = e.m_storage (size_add e.m_offset i) ∧
      in_range (unravel_noexcept i (compute_strides e.m_shape l) l) e.m_shape := by
  obtain ⟨e1, e2⟩ := unravel_noexcept_spec e.m_shape l i hp hi
  refine ⟨?_, e2⟩
  unfold xstrided_view.element element_offset
  rw [data_offset_eq_dot (by rw [hstr, compute_strides_length]; exact in_range_length e2),
    hstr, e1]
  unfold size_add
  congr 1
  omega

/-- The element of the view `build_ravel_view(e)` at the position `i`. -/
theorem build_ravel_view_at {α : Type} (e : xstrided_view α) (i : Nat) :
    (build_ravel_view e).operator_call [i] = e.m_storage (size_add e.m_offset i) := by
  show e.m_storage (size_add e.m_offset (data_offset [1] [i])) = _
  rw [data_offset_singleton]
  unfold size_add
  congr 1
  omega

/-- The element of the view `build_ravel_view(e, strides, l)` at the position
`i`, for a source without data offset. -/
theorem build_ravel_view_flatten_at {α : Type} (e : xstrided_view α) (strides : List Nat)
    (l : layout_type) (i : Nat) (hoff : e.m_offset = 0) (hi : i < 2 ^ 64) :
    (build_ravel_view_flatten e strides l).operator_call [i]
      = e.element (unravel_noexcept i strides l) := by
  show e.element (unravel_noexcept (size_add e.m_offset (data_offset [1] [i])) strides l) = _
  rw [data_offset_singleton, hoff]
  have : size_add 0 (i % 2 ^ 64) = i := by unfold size_add; omega
  rw [this]

theorem transpose_layout_noexcept_of_ne {S L : layout_type}
    (hS : S = layout_type.row_major ∨ S = layout_type.column_major)
    (hL : L = layout_type.row_major ∨ L = layout_type.column_major) (h : S ≠ L) :
    transpose_layout_noexcept S = L := by
  rcases hS with hS | hS <;> rcases hL with hL | hL <;> subst hS <;> subst hL <;>
    first | rfl | exact absurd rfl h


/-! ## Lemmas on slice lists of `all` and `newaxis` -/

theorem axis_after_replicate_newaxis (n_add_all : Nat) (k a : Nat) :
    axis_after n_add_all (List.replicate k slice_variant.newaxis) a = a := by
  induction k generalizing a with
  | zero => rfl
  | succ k ih => simp only [List.replicate_succ, axis_after, slice_axes, ih, Nat.add_zero]

theorem view_shape_replicate_newaxis (shape : List Nat) (n_add_all : Nat) (k a : Nat) :
    view_shape shape n_add_all (List.replicate k slice_variant.newaxis) a
      = List.replicate k 1 := by
  induction k generalizing a with
  | zero => rfl
  | succ k ih =>
    simp only [List.replicate_succ, view_shape, slice_shape, slice_axes, ih, Nat.add_zero]
    rfl

theorem view_strides_replicate_newaxis (shape strides : List Nat) (n_add_all : Nat) (k a : Nat) :
    view_strides shape strides n_add_all (List.replicate k slice_variant.newaxis) a
      = List.replicate k 0 := by
  induction k generalizing a with
  | zero => rfl
  | succ k ih =>
    simp only [List.replicate_succ, view_strides, slice_strides, slice_axes, ih, Nat.add_zero]
    rfl

/-- A slice list made of `all` and `newaxis` only. -/
theorem pads_counts {l : List slice_variant}
    (h : ∀ el ∈ l, el = slice_variant.all ∨ el = slice_variant.newaxis) :
    n_scalar_of l = 0 ∧ n_ellipsis_of l = 0 ∧
      n_addressing_of l = l.count slice_variant.all ∧ slice_variant.ellipsis ∉ l := by
  induction l with
  | nil => simp [n_scalar_of, n_ellipsis_of, n_addressing_of]
  | cons el rest ih =>
    obtain ⟨i1, i2, i3, i4⟩ := ih (fun x hx => h x (List.mem_cons_of_mem _ hx))
    simp only [n_scalar_of, n_ellipsis_of, n_addressing_of] at i1 i2 i3 ⊢
    rcases h el (List.mem_cons_self _ _) with he | he <;> subst he <;>
      simp [List.countP_cons, List.count_cons, is_index, is_addressing, i1, i2, i3, i4]

theorem pads_addressed {shape : List Nat} (n_add_all : Nat) {l : List slice_variant}
    (h : ∀ el ∈ l, el = slice_variant.all ∨ el = slice_variant.newaxis) (a : Nat)
    (ha : a + l.count slice_variant.all ≤ shape.length) :
    slices_addressed shape n_add_all l a := by
  induction l generalizing a with
  | nil => trivial
  | cons el rest ih =>
    have hr := fun x hx => h x (List.mem_cons_of_mem el hx)
    rcases h el (List.mem_cons_self _ _) with he | he <;> subst he <;>
      simp only [List.count_cons, slices_addressed, slice_addressed, slice_axes] at ha ⊢
    · simp only [beq_self_eq_true, if_true] at ha
      exact ⟨by omega, ih hr _ (by omega)⟩
    · exact ⟨trivial, ih hr _ (by simpa using ha)⟩

theorem pads_offset (shape strides : List Nat) (n_add_all : Nat) {l : List slice_variant}
    (h : ∀ el ∈ l, el = slice_variant.all ∨ el = slice_variant.newaxis) (a : Nat) :
    view_offset shape strides n_add_all l a = 0 := by
  induction l generalizing a with
  | nil => rfl
  | cons el rest ih =>
    have hr := fun x hx => h x (List.mem_cons_of_mem el hx)
    rcases h el (List.mem_cons_self _ _) with he | he <;> subst he <;>
      simp only [view_offset, slice_offset, ih hr, Nat.add_zero]

/-- The view of a slice list made of `all` and `newaxis` only. -/
theorem strided_view_pads {α : Type} (dsm : List Nat → List Nat → layout_type → Bool)
    (e : xstrided_view α) (slices : List slice_variant)
    (hs : e.m_strides.length = e.m_shape.length) (hb : e.m_offset < 2 ^ 64)
    (hN : e.m_shape.length + slices.length < 2 ^ 64)
    (hall : ∀ el ∈ slices, el = slice_variant.all ∨ el = slice_variant.newaxis)
    (hc : slices.count slice_variant.all ≤ e.m_shape.length) :
    ∃ v, strided_view dsm e slices = .ok v ∧
      v.m_shape = view_shape e.m_shape 0 slices 0
        ++ e.m_shape.drop (slices.count slice_variant.all) ∧
      v.m_strides = view_strides e.m_shape e.m_strides 0 slices 0
        ++ e.m_strides.drop (slices.count slice_variant.all) ∧
      v.m_offset = e.m_offset ∧ v.m_storage = e.m_storage := by
  obtain ⟨i1, i2, i3, i4⟩ := pads_counts hall
  have hd : e.m_shape.length < 2 ^ 64 := by omega
  have hec : ellipsis_count e.m_shape slices = 0 := by
    unfold ellipsis_count; rw [if_neg i4]
  have hnew : n_newaxis_of slices ≤ slices.length := List.count_le_length _ _
  obtain ⟨⟨sh, sd, off, lay⟩, hres⟩ := get_strided_view_args_complete dsm e.m_offset e.m_layout
    hd hs (by rw [i1]; omega) (by rw [i2]; omega) (by rw [i3]; exact hc)
    (by rw [hec]; exact pads_addressed 0 hall 0 (by omega))
  obtain ⟨k1, k2, k3, _⟩ := get_strided_view_args_eq hd hs hb hres
  rw [hec, axis_after_eq_count slices 0 0 i4, i3, Nat.zero_add] at k1 k2
  rw [hec, pads_offset _ _ _ hall, Nat.add_zero, Nat.mod_eq_of_lt hb] at k3
  refine ⟨xstrided_view.ctor e sh sd off lay, ?_, k1, k2, k3, rfl⟩
  unfold strided_view get_strides get_offset
  rw [hres]
  rfl


theorem write_slice_append (pre post : List slice_variant) (x y : slice_variant) :
    write_slice (pre ++ x :: post) pre.length y = .ok (pre ++ y :: post) := by
  unfold write_slice
  rw [if_pos (by simp), List.set_append_right _ _ (Nat.le_refl _)]
  simp

/-- The loop writes `newaxis` over the block of `count` slices that follows
`pre`. -/
theorem fill_newaxis_block (pre post : List slice_variant) (x : slice_variant) (count : Nat) :
    fill_newaxis (pre ++ List.replicate count x ++ post) pre.length count
      = .ok (pre ++ List.replicate count slice_variant.newaxis ++ post) := by
  induction count generalizing pre with
  | zero => rfl
  | succ count ih =>
    have e1 : pre ++ List.replicate (count + 1) x ++ post
        = pre ++ x :: (List.replicate count x ++ post) := by
      simp [List.replicate_succ]
    have e2 : pre ++ List.replicate (count + 1) slice_variant.newaxis ++ post
        = (pre ++ [slice_variant.newaxis]) ++ List.replicate count slice_variant.newaxis
          ++ post := by
      simp [List.replicate_succ]
    have e3 : pre ++ slice_variant.newaxis :: (List.replicate count x ++ post)
        = (pre ++ [slice_variant.newaxis]) ++ List.replicate count x ++ post := by
      simp
    rw [e1]
    simp only [fill_newaxis, write_slice_append]
    rw [e2, e3]
    have := ih (pre ++ [slice_variant.newaxis])
    simpa using this

theorem round_ratio_le_one {d N : Nat} (h : d < N) :
    round_ratio (N - d) N = (if 2 * d ≤ N then 1 else 0) := by
  unfold round_ratio
  split
  · apply Nat.div_eq_of_lt_le <;> omega
  · apply Nat.div_eq_of_lt; omega

/-- The slice vector of `atleast_Nd<N>` for a dimension below `N`. -/
theorem atleast_Nd_slices_eq {N d : Nat} (h : d < N) (hN : N < 2 ^ 64) :
    atleast_Nd_slices N d
      = .ok (List.replicate (round_ratio (N - d) N) slice_variant.newaxis
          ++ List.replicate d slice_variant.all
          ++ List.replicate (N - d - round_ratio (N - d) N) slice_variant.newaxis) := by
  have hk := round_ratio_le_one h
  have hsub : size_sub N d = N - d := by
    unfold size_sub
    rw [show ((N : Int) - (d : Int)) = ((N - d : Nat) : Int) by omega]
    exact XTENSOR_MU_of_lt (by omega)
  generalize hkk : round_ratio (N - d) N = k at hk
  have hk1 : k + d ≤ N := by split at hk <;> omega
  unfold atleast_Nd_slices
  simp only [if_pos h, hsub, hkk, Nat.sub_zero, Nat.zero_max]
  have hadd : size_add k d = k + d := by unfold size_add; omega
  rw [hadd, max_eq_right (Nat.le_of_lt h)]
  have s0 : List.replicate N slice_variant.all
      = [] ++ List.replicate k slice_variant.all
        ++ List.replicate (N - k) slice_variant.all := by
    rw [List.nil_append, ← List.replicate_add]; congr 1; omega
  have f1 := fill_newaxis_block [] (List.replicate (N - k) slice_variant.all)
    slice_variant.all k
  rw [← s0] at f1
  simp only [List.length_nil, List.nil_append] at f1
  rw [f1]
  have s1 : List.replicate k slice_variant.newaxis ++ List.replicate (N - k) slice_variant.all
      = (List.replicate k slice_variant.newaxis ++ List.replicate d slice_variant.all)
        ++ List.replicate (N - (k + d)) slice_variant.all ++ [] := by
    rw [List.append_nil, List.append_assoc, ← List.replicate_add]; congr 2; omega
  have f2 := fill_newaxis_block
    (List.replicate k slice_variant.newaxis ++ List.replicate d slice_variant.all) []
    slice_variant.all (N - (k + d))
  rw [← s1] at f2
  simp only [List.length_append, List.length_replicate, List.append_nil] at f2
  simp only [ok_bind]
  show (fill_newaxis _ (k + d) (N - (k + d)) >>= fun sv => Except.ok sv) = _
  rw [f2]
  show Except.ok _ = Except.ok _
  congr 2
  congr 1
  omega


/-- The slice vector of `expand_dims(e, axis)` for an axis within the dimension. -/
theorem expand_dims_slices {d axis : Nat} (h : axis ≤ d) (hd : d + 1 < 2 ^ 64) :
    write_slice (List.replicate (size_add d 1) slice_variant.all) axis slice_variant.newaxis
      = .ok (List.replicate axis slice_variant.all
          ++ slice_variant.newaxis :: List.replicate (d - axis) slice_variant.all) := by
  have e1 : size_add d 1 = d + 1 := by unfold size_add; omega
  have e2 : List.replicate (d + 1) slice_variant.all
      = List.replicate axis slice_variant.all
        ++ slice_variant.all :: List.replicate (d - axis) slice_variant.all := by
    rw [← List.replicate_succ, ← List.replicate_add]; congr 1; omega
  rw [e1, e2]
  have := write_slice_append (List.replicate axis slice_variant.all)
    (List.replicate (d - axis) slice_variant.all) slice_variant.all slice_variant.newaxis
  rwa [List.length_replicate] at this

theorem pads_mem_replicate (p q r : Nat) :
    ∀ el ∈ List.replicate p slice_variant.newaxis ++ List.replicate q slice_variant.all
        ++ List.replicate r slice_variant.newaxis,
      el = slice_variant.all ∨ el = slice_variant.newaxis := by
  intro el hel
  simp only [List.mem_append, List.mem_replicate] at hel
  rcases hel with (⟨_, h⟩ | ⟨_, h⟩) | ⟨_, h⟩
  · exact Or.inr h
  · exact Or.inl h
  · exact Or.inr h

/-- The view of `p` new axes, `q` whole axes and `r` new axes. -/
theorem strided_view_newaxis_all_newaxis {α : Type}
    (dsm : List Nat → List Nat → layout_type → Bool) (e : xstrided_view α) (p q r : Nat)
    (hs : e.m_strides.length = e.m_shape.length) (hb : e.m_offset < 2 ^ 64)
    (hN : e.m_shape.length + (p + q + r) < 2 ^ 64) (hq : q ≤ e.m_shape.length) :
    ∃ v, strided_view dsm e
        (List.replicate p slice_variant.newaxis ++ List.replicate q slice_variant.all
          ++ List.replicate r slice_variant.newaxis) = .ok v ∧
      v.m_shape = List.replicate p 1 ++ e.m_shape.take q ++ List.replicate r 1
        ++ e.m_shape.drop q ∧
      v.m_strides = List.replicate p 0 ++ e.m_strides.take q ++ List.replicate r 0
        ++ e.m_strides.drop q ∧
      v.m_offset = e.m_offset ∧ v.m_storage = e.m_storage := by
  have hcount : (List.replicate p slice_variant.newaxis ++ List.replicate q slice_variant.all
      ++ List.replicate r slice_variant.newaxis).count slice_variant.all = q := by
    simp [List.count_append, List.count_replicate]
  obtain ⟨v, h1, h2, h3, h4, h5⟩ := strided_view_pads dsm e
    (List.replicate p slice_variant.newaxis ++ List.replicate q slice_variant.all
      ++ List.replicate r slice_variant.newaxis) hs hb
    (by simp only [List.length_append, List.length_replicate]; exact hN)
    (pads_mem_replicate p q r) (by rw [hcount]; exact hq)
  refine ⟨v, h1, ?_, ?_, h4, h5⟩
  · rw [h2, hcount, view_shape_append, view_shape_append, view_shape_replicate_newaxis,
      axis_after_append, axis_after_replicate_newaxis, view_shape_replicate_newaxis,
      view_shape_replicate_all _ _ _ (by omega), List.drop_zero]
  · rw [h3, hcount, view_strides_append, view_strides_append, view_strides_replicate_newaxis,
      axis_after_append, axis_after_replicate_newaxis, view_strides_replicate_newaxis,
      view_strides_replicate_all _ _ _ (by omega), List.drop_zero]


/-! ## Lemmas on the failures of the view builder -/

theorem bind_error {β γ : Type} {x : Except xerror β} {f : β → Except xerror γ} {err : xerror}
    (h : (x >>= f) = .error err) : x = .error err ∨ ∃ b, x = .ok b ∧ f b = .error err := by
  cases x with
  | error e =>
    left
    change (Except.error e : Except xerror γ) = Except.error err at h
    injection h with h
    rw [h]
  | ok b => right; exact ⟨b, rfl, h⟩

theorem read_at_error {v : List Nat} {k : Nat} {err : xerror}
    (h : read_at v k = .error err) : err = xerror.out_of_bounds := by
  unfold read_at at h
  split at h
  · cases h
  · injection h with h; exact h.symm

theorem write_at_error {v : List Nat} {k x : Nat} {err : xerror}
    (h : write_at v k x = .error err) : err = xerror.out_of_bounds := by
  unfold write_at at h
  split at h
  · cases h
  · injection h with h; exact h.symm

theorem xrange_adaptor_get_error {start stop step : Option Int} {n : Nat} {err : xerror}
    (h : xrange_adaptor_get start stop step n = .error err) : err = xerror.invalid_step := by
  unfold xrange_adaptor_get at h
  simp only [] at h
  split at h
  · injection h with h; exact h.symm
  · cases h

/-- The first loop fails when it meets a second ellipsis. -/
theorem count_slices_ellipsis_twice :
    ∀ (l : List slice_variant) (st : dimension_state),
      2 ≤ n_ellipsis_of l + (if st.has_ellipsis = true then 1 else 0) →
      count_slices l st = .error xerror.ellipsis_twice := by
  intro l
  induction l with
  | nil =>
    intro st h
    simp only [n_ellipsis_of, List.count_nil] at h
    split at h <;> omega
  | cons el rest ih =>
    intro st h
    simp only [count_slices]
    cases el with
    | ellipsis =>
      simp only [count_slice]
      by_cases hh : st.has_ellipsis = true
      · simp [hh]
      · simp only [hh, Bool.false_eq_true, if_false]
        apply ih
        simp [n_ellipsis_of, hh] at h ⊢
        exact h
    | index k =>
      simp only [count_slice]
      apply ih
      simpa [n_ellipsis_of, List.count_cons] using h
    | newaxis =>
      simp only [count_slice]
      apply ih
      simpa [n_ellipsis_of, List.count_cons] using h
    | all =>
      simp only [count_slice]
      apply ih
      simpa [n_ellipsis_of, List.count_cons] using h
    | range a b c =>
      simp only [count_slice]
      apply ih
      simpa [n_ellipsis_of, List.count_cons] using h

theorem add_all_axes_error {shape strides : List Nat} :
    ∀ (j : Nat) (st : view_args_state) (err : xerror),
      add_all_axes shape strides j st = .error err → is_loop_error err = true := by
  intro j
  induction j with
  | zero => intro st err h; cases h
  | succ j ih =>
    intro st err h
    simp only [add_all_axes] at h
    rcases bind_error h with h | ⟨_, _, h⟩
    · rw [read_at_error h]; rfl
    rcases bind_error h with h | ⟨_, _, h⟩
    · rw [write_at_error h]; rfl
    rcases bind_error h with h | ⟨_, _, h⟩
    · rw [read_at_error h]; rfl
    rcases bind_error h with h | ⟨_, _, h⟩
    · rw [write_at_error h]; rfl
    exact ih _ _ h

theorem apply_slice_error {shape strides : List Nat} {n_add_all : Nat} {st : view_args_state}
    {el : slice_variant} {err : xerror}
    (h : apply_slice shape strides n_add_all st el = .error err) :
    is_loop_error err = true := by
  cases el with
  | index k =>
    simp only [apply_slice] at h
    rcases bind_error h with h | ⟨_, _, h⟩
    · rw [read_at_error h]; rfl
    · cases h
  | newaxis =>
    simp only [apply_slice] at h
    rcases bind_error h with h | ⟨_, _, h⟩
    · rw [write_at_error h]; rfl
    · cases h
  | ellipsis =>
    simp only [apply_slice] at h
    rcases bind_error h with h | ⟨_, _, h⟩
    · exact add_all_axes_error _ _ _ h
    · cases h
  | all =>
    simp only [apply_slice] at h
    rcases bind_error h with h | ⟨_, _, h⟩
    · rw [read_at_error h]; rfl
    rcases bind_error h with h | ⟨_, _, h⟩
    · rw [write_at_error h]; rfl
    rcases bind_error h with h | ⟨_, _, h⟩
    · rw [read_at_error h]; rfl
    rcases bind_error h with h | ⟨_, _, h⟩
    · rw [write_at_error h]; rfl
    · cases h
  | range a b c =>
    simp only [apply_slice] at h
    rcases bind_error h with h | ⟨_, _, h⟩
    · rw [read_at_error h]; rfl
    rcases bind_error h with h | ⟨_, _, h⟩
    · rw [xrange_adaptor_get_error h]; rfl
    rcases bind_error h with h | ⟨_, _, h⟩
    · rw [read_at_error h]; rfl
    rcases bind_error h with h | ⟨_, _, h⟩
    · rw [write_at_error h]; rfl
    rcases bind_error h with h | ⟨_, _, h⟩
    · rw [write_at_error h]; rfl
    · cases h

theorem apply_slices_error {shape strides : List Nat} {n_add_all : Nat} :
    ∀ (l : List slice_variant) (st : view_args_state) (err : xerror),
      apply_slices shape strides n_add_all l st = .error err → is_loop_error err = true := by
  intro l
  induction l with
  | nil => intro st err h; cases h
  | cons el rest ih =>
    intro st err h
    simp only [apply_slices] at h
    split at h
    · exact ih _ _ h
    · rename_i e he
      injection h with h
      subst h
      exact apply_slice_error he

theorem append_trailing_error {shape strides : List Nat} :
    ∀ (fuel : Nat) (st : view_args_state) (err : xerror),
      append_trailing shape strides fuel st = .error err → is_loop_error err = true := by
  intro fuel
  induction fuel with
  | zero =>
    intro st err h
    simp only [append_trailing] at h
    split at h
    · injection h with h; subst h; rfl
    · cases h
  | succ fuel ih =>
    intro st err h
    simp only [append_trailing] at h
    split at h
    · rcases bind_error h with h | ⟨_, _, h⟩
      · rw [read_at_error h]; rfl
      rcases bind_error h with h | ⟨_, _, h⟩
      · rw [write_at_error h]; rfl
      rcases bind_error h with h | ⟨_, _, h⟩
      · rw [read_at_error h]; rfl
      rcases bind_error h with h | ⟨_, _, h⟩
      · rw [write_at_error h]; rfl
      exact ih _ _ h
    · cases h


/-! ## Lemmas on slice lists with one slice among `all` slices -/

theorem slice_axes_of_addressing {n : Nat} {el : slice_variant} (h : is_addressing el = true) :
    slice_axes n el = 1 := by
  cases el <;> first | rfl | cases h

theorem take_drop_succ_append (l : List Nat) (a m : Nat) :
    List.take m (List.drop (a + 1) l) ++ List.drop (a + 1 + m) l = List.drop (a + 1) l := by
  have h := List.take_append_drop m (List.drop (a + 1) l)
  rw [List.drop_drop] at h
  exact h

/-- The counts of a slice list with one addressing slice among `all` slices. -/
theorem counts_at_axis (a m : Nat) {el : slice_variant} (hel : is_addressing el = true) :
    n_newaxis_of (List.replicate a slice_variant.all ++ el :: List.replicate m slice_variant.all)
        = 0 ∧
      n_scalar_of (List.replicate a slice_variant.all ++ el :: List.replicate m slice_variant.all)
        ≤ 1 ∧
      n_ellipsis_of (List.replicate a slice_variant.all ++ el :: List.replicate m slice_variant.all)
        = 0 ∧
      n_addressing_of
          (List.replicate a slice_variant.all ++ el :: List.replicate m slice_variant.all)
        = a + 1 + m ∧
      slice_variant.ellipsis ∉
        List.replicate a slice_variant.all ++ el :: List.replicate m slice_variant.all := by
  have h1 : List.countP is_index (List.replicate a slice_variant.all) = 0 := by
    rw [List.countP_eq_zero]; intro x hx; rw [List.eq_of_mem_replicate hx]; decide
  have h2 : List.countP is_index (List.replicate m slice_variant.all) = 0 := by
    rw [List.countP_eq_zero]; intro x hx; rw [List.eq_of_mem_replicate hx]; decide
  have h3 : List.countP is_addressing (List.replicate a slice_variant.all) = a := by
    rw [List.countP_eq_length.2, List.length_replicate]
    intro x hx; rw [List.eq_of_mem_replicate hx]; rfl
  have h4 : List.countP is_addressing (List.replicate m slice_variant.all) = m := by
    rw [List.countP_eq_length.2, List.length_replicate]
    intro x hx; rw [List.eq_of_mem_replicate hx]; rfl
  refine ⟨?_, ?_, ?_, ?_, ?_⟩
  · cases el <;> simp [is_addressing, n_newaxis_of, List.count_append, List.count_cons,
      List.count_replicate] at hel ⊢
  · simp only [n_scalar_of, List.countP_append, List.countP_cons, h1, h2]
    split <;> omega
  · cases el <;> simp [is_addressing, n_ellipsis_of, List.count_append, List.count_cons,
      List.count_replicate] at hel ⊢
  · simp only [n_addressing_of, List.countP_append, List.countP_cons, h3, h4, hel, if_true]
    omega
  · cases el <;> simp [is_addressing] at hel ⊢

/-- The view of a slice list with one addressing slice at the axis `a`, among
`all` slices. -/
theorem strided_view_at_axis {α : Type} (dsm : List Nat → List Nat → layout_type → Bool)
    (e : xstrided_view α) (a m : Nat) (el : slice_variant)
    (hs : e.m_strides.length = e.m_shape.length) (hb : e.m_offset < 2 ^ 64)
    (hd : e.m_shape.length < 2 ^ 64)
    (hel : is_addressing el = true) (ham : a + 1 + m ≤ e.m_shape.length)
    (hadr : slice_addressed e.m_shape 0 el a) :
    ∃ v, strided_view dsm e
        (List.replicate a slice_variant.all ++ el :: List.replicate m slice_variant.all)
          = .ok v ∧
      v.m_shape = e.m_shape.take a ++ slice_shape e.m_shape 0 el a ++ e.m_shape.drop (a + 1) ∧
      v.m_strides = e.m_strides.take a ++ slice_strides e.m_shape e.m_strides 0 el a
        ++ e.m_strides.drop (a + 1) ∧
      v.m_offset = (e.m_offset + slice_offset e.m_shape e.m_strides el a) % 2 ^ 64 ∧
      v.m_storage = e.m_storage := by
  obtain ⟨i0, i1, i2, i3, i4⟩ := counts_at_axis a m hel
  have hax := slice_axes_of_addressing (n := 0) hel
  have hec : ellipsis_count e.m_shape
      (List.replicate a slice_variant.all ++ el :: List.replicate m slice_variant.all) = 0 := by
    unfold ellipsis_count; rw [if_neg i4]
  have hadr' : slices_addressed e.m_shape 0
      (List.replicate a slice_variant.all ++ el :: List.replicate m slice_variant.all) 0 := by
    rw [slices_addressed_append, axis_after_replicate_all]
    refine ⟨slices_addressed_replicate_all 0 a 0 (by omega), ?_⟩
    simp only [slices_addressed, Nat.zero_add, hax]
    exact ⟨hadr, slices_addressed_replicate_all 0 m (a + 1) (by omega)⟩
  obtain ⟨⟨sh, sd, off, lay⟩, hres⟩ := get_strided_view_args_complete dsm e.m_offset e.m_layout
    hd hs (by rw [i0]; omega) (by rw [i2]; omega) (by rw [i3]; exact ham)
    (by rw [hec]; exact hadr')
  obtain ⟨k1, k2, k3, _⟩ := get_strided_view_args_eq hd hs hb hres
  rw [hec, axis_after_eq_count _ 0 0 i4, i3, Nat.zero_add] at k1 k2
  rw [hec] at k3
  refine ⟨xstrided_view.ctor e sh sd off lay, ?_, ?_, ?_, ?_, rfl⟩
  · unfold strided_view get_strides get_offset
    rw [hres]
    rfl
  · show sh = _
    rw [k1, view_shape_append, axis_after_replicate_all,
      view_shape_replicate_all _ _ _ (by omega)]
    simp only [view_shape, Nat.zero_add, hax, List.drop_zero]
    rw [view_shape_replicate_all _ _ _ (by omega)]
    simp only [List.append_assoc]
    congr 2
    exact take_drop_succ_append _ a m
  · show sd = _
    rw [k2, view_strides_append, axis_after_replicate_all,
      view_strides_replicate_all _ _ _ (by omega)]
    simp only [view_strides, Nat.zero_add, hax, List.drop_zero]
    rw [view_strides_replicate_all _ _ _ (by omega)]
    simp only [List.append_assoc]
    congr 2
    exact take_drop_succ_append _ a m
  · show off = _
    rw [k3, view_offset_append, axis_after_replicate_all, view_offset_replicate_all]
    simp only [view_offset, Nat.zero_add, hax, view_offset_replicate_all, Nat.add_zero]


/-- The slice vector of `atleast_Nd<N>` for a dimension that is at least `N`. -/
theorem atleast_Nd_slices_identity {N d : Nat} (h : N ≤ d) :
    atleast_Nd_slices N d = .ok (List.replicate d slice_variant.all) := by
  unfold atleast_Nd_slices
  simp only [if_neg (Nat.not_lt.2 h), max_eq_left h]


/-! ## Lemmas for `split` -/

theorem XTENSOR_MS_of_lt {v : Nat} (h : v < 2 ^ 63) : XTENSOR_MS v = (v : Int) := by
  unfold XTENSOR_MS; rw [if_pos h]

/-- The reduction of `range(a, b)` for `0 ≤ a ≤ b`. -/
theorem xrange_adaptor_get_bounds (a b n : Nat) (h : a ≤ b) :
    xrange_adaptor_get (some (a : Int)) (some (b : Int)) none n
        = .ok ((a : Int), ((b - a : Nat) : Int), 1) ∧
      range_info (some (a : Int)) (some (b : Int)) none n
        = ((a : Int), ((b - a : Nat) : Int), 1) := by
  have h1 : xrange_adaptor_get (some (a : Int)) (some (b : Int)) none n
      = .ok ((a : Int), ((b - a : Nat) : Int), 1) := by
    unfold xrange_adaptor_get
    simp only [Option.getD_none]
    rw [if_neg (by decide)]
    simp only [if_pos (show (0 : Int) < 1 by decide)]
    have ha : ¬ ((a : Int) < 0) := by omega
    have hb : ¬ ((b : Int) < 0) := by omega
    simp only [if_neg ha, if_neg hb]
    have hlen : (if (a : Int) < (b : Int) then ((b : Int) - (a : Int) + 1 - 1) / 1 else 0)
        = ((b - a : Nat) : Int) := by
      split
      · rw [Int.ediv_one]; omega
      · omega
    rw [hlen]
  refine ⟨h1, ?_⟩
  unfold range_info
  rw [h1]

theorem dot_set_add :
    ∀ (idx s : List Nat) (a j x : Nat), idx.length = s.length → idx[a]? = some j →
      dot (idx.set a (x + j)) s = dot idx s + x * s.getD a 0 := by
  intro idx
  induction idx with
  | nil => intro s a j x _ h; simp at h
  | cons i rest ih =>
    intro s a j x hl h
    cases s with
    | nil => simp at hl
    | cons t ts =>
      cases a with
      | zero =>
        simp only [List.getElem?_cons_zero, Option.some.injEq] at h
        subst h
        simp only [List.set_cons_zero, dot_cons, List.getD_cons_zero]
        rw [Nat.add_mul]; omega
      | succ a =>
        simp only [List.getElem?_cons_succ] at h
        simp only [List.set_cons_succ, dot_cons, List.getD_cons_succ]
        rw [ih ts a j x (by simpa using hl) h]
        omega

theorem in_range_set {idx shape : List Nat} {a j n x : Nat} (h : in_range idx (shape.set a n))
    (hj : idx[a]? = some j) (ha : a < shape.length) (hx : x < shape.getD a 0) :
    in_range (idx.set a x) shape := by
  induction idx generalizing shape a with
  | nil => simp at hj
  | cons i rest ih =>
    cases shape with
    | nil => simp at ha
    | cons m ms =>
      cases a with
      | zero =>
        simp only [List.set_cons_zero] at h ⊢
        cases h with
        | cons h1 h2 => exact List.Forall₂.cons (by simpa using hx) h2
      | succ a =>
        simp only [List.set_cons_succ] at h ⊢
        cases h with
        | cons h1 h2 =>
          exact List.Forall₂.cons h1
            (ih h2 (by simpa using hj) (by simpa using ha) (by simpa using hx))

theorem take_cons_drop_eq_set (l : List Nat) (a x : Nat) (h : a < l.length) :
    l.take a ++ [x] ++ l.drop (a + 1) = l.set a x := by
  rw [List.set_eq_take_append_cons_drop, if_pos h]
  simp

theorem take_getD_drop (l : List Nat) (a : Nat) (h : a < l.length) :
    l.take a ++ [l.getD a 0] ++ l.drop (a + 1) = l := by
  rw [take_cons_drop_eq_set l a _ h]
  rw [List.getD_eq_getElem l 0 h]
  apply List.ext_getElem?
  intro i
  rw [List.getElem?_set]
  split
  · rename_i hi
    subst hi
    simp [h]
  · rfl


/-- The view that `split` builds for the part `i`. -/
theorem split_view_at {α : Type} (dsm : List Nat → List Nat → layout_type → Bool)
    (e : xstrided_view α) (axis step n i : Nat)
    (hs : e.m_strides.length = e.m_shape.length) (hb : e.m_offset < 2 ^ 64)
    (hd : e.m_shape.length < 2 ^ 64) (ha : axis < e.m_shape.length)
    (hbound : n * step ≤ e.m_shape.getD axis 0) (h63 : e.m_shape.getD axis 0 < 2 ^ 63)
    (hsa : e.m_strides.getD axis 0 < 2 ^ 64) (hn : n < 2 ^ 64) (hi : i < n) :
    ∃ v, strided_view dsm e
        (List.replicate axis slice_variant.all
          ++ slice_variant.range (some (XTENSOR_MS (size_mul i step)))
              (some (XTENSOR_MS (size_mul (size_add i 1) step))) none
            :: List.replicate (e.m_shape.length - axis - 1) slice_variant.all) = .ok v ∧
      v.m_shape = e.m_shape.set axis step ∧ v.m_strides = e.m_strides ∧
      v.m_offset = (e.m_offset + i * step * e.m_strides.getD axis 0) % 2 ^ 64 ∧
      v.m_storage = e.m_storage := by
  have h1 : i * step ≤ n * step := Nat.mul_le_mul_right _ (Nat.le_of_lt hi)
  have h2 : (i + 1) * step ≤ n * step := Nat.mul_le_mul_right _ hi
  have h3 : (i + 1) * step = i * step + step := by rw [Nat.succ_mul]
  have e1 : size_add i 1 = i + 1 := by unfold size_add; omega
  have e2 : size_mul i step = i * step := by unfold size_mul; omega
  have e3 : size_mul (i + 1) step = (i + 1) * step := by unfold size_mul; omega
  rw [e1, e2, e3, XTENSOR_MS_of_lt (by omega), XTENSOR_MS_of_lt (by omega)]
  obtain ⟨g1, g2⟩ := xrange_adaptor_get_bounds (i * step) ((i + 1) * step)
    (e.m_shape.getD axis 0) (by omega)
  obtain ⟨v, k1, k2, k3, k4, k5⟩ := strided_view_at_axis dsm e axis
    (e.m_shape.length - axis - 1)
    (slice_variant.range (some ((i * step : Nat) : Int)) (some (((i + 1) * step : Nat) : Int))
      none) hs hb hd rfl (by omega) ⟨ha, by rw [g1, g2]⟩
  refine ⟨v, k1, ?_, ?_, ?_, k5⟩
  · rw [k2]
    simp only [slice_shape, g2]
    rw [XTENSOR_MU_of_lt (by omega), take_cons_drop_eq_set _ _ _ ha]
    congr 1
    omega
  · rw [k3]
    simp only [slice_strides, g2]
    have : size_mul (XTENSOR_MU 1) (e.m_strides.getD axis 0) = e.m_strides.getD axis 0 := by
      rw [show (1 : Int) = ((1 : Nat) : Int) by rfl, XTENSOR_MU_of_lt (by norm_num)]
      unfold size_mul; omega
    rw [this, take_getD_drop _ _ (by omega)]
  · rw [k4]
    simp only [slice_offset, g2]
    rw [XTENSOR_MU_of_lt (by omega)]

/-- The loop of `split` over the parts `l`. -/
theorem split_views_spec {α : Type} (dsm : List Nat → List Nat → layout_type → Bool)
    (e : xstrided_view α) (axis step n : Nat)
    (hs : e.m_strides.length = e.m_shape.length) (hb : e.m_offset < 2 ^ 64)
    (hd : e.m_shape.length < 2 ^ 64) (ha : axis < e.m_shape.length)
    (hbound : n * step ≤ e.m_shape.getD axis 0) (h63 : e.m_shape.getD axis 0 < 2 ^ 63)
    (hsa : e.m_strides.getD axis 0 < 2 ^ 64) (hn : n < 2 ^ 64) :
    ∀ (l : List Nat) (x0 : slice_variant), (∀ i ∈ l, i < n) →
      ∃ views, split_views dsm e axis step l
          (List.replicate axis slice_variant.all
            ++ x0 :: List.replicate (e.m_shape.length - axis - 1) slice_variant.all)
            = .ok views ∧
        List.Forall₂ (fun i v => v.m_shape = e.m_shape.set axis step ∧
          v.m_strides = e.m_strides ∧
          v.m_offset = (e.m_offset + i * step * e.m_strides.getD axis 0) % 2 ^ 64 ∧
          v.m_storage = e.m_storage) l views := by
  intro l
  induction l with
  | nil => intro x0 _; exact ⟨[], rfl, List.Forall₂.nil⟩
  | cons i rest ih =>
    intro x0 hl
    obtain ⟨v, hv, hprop⟩ := split_view_at dsm e axis step n i hs hb hd ha hbound h63 hsa hn
      (hl i (List.mem_cons_self _ _))
    obtain ⟨views, hviews, hall⟩ := ih
      (slice_variant.range (some (XTENSOR_MS (size_mul i step)))
        (some (XTENSOR_MS (size_mul (size_add i 1) step))) none)
      (fun j hj => hl j (List.mem_cons_of_mem _ hj))
    refine ⟨v :: views, ?_, List.Forall₂.cons hprop hall⟩
    have hw := write_slice_append (List.replicate axis slice_variant.all)
      (List.replicate (e.m_shape.length - axis - 1) slice_variant.all) x0
      (slice_variant.range (some (XTENSOR_MS (size_mul i step)))
        (some (XTENSOR_MS (size_mul (size_add i 1) step))) none)
    rw [List.length_replicate] at hw
    simp only [split_views]
    rw [hw]
    simp only [ok_bind]
    rw [hv]
    simp only [ok_bind]
    rw [hviews]
    rfl


theorem forall₂_range_get {β : Type} {P : Nat → β → Prop} {n : Nat} {l : List β}
    (h : List.Forall₂ P (List.range n) l) :
    l.length = n ∧ ∀ i, i < n → ∃ v, l[i]? = some v ∧ P i v := by
  have hl : l.length = n := by rw [← h.length_eq, List.length_range]
  refine ⟨hl, fun i hi => ?_⟩
  rw [List.forall₂_iff_get] at h
  have := h.2 i (by rw [List.length_range]; exact hi) (by omega)
  refine ⟨l.get ⟨i, by omega⟩, ?_, ?_⟩
  · simp
  · simpa using this

theorem in_range_set_lt {idx shape : List Nat} {a j n : Nat} (h : in_range idx (shape.set a n))
    (hj : idx[a]? = some j) (ha : a < shape.length) : j < n := by
  induction idx generalizing shape a with
  | nil => simp at hj
  | cons i rest ih =>
    cases shape with
    | nil => simp at ha
    | cons m ms =>
      cases a with
      | zero =>
        simp only [List.set_cons_zero] at h
        simp only [List.getElem?_cons_zero, Option.some.injEq] at hj
        cases h with
        | cons h1 h2 => omega
      | succ a =>
        simp only [List.set_cons_succ] at h
        cases h with
        | cons h1 h2 => exact ih h2 (by simpa using hj) (by simpa using ha)

/-- What `split(e, n, axis)` does, by cases. -/
theorem split_cases {α : Type} (dsm : List Nat → List Nat → layout_type → Bool)
    (e : xstrided_view α) (n axis : Nat)
    (hs : e.m_strides.length = e.m_shape.length) (hb : e.m_offset < 2 ^ 64)
    (hd : e.m_shape.length < 2 ^ 64)
    (h63 : e.m_shape.getD axis 0 < 2 ^ 63) (hsa : e.m_strides.getD axis 0 < 2 ^ 64)
    (hn : 0 < n) (hn64 : n < 2 ^ 64) :
    (e.m_shape.length ≤ axis → split dsm e n axis = .error xerror.split_axis) ∧
    (axis < e.m_shape.length → e.m_shape.getD axis 0 % n ≠ 0 →
      split dsm e n axis = .error xerror.split_rest) ∧
    (axis < e.m_shape.length → e.m_shape.getD axis 0 % n = 0 →
      ∃ views, split dsm e n axis = .ok views ∧
        List.Forall₂ (fun i v => v.m_shape = e.m_shape.set axis (e.m_shape.getD axis 0 / n) ∧
          v.m_strides = e.m_strides ∧
          v.m_offset = (e.m_offset + i * (e.m_shape.getD axis 0 / n)
            * e.m_strides.getD axis 0) % 2 ^ 64 ∧
          v.m_storage = e.m_storage) (List.range n) views) := by
  refine ⟨?_, ?_, ?_⟩
  · intro h
    unfold split xstrided_view.dimension
    rw [if_pos h]
  · intro h hr
    unfold split xstrided_view.dimension
    rw [if_neg (by omega), read_at_of_lt h]
    simp only [ok_bind]
    rw [if_neg (by omega), if_pos hr]
  · intro h hr
    have hmul : n * (e.m_shape.getD axis 0 / n) ≤ e.m_shape.getD axis 0 :=
      Nat.mul_div_le _ _
    obtain ⟨views, h1, h2⟩ := split_views_spec dsm e axis (e.m_shape.getD axis 0 / n) n
      hs hb hd h hmul h63 hsa hn64 (List.range n) slice_variant.all
      (fun i hi => List.mem_range.1 hi)
    refine ⟨views, ?_, h2⟩
    unfold split xstrided_view.dimension
    rw [if_neg (by omega), read_at_of_lt h]
    simp only [ok_bind]
    rw [if_neg (by omega), if_neg (by simpa using hr)]
    have e2 : List.replicate e.m_shape.length slice_variant.all
        = List.replicate axis slice_variant.all
          ++ slice_variant.all :: List.replicate (e.m_shape.length - axis - 1)
              slice_variant.all := by
      rw [← List.replicate_succ, ← List.replicate_add]; congr 1; omega
    rw [e2]
    exact h1


/-! ## Lemmas for `trim_zeros` -/

theorem find_if_distance_spec {α : Type} [Zero α] [DecidableEq α] (read : Nat → Option α)
    (val : Nat → α) :
    ∀ (ks : List Nat), (∀ k ∈ ks, read k = some (val k)) →
      find_if_distance read ks = .ok (leading_zeros (ks.map val)) := by
  intro ks
  induction ks with
  | nil => intro _; rfl
  | cons k rest ih =>
    intro h
    have hk := h k (List.mem_cons_self _ _)
    have hrest := ih (fun j hj => h j (List.mem_cons_of_mem _ hj))
    simp only [find_if_distance, hk, hrest, List.map_cons, leading_zeros, List.findIdx_cons]
    by_cases hz : val k = 0
    · simp [hz]
    · simp [hz]

theorem leading_zeros_le {α : Type} [Zero α] [DecidableEq α] (l : List α) :
    leading_zeros l ≤ l.length := List.findIdx_le_length _

theorem leading_zeros_before {α : Type} [Zero α] [DecidableEq α] (l : List α) (k : Nat)
    (h : k < leading_zeros l) : l[k]? = some 0 := by
  have hk : k < l.length := lt_of_lt_of_le h (leading_zeros_le l)
  have := List.not_of_lt_findIdx h
  rw [List.getElem?_eq_getElem hk]
  simpa using this

theorem leading_zeros_at {α : Type} [Zero α] [DecidableEq α] (l : List α)
    (h : leading_zeros l < l.length) : ∃ x, l[leading_zeros l]? = some x ∧ x ≠ 0 := by
  refine ⟨l[leading_zeros l], List.getElem?_eq_getElem h, ?_⟩
  have := List.findIdx_getElem (w := h)
  simpa [leading_zeros] using this

theorem leading_zeros_le_of_ne {α : Type} [Zero α] [DecidableEq α] (l : List α) (k : Nat)
    (x : α) (h : l[k]? = some x) (hx : x ≠ 0) : leading_zeros l ≤ k := by
  by_contra hcon
  have := leading_zeros_before l k (by omega)
  rw [h] at this
  injection this with this
  exact hx this


/-- The slice that `trim_zeros` passes to `strided_view`, for a source of
dimension `1`, when every element of the iteration can be read. -/
theorem trim_zeros_eq {α : Type} [Zero α] [DecidableEq α]
    (dsm : List Nat → List Nat → layout_type → Bool) (e : xstrided_view α)
    (direction : String) (val : Nat → α) (hdim : e.dimension = 1)
    (hsize : e.size < 2 ^ 63) (hread : ∀ k, k < e.size → iterate e k = some (val k)) :
    trim_zeros dsm e direction
      = strided_view dsm e
          [slice_variant.range
            (some ((trim_start direction ((List.range e.size).map val) : Nat) : Int))
            (some ((trim_stop direction ((List.range e.size).map val) : Nat) : Int)) none] := by
  have f1 := find_if_distance_spec (iterate e) val (List.range e.size)
    (fun k hk => hread k (List.mem_range.1 hk))
  have f2 := find_if_distance_spec (iterate e) val (List.range e.size).reverse
    (fun k hk => hread k (List.mem_range.1 (List.mem_reverse.1 hk)))
  rw [List.map_reverse] at f2
  have hle := leading_zeros_le ((List.range e.size).map val)
  have hle2 := leading_zeros_le ((List.range e.size).map val).reverse
  have hlen : ((List.range e.size).map val).length = e.size := by simp
  rw [List.length_reverse] at hle2
  rw [hlen] at hle hle2
  have hcast : ((e.size : Int) - (leading_zeros ((List.range e.size).map val).reverse : Int))
      = ((e.size - leading_zeros ((List.range e.size).map val).reverse : Nat) : Int) := by
    omega
  unfold trim_zeros trim_stop trim_start
  rw [show XTENSOR_ASSERT_MSG (decide (e.dimension = 1)) xerror.trim_zeros_dimension = .ok ()
    from by simp [XTENSOR_ASSERT_MSG, hdim], ok_bind]
  rw [f1, f2, XTENSOR_MS_of_lt hsize, hlen]
  by_cases hf : 'f' ∈ direction.data
  · by_cases hb : 'b' ∈ direction.data
    · by_cases hne : leading_zeros ((List.range e.size).map val) = e.size
      · simp [hf, hb, hne, ok_bind]
      · simp [hf, hb, hne, ok_bind, hcast]
    · simp [hf, hb, ok_bind]
  · by_cases hb : 'b' ∈ direction.data
    · by_cases hne : (0 : Nat) = e.size
      · simp [hf, hb, ← hne, ok_bind]
      · have hne2 : ¬ ((0 : Int) = (e.size : Int)) := by omega
        simp [hf, hb, hne, hne2, ok_bind, hcast]
    · simp [hf, hb, ok_bind]


theorem getElem?_reverse_index {α : Type} (l : List α) (k : Nat) (h : k < l.length) :
    l.reverse[l.length - 1 - k]? = l[k]? := by
  rw [List.getElem?_reverse (by omega)]
  congr 1
  omega

/-- The bounds that `trim_zeros` computes, for the elements `l`. -/
theorem trim_bounds {α : Type} [Zero α] [DecidableEq α] (direction : String) (l : List α) :
    trim_start direction l ≤ trim_stop direction l ∧ trim_stop direction l ≤ l.length ∧
    ('f' ∈ direction.data →
      (∀ k, k < trim_start direction l → l[k]? = some 0) ∧
      (trim_start direction l < l.length →
        ∃ x, l[trim_start direction l]? = some x ∧ x ≠ 0)) ∧
    ('f' ∉ direction.data → trim_start direction l = 0) ∧
    ('b' ∈ direction.data →
      (∀ k, trim_stop direction l ≤ k → k < l.length → l[k]? = some 0) ∧
      (trim_start direction l < trim_stop direction l →
        ∃ x, l[trim_stop direction l - 1]? = some x ∧ x ≠ 0)) ∧
    ('b' ∉ direction.data → trim_stop direction l = l.length) := by
  have hle := leading_zeros_le l
  have hle2 := leading_zeros_le l.reverse
  rw [List.length_reverse] at hle2
  have B1 : ∀ k, l.length - leading_zeros l.reverse ≤ k → k < l.length → l[k]? = some 0 := by
    intro k h1 h2
    rw [← getElem?_reverse_index l k h2]
    exact leading_zeros_before _ _ (by omega)
  have B2 : leading_zeros l.reverse < l.length →
      ∃ x, l[l.length - leading_zeros l.reverse - 1]? = some x ∧ x ≠ 0 := by
    intro h
    obtain ⟨x, hx, hx0⟩ := leading_zeros_at l.reverse (by rw [List.length_reverse]; exact h)
    refine ⟨x, ?_, hx0⟩
    rw [← getElem?_reverse_index l _ (by omega), ← hx]
    congr 1
    omega
  have B3 : ∀ k x, l[k]? = some x → x ≠ 0 → k < l.length →
      k + 1 ≤ l.length - leading_zeros l.reverse := by
    intro k x hk hx hlt
    have := leading_zeros_le_of_ne l.reverse (l.length - 1 - k) x
      (by rw [getElem?_reverse_index l k hlt]; exact hk) hx
    omega
  by_cases hf : 'f' ∈ direction.data <;> by_cases hb : 'b' ∈ direction.data
  · have hs_eq : trim_start direction l = leading_zeros l := by simp [trim_start, hf]
    by_cases hne : leading_zeros l = l.length
    · have ht_eq : trim_stop direction l = l.length := by
        simp [trim_stop, trim_start, hf, hb, hne]
      rw [hs_eq, ht_eq]
      refine ⟨hle, Nat.le_refl _, fun _ => ⟨fun k hk => leading_zeros_before l k hk,
        fun h => leading_zeros_at l h⟩, fun h => absurd hf h,
        fun _ => ⟨fun k h1 h2 => by omega, fun h => by omega⟩, fun h => absurd hb h⟩
    · have ht_eq : trim_stop direction l = l.length - leading_zeros l.reverse := by
        simp [trim_stop, trim_start, hf, hb, hne]
      have hlt : leading_zeros l < l.length := by omega
      obtain ⟨x, hx, hx0⟩ := leading_zeros_at l hlt
      have h3 := B3 _ x hx hx0 hlt
      rw [hs_eq, ht_eq]
      refine ⟨by omega, by omega, fun _ => ⟨fun k hk => leading_zeros_before l k hk,
        fun _ => ⟨x, hx, hx0⟩⟩, fun h => absurd hf h,
        fun _ => ⟨B1, fun _ => B2 (by omega)⟩, fun h => absurd hb h⟩
  · have hs_eq : trim_start direction l = leading_zeros l := by simp [trim_start, hf]
    have ht_eq : trim_stop direction l = l.length := by simp [trim_stop, hb]
    rw [hs_eq, ht_eq]
    exact ⟨hle, Nat.le_refl _, fun _ => ⟨fun k hk => leading_zeros_before l k hk,
      fun h => leading_zeros_at l h⟩, fun h => absurd hf h, fun h => absurd h hb, fun _ => rfl⟩
  · have hs_eq : trim_start direction l = 0 := by simp [trim_start, hf]
    by_cases hne : (0 : Nat) = l.length
    · have ht_eq : trim_stop direction l = l.length := by
        simp [trim_stop, trim_start, hf, hb, ← hne]
      rw [hs_eq, ht_eq]
      exact ⟨by omega, Nat.le_refl _, fun h => absurd h hf, fun _ => rfl,
        fun _ => ⟨fun k h1 h2 => by omega, fun h => by omega⟩, fun h => absurd hb h⟩
    · have ht_eq : trim_stop direction l = l.length - leading_zeros l.reverse := by
        simp [trim_stop, trim_start, hf, hb, hne]
      rw [hs_eq, ht_eq]
      exact ⟨by omega, by omega, fun h => absurd h hf, fun _ => rfl,
        fun _ => ⟨B1, fun h => B2 (by omega)⟩, fun h => absurd hb h⟩
  · have hs_eq : trim_start direction l = 0 := by simp [trim_start, hf]
    have ht_eq : trim_stop direction l = l.length := by simp [trim_stop, hb]
    rw [hs_eq, ht_eq]
    exact ⟨by omega, Nat.le_refl _, fun h => absurd h hf, fun _ => rfl,
      fun h => absurd h hb, fun _ => rfl⟩


theorem range_no_step_ok (s t : Option Int) (n : Nat) :
    xrange_adaptor_get s t none n = .ok (range_info s t none n) := by
  have h : ∃ info, xrange_adaptor_get s t none n = .ok info := by
    unfold xrange_adaptor_get
    simp only [Option.getD_none]
    rw [if_neg (by decide)]
    exact ⟨_, rfl⟩
  obtain ⟨info, h⟩ := h
  unfold range_info
  rw [h]

theorem iterate_1d {α : Type} (e : xstrided_view α) (n k : Nat) (h : e.m_shape = [n]) :
    iterate e k = e.operator_call [k] := by
  have h1 : compute_strides [n] layout_type.row_major = [1] := rfl
  unfold iterate
  rw [h, h1]
  have h2 : unravel_noexcept k [1] layout_type.row_major = [k] := by
    simp [unravel_noexcept, unravel_from]
  rw [h2]
  rfl

theorem data_offset_one (s j : Nat) : data_offset [s] [j] = (j * s) % 2 ^ 64 := by
  simp [data_offset]

/-- The view of one range `range(a, b)` with `a ≤ b` over a 1-D source. -/
theorem strided_view_range_1d {α : Type} (dsm : List Nat → List Nat → layout_type → Bool)
    (e : xstrided_view α) (n s a b : Nat)
    (hshape : e.m_shape = [n]) (hstr : e.m_strides = [s]) (hs : s < 2 ^ 64)
    (hb : e.m_offset < 2 ^ 64) (hab : a ≤ b) (hbn : b < 2 ^ 63) :
    ∃ v, strided_view dsm e
        [slice_variant.range (some ((a : Nat) : Int)) (some ((b : Nat) : Int)) none] = .ok v ∧
      v.m_shape = [b - a] ∧ v.m_strides = [s] ∧
      ∀ j, v.operator_call [j] = e.operator_call [a + j] := by
  obtain ⟨g1, g2⟩ := xrange_adaptor_get_bounds a b (e.m_shape.getD 0 0) hab
  have hlen : e.m_shape.length = 1 := by rw [hshape]; rfl
  have hlen2 : e.m_strides.length = 1 := by rw [hstr]; rfl
  obtain ⟨v, k1, k2, k3, k4, k5⟩ := strided_view_at_axis dsm e 0 0
    (slice_variant.range (some ((a : Nat) : Int)) (some ((b : Nat) : Int)) none)
    (by omega) hb (by omega) rfl (by omega) ⟨by omega, by rw [g1, g2]⟩
  have hs1 : size_mul (XTENSOR_MU 1) s = s := by
    rw [show (1 : Int) = ((1 : Nat) : Int) by rfl, XTENSOR_MU_of_lt (by norm_num)]
    unfold size_mul; omega
  have hsh : v.m_shape = [b - a] := by
    rw [k2]
    simp only [slice_shape, g2]
    rw [XTENSOR_MU_of_lt (by omega), hshape]
    rfl
  have hsd : v.m_strides = [s] := by
    rw [k3]
    simp only [slice_strides, g2]
    rw [hstr]
    simp only [List.getD_cons_zero, hs1]
    rfl
  have hoff : v.m_offset = (e.m_offset + a * s) % 2 ^ 64 := by
    rw [k4]
    simp only [slice_offset, g2]
    rw [XTENSOR_MU_of_lt (by omega), hstr]
    rfl
  refine ⟨v, k1, hsh, hsd, ?_⟩
  intro j
  unfold xstrided_view.operator_call xstrided_view.flat_index
  rw [k5, hsd, hstr, hoff, data_offset_one, data_offset_one, Nat.add_mul]
  unfold size_add
  congr 1
  omega


/-- One range without step, on a source of dimension at least `1`, gives a view
of the same dimension. -/
theorem strided_view_range_first {α : Type} (dsm : List Nat → List Nat → layout_type → Bool)
    (e : xstrided_view α) (s t : Option Int)
    (hs : e.m_strides.length = e.m_shape.length) (hb : e.m_offset < 2 ^ 64)
    (hd : e.m_shape.length < 2 ^ 64) (h1 : 1 ≤ e.m_shape.length) :
    ∃ v, strided_view dsm e [slice_variant.range s t none] = .ok v ∧
      v.dimension = e.dimension := by
  obtain ⟨v, k1, k2, _⟩ := strided_view_at_axis dsm e 0 0 (slice_variant.range s t none)
    hs hb hd rfl (by omega) ⟨by omega, range_no_step_ok s t _⟩
  refine ⟨v, k1, ?_⟩
  unfold xstrided_view.dimension
  rw [k2]
  simp only [slice_shape, List.take_zero, List.nil_append, List.length_append,
    List.length_singleton, List.length_drop]
  omega

/-- One range on a source of dimension `0` is one slice too many. -/
theorem strided_view_range_scalar {α : Type}
    (dsm : List Nat → List Nat → layout_type → Bool)
    (e : xstrided_view α) (s t : Option Int) (h0 : e.m_shape = []) :
    strided_view dsm e [slice_variant.range s t none] = .error xerror.too_many_slices := by
  unfold strided_view get_strided_view_args
  rw [h0]
  rfl

/-! ## The errors of `strided_view` and of `trim_zeros` -/

/-- The only failure of `find_if_distance` is a read outside the storage. -/
theorem find_if_distance_error {α : Type} [Zero α] [DecidableEq α] (read : Nat → Option α) :
    ∀ (ks : List Nat) (err : xerror),
      find_if_distance read ks = .error err → err = xerror.out_of_bounds := by
  intro ks
  induction ks with
  | nil => intro err h; cases h
  | cons k rest ih =>
    intro err h
    unfold find_if_distance at h
    split at h
    · injection h with h; exact h.symm
    · split at h
      · cases h
      · split at h
        · cases h
        · rename_i e2 he2
          injection h with h
          subst h
          exact ih _ he2

/-- The only error of the first loop is the one of a second ellipsis. -/
theorem count_slices_error :
    ∀ (l : List slice_variant) (st : dimension_state) (err : xerror),
      count_slices l st = .error err → err = xerror.ellipsis_twice := by
  intro l
  induction l with
  | nil => intro st err h; cases h
  | cons el rest ih =>
    intro st err h
    unfold count_slices at h
    split at h
    · exact ih _ _ h
    · rename_i e2 he2
      injection h with h
      subst h
      cases el <;> simp only [count_slice] at he2
      · cases he2
      · cases he2
      · cases he2
      · split at he2
        · injection he2 with he2; exact he2.symm
        · cases he2
      · cases he2

/-- The errors of `strided_view(e, slices)` are those of the view builder. -/
theorem strided_view_error {α : Type} {dsm : List Nat → List Nat → layout_type → Bool}
    {e : xstrided_view α} {slices : List slice_variant} {err : xerror}
    (h : strided_view dsm e slices = .error err) :
    err = xerror.ellipsis_twice ∨ err = xerror.too_many_slices ∨ is_loop_error err = true := by
  unfold strided_view at h
  rcases bind_error h with h1 | ⟨_, _, h2⟩
  · unfold get_strided_view_args at h1
    rcases bind_error h1 with h3 | ⟨c, _, h4⟩
    · exact Or.inl (count_slices_error _ _ _ h3)
    · split at h4
      · injection h4 with h4; exact Or.inr (Or.inl h4.symm)
      · rcases bind_error h4 with h5 | ⟨_, _, h6⟩
        · exact Or.inr (Or.inr (apply_slices_error _ _ _ h5))
        · rcases bind_error h6 with h7 | ⟨_, _, h8⟩
          · exact Or.inr (Or.inr (append_trailing_error _ _ _ h7))
          · cases h8
  · cases h2

/-- For a source of dimension `1` the errors of `trim_zeros` are those of the
view builder and of the reads of the iteration. -/
theorem trim_zeros_error {α : Type} [Zero α] [DecidableEq α]
    {dsm : List Nat → List Nat → layout_type → Bool} {e : xstrided_view α}
    {direction : String} {err : xerror} (hdim : e.dimension = 1)
    (h : trim_zeros dsm e direction = .error err) :
    err = xerror.ellipsis_twice ∨ err = xerror.too_many_slices ∨ is_loop_error err = true := by
  unfold trim_zeros at h
  rw [show XTENSOR_ASSERT_MSG (decide (e.dimension = 1)) xerror.trim_zeros_dimension = .ok ()
    from by simp [XTENSOR_ASSERT_MSG, hdim], ok_bind] at h
  simp only [] at h
  have hfd : ∀ {l : List Nat} {err2 : xerror},
      find_if_distance (iterate e) l = .error err2 →
      err2 = xerror.ellipsis_twice ∨ err2 = xerror.too_many_slices
        ∨ is_loop_error err2 = true := by
    intro l err2 h3
    rw [find_if_distance_error _ _ _ h3]
    exact Or.inr (Or.inr rfl)
  split at h
  · rcases bind_error h with h3 | ⟨d, _, h⟩
    · exact hfd h3
    · simp only [ok_bind] at h
      split at h
      · rcases bind_error h with h5 | ⟨d2, _, h⟩
        · exact hfd h5
        · exact strided_view_error h
      · exact strided_view_error h
  · simp only [ok_bind] at h
    split at h
    · rcases bind_error h with h5 | ⟨d2, _, h⟩
      · exact hfd h5
      · exact strided_view_error h
    · exact strided_view_error h

/-! ## Lemmas for the last claims -/

theorem std_equal_eq : ∀ (l1 l2 : List Nat), l1.length = l2.length →
    std_equal l1 l2 = .ok (decide (l1 = l2)) := by
  intro l1
  induction l1 with
  | nil => intro l2 h; cases l2 with
    | nil => rfl
    | cons b l2 => simp at h
  | cons a l1 ih =>
    intro l2 h
    cases l2 with
    | nil => simp at h
    | cons b l2 =>
      simp only [std_equal]
      by_cases hab : a = b
      · rw [if_pos hab, ih l2 (by simpa using h)]
        simp [hab]
      · rw [if_neg hab]
        simp [hab]


/-! ## Lemmas on the reach of a slice list -/

theorem range_step_ok (s t step : Option Int) (n : Nat) (h : step.getD 1 ≠ 0) :
    xrange_adaptor_get s t step n = .ok (range_info s t step n) := by
  have h1 : ∃ info, xrange_adaptor_get s t step n = .ok info := by
    unfold xrange_adaptor_get
    simp only []
    rw [if_neg h]
    exact ⟨_, rfl⟩
  obtain ⟨info, h1⟩ := h1
  unfold range_info
  rw [h1]

theorem range_step_zero (s t step : Option Int) (n : Nat) (h : step.getD 1 = 0) :
    xrange_adaptor_get s t step n = .error xerror.invalid_step := by
  unfold xrange_adaptor_get
  simp only []
  rw [if_pos h]

theorem axis_after_ge (n : Nat) : ∀ (l : List slice_variant) (a : Nat), a ≤ axis_after n l a := by
  intro l
  induction l with
  | nil => intro a; exact Nat.le_refl _
  | cons el rest ih =>
    intro a
    simp only [axis_after]
    exact Nat.le_trans (Nat.le_add_right _ _) (ih _)

/-- The source axis reached after a slice list, by its counts. -/
theorem axis_after_counts (n : Nat) : ∀ (l : List slice_variant) (a : Nat),
    axis_after n l a = a + n_addressing_of l + n_ellipsis_of l * n := by
  intro l
  induction l with
  | nil => intro a; simp [axis_after, n_addressing_of, n_ellipsis_of]
  | cons el rest ih =>
    intro a
    simp only [axis_after, ih]
    cases el <;>
      simp [slice_axes, n_addressing_of, n_ellipsis_of, is_addressing, List.countP_cons,
        List.count_cons, Nat.add_mul] <;> omega

/-- A slice list that stays within the source axes and has no range of step `0`
finds the axes it reads. -/
theorem slices_addressed_of_reach {shape : List Nat} (n : Nat) :
    ∀ (l : List slice_variant) (a : Nat), steps_nonzero l = true →
      axis_after n l a ≤ shape.length → slices_addressed shape n l a := by
  intro l
  induction l with
  | nil => intro a _ _; trivial
  | cons el rest ih =>
    intro a hst hle
    simp only [steps_nonzero, List.all_cons, Bool.and_eq_true] at hst
    simp only [axis_after] at hle
    have hge := axis_after_ge n rest (a + slice_axes n el)
    refine ⟨?_, ih _ hst.2 hle⟩
    cases el with
    | index k => simp only [slice_addressed, slice_axes] at hge hle ⊢; omega
    | newaxis => trivial
    | ellipsis => simp only [slice_addressed, slice_axes] at hge hle ⊢; omega
    | all => simp only [slice_addressed, slice_axes] at hge hle ⊢; omega
    | range s t step =>
      simp only [slice_addressed, slice_axes] at hge hle ⊢
      refine ⟨by omega, range_step_ok s t step _ ?_⟩
      simpa [step_nonzero] using hst.1

/-- The first-pass checks, for a list without a range of step `0`, give the
hypothesis of completeness. -/
theorem slices_addressed_of_checks {shape : List Nat} {slices : List slice_variant}
    (he : n_ellipsis_of slices ≤ 1) (ha : n_addressing_of slices ≤ shape.length)
    (hst : steps_nonzero slices = true) :
    slices_addressed shape (ellipsis_count shape slices) slices 0 := by
  apply slices_addressed_of_reach _ _ _ hst
  rw [axis_after_counts, ellipsis_count_eq he]
  by_cases hm : slice_variant.ellipsis ∈ slices
  · rw [if_pos hm]
    have := n_ellipsis_pos_of_mem hm
    have h1 : n_ellipsis_of slices = 1 := by omega
    rw [h1]; omega
  · rw [if_neg hm, n_ellipsis_zero_of_not_mem hm]; omega


theorem all_for_zero_step_cases (el : slice_variant) :
    (step_nonzero el = true ∧ all_for_zero_step el = el) ∨
    (∃ s t step, el = slice_variant.range s t step ∧ step.getD 1 = 0 ∧
      all_for_zero_step el = slice_variant.all) := by
  by_cases h : step_nonzero el = true
  · left; exact ⟨h, by unfold all_for_zero_step; rw [if_pos h]⟩
  · right
    cases el with
    | range s t step =>
      refine ⟨s, t, step, rfl, ?_, by unfold all_for_zero_step; rw [if_neg h]⟩
      simpa [step_nonzero] using h
    | index k => exact absurd rfl h
    | all => exact absurd rfl h
    | ellipsis => exact absurd rfl h
    | newaxis => exact absurd rfl h

theorem count_slice_all_for_zero_step (st : dimension_state) (el : slice_variant) :
    count_slice st (all_for_zero_step el) = count_slice st el := by
  rcases all_for_zero_step_cases el with ⟨_, h⟩ | ⟨s, t, step, h1, _, h2⟩
  · rw [h]
  · rw [h2, h1]; rfl

theorem count_slices_all_for_zero_step : ∀ (l : List slice_variant) (st : dimension_state),
    count_slices (l.map all_for_zero_step) st = count_slices l st := by
  intro l
  induction l with
  | nil => intro st; rfl
  | cons el rest ih =>
    intro st
    simp only [List.map_cons, count_slices, count_slice_all_for_zero_step]
    cases count_slice st el with
    | ok st' => exact ih st'
    | error err => rfl

theorem counts_all_for_zero_step (l : List slice_variant) :
    n_newaxis_of (l.map all_for_zero_step) = n_newaxis_of l ∧
    n_scalar_of (l.map all_for_zero_step) = n_scalar_of l ∧
    n_ellipsis_of (l.map all_for_zero_step) = n_ellipsis_of l ∧
    n_addressing_of (l.map all_for_zero_step) = n_addressing_of l ∧
    steps_nonzero (l.map all_for_zero_step) = true := by
  induction l with
  | nil => simp [n_newaxis_of, n_scalar_of, n_ellipsis_of, n_addressing_of, steps_nonzero]
  | cons el rest ih =>
    obtain ⟨i1, i2, i3, i4, i5⟩ := ih
    simp only [n_newaxis_of, n_scalar_of, n_ellipsis_of, n_addressing_of, steps_nonzero]
      at i1 i2 i3 i4 i5 ⊢
    rcases all_for_zero_step_cases el with ⟨h0, h⟩ | ⟨s, t, step, h1, _, h2⟩
    · simp only [List.map_cons, h, List.count_cons, List.countP_cons, List.all_cons, i1, i2,
        i3, i4, i5, h0, Bool.and_self, and_self]
    · subst h1
      simp only [List.map_cons, h2, List.count_cons, List.countP_cons, List.all_cons, i1,
        i2, i3, i4, i5]
      simp [is_index, is_addressing, step_nonzero]

theorem map_all_for_zero_step_eq : ∀ (l : List slice_variant), steps_nonzero l = true →
    l.map all_for_zero_step = l := by
  intro l
  induction l with
  | nil => intro _; rfl
  | cons el rest ih =>
    intro h
    simp only [steps_nonzero, List.all_cons, Bool.and_eq_true] at h
    simp only [List.map_cons]
    rw [ih h.2]
    unfold all_for_zero_step
    rw [if_pos h.1]

/-- The second loop stops with the error of the step at the first range whose
step is `0`, when it runs through with `all` in the place of these ranges. -/
theorem apply_slices_zero_step {shape strides : List Nat} {n : Nat} :
    ∀ (l : List slice_variant) (st : view_args_state),
      (∃ st', apply_slices shape strides n (l.map all_for_zero_step) st = .ok st') →
      steps_nonzero l = false →
      apply_slices shape strides n l st = .error xerror.invalid_step := by
  intro l
  induction l with
  | nil => intro st _ h; simp [steps_nonzero] at h
  | cons el rest ih =>
    intro st hok hz
    obtain ⟨st', hok⟩ := hok
    simp only [List.map_cons, apply_slices] at hok ⊢
    rcases all_for_zero_step_cases el with ⟨h0, h⟩ | ⟨s, t, step, h1, hzero, h2⟩
    · rw [h] at hok
      cases hres : apply_slice shape strides n st el with
      | error err => rw [hres] at hok; cases hok
      | ok st1 =>
        rw [hres] at hok
        simp only []
        apply ih st1 ⟨st', hok⟩
        simp only [steps_nonzero, List.all_cons, h0, Bool.true_and] at hz
        exact hz
    · rw [h2] at hok
      cases hres : apply_slice shape strides n st slice_variant.all with
      | error err => rw [hres] at hok; cases hok
      | ok st1 =>
        simp only [apply_slice] at hres
        obtain ⟨sh, hsh, _⟩ := bind_ok hres
        subst h1
        have : apply_slice shape strides n st (slice_variant.range s t step)
            = .error xerror.invalid_step := by
          simp only [apply_slice]
          rw [hsh]
          simp only [ok_bind]
          rw [range_step_zero s t step sh hzero]
          rfl
        rw [this]


/-- After the first-pass checks, `get_strided_view_args` returns a result, or
stops at a range whose step is `0`. -/
theorem get_strided_view_args_checked
    (dsm : List Nat → List Nat → layout_type → Bool) {shape strides : List Nat} (base : Nat)
    (layout : layout_type) {slices : List slice_variant}
    (hd : shape.length < 2 ^ 64) (hs : strides.length = shape.length)
    (hD : (shape.length : Int) + n_newaxis_of slices - n_scalar_of slices < 2 ^ 64)
    (he : n_ellipsis_of slices ≤ 1) (ha : n_addressing_of slices ≤ shape.length) :
    (steps_nonzero slices = true →
      ∃ res, get_strided_view_args dsm shape strides base layout slices = .ok res) ∧
    (steps_nonzero slices = false →
      get_strided_view_args dsm shape strides base layout slices
        = .error xerror.invalid_step) := by
  constructor
  · intro hst
    exact get_strided_view_args_complete dsm base layout hd hs hD he ha
      (slices_addressed_of_checks he ha hst)
  · intro hst
    obtain ⟨c1, c2, c3, c4, c5⟩ := counts_all_for_zero_step slices
    obtain ⟨res, hres⟩ := @get_strided_view_args_complete dsm shape strides base layout
      (slices.map all_for_zero_step) hd hs
      (by rw [c1, c2]; exact hD) (by rw [c3]; exact he) (by rw [c4]; exact ha)
      (slices_addressed_of_checks (by rw [c3]; exact he) (by rw [c4]; exact ha) c5)
    unfold get_strided_view_args at hres ⊢
    rw [count_slices_all_for_zero_step] at hres
    obtain ⟨c, hc, hres⟩ := bind_ok hres
    rw [hc]
    simp only [ok_bind]
    split at hres
    · cases hres
    rename_i hchk
    rw [if_neg hchk]
    obtain ⟨st1, h1, _⟩ := bind_ok hres
    rw [List.length_map] at h1
    rw [apply_slices_zero_step slices _ ⟨st1, h1⟩ hst]
    rfl


/-! ## Lemmas on lists of integer slices -/

theorem index_list_effect (shape strides : List Nat) (n : Nat) :
    ∀ (ks : List Nat) (a : Nat),
      view_shape shape n (ks.map (fun (k : Nat) => slice_variant.index (k : Int))) a = [] ∧
      view_strides shape strides n (ks.map (fun (k : Nat) => slice_variant.index (k : Int))) a = [] ∧
      axis_after n (ks.map (fun (k : Nat) => slice_variant.index (k : Int))) a = a + ks.length ∧
      (a + ks.length ≤ strides.length →
        view_offset shape strides n (ks.map (fun (k : Nat) => slice_variant.index (k : Int))) a
            % 2 ^ 64
          = dot ks (strides.drop a) % 2 ^ 64) := by
  intro ks
  induction ks with
  | nil => intro a; simp [view_shape, view_strides, axis_after, view_offset, dot]
  | cons k rest ih =>
    intro a
    obtain ⟨i1, i2, i3, i4⟩ := ih (a + 1)
    refine ⟨?_, ?_, ?_, ?_⟩
    · simp only [List.map_cons, view_shape, slice_shape, slice_axes, i1, List.nil_append]
    · simp only [List.map_cons, view_strides, slice_strides, slice_axes, i2, List.nil_append]
    · simp only [List.map_cons, axis_after, slice_axes, i3, List.length_cons]; omega
    · intro hle
      simp only [List.length_cons] at hle
      have hlt : a < strides.length := by omega
      simp only [List.map_cons, view_offset, slice_offset, slice_axes]
      rw [List.drop_eq_getElem_cons hlt, dot_cons, List.getD_eq_getElem strides 0 hlt,
        XTENSOR_MU_natCast]
      have h4 := i4 (by omega)
      have e1 : (k % 2 ^ 64 * strides[a]) % 2 ^ 64 = (k * strides[a]) % 2 ^ 64 :=
        Nat.mod_mul_mod
      omega

theorem counts_index_list (ks : List Nat) :
    n_newaxis_of (ks.map (fun (k : Nat) => slice_variant.index (k : Int))) = 0 ∧
    n_scalar_of (ks.map (fun (k : Nat) => slice_variant.index (k : Int))) = ks.length ∧
    n_ellipsis_of (ks.map (fun (k : Nat) => slice_variant.index (k : Int))) = 0 ∧
    n_addressing_of (ks.map (fun (k : Nat) => slice_variant.index (k : Int))) = ks.length ∧
    steps_nonzero (ks.map (fun (k : Nat) => slice_variant.index (k : Int))) = true := by
  induction ks with
  | nil => simp [n_newaxis_of, n_scalar_of, n_ellipsis_of, n_addressing_of, steps_nonzero]
  | cons k rest ih =>
    obtain ⟨i1, i2, i3, i4, i5⟩ := ih
    simp only [n_newaxis_of, n_scalar_of, n_ellipsis_of, n_addressing_of, steps_nonzero]
      at i1 i2 i3 i4 i5 ⊢
    simp [List.count_cons, List.countP_cons, is_index, is_addressing, step_nonzero, i1, i2,
      i3, i4, i5]


/-! ## Lemmas on the write cursor -/

/-- The result of `get_strided_view_args` is read from the variables that
`view_args_final` returns. -/
theorem view_args_final_of_ok
    {dsm : List Nat → List Nat → layout_type → Bool} {shape strides : List Nat} {base : Nat}
    {layout : layout_type} {slices : List slice_variant}
    {sh sd : List Nat} {off : Nat} {lay : layout_type}
    (hd : shape.length < 2 ^ 64) (hs : strides.length = shape.length)
    (h : get_strided_view_args dsm shape strides base layout slices = .ok (sh, sd, off, lay)) :
    ∃ st, view_args_final shape strides base slices = .ok st ∧
      st.new_shape = sh ∧ st.new_strides = sd ∧ st.offset = off ∧ st.idx = sh.length := by
  obtain ⟨_, _, _, _, k5, _, _, _, _⟩ := get_strided_view_args_sound hd hs h
  unfold get_strided_view_args at h
  unfold view_args_final
  obtain ⟨c, hc, h⟩ := bind_ok h
  rw [hc]
  simp only [ok_bind]
  split at h
  · cases h
  rename_i hchk
  rw [if_neg hchk]
  obtain ⟨st1, h1, h⟩ := bind_ok h
  obtain ⟨st2, h2, h⟩ := bind_ok h
  rw [h1]
  simp only [ok_bind]
  refine ⟨st2, h2, ?_⟩
  injection h with h
  injection h with g1 h
  injection h with g2 h
  injection h with g3 _
  refine ⟨g1, g2, g3, ?_⟩
  rw [n_add_all_eq hd hc hchk] at h1
  obtain ⟨_, _, _, k4, _, _, _⟩ := count_slices_spec _ _ _ hc
  have hdim := k4 hd
  have hf0 : filled
      { offset := base, new_shape := List.replicate c.dimension 0,
        new_strides := List.replicate c.dimension 0, i := 0, axis_skip := 0, idx := 0 }
      [] [] c.dimension 0 :=
    ⟨by simp, by simp, by simp, by simp, by simp, by simpa using hdim⟩
  obtain ⟨_, m2, _, _, m5⟩ := apply_slices_filled hd hs slices _ st1 _ _ _ _ h1 hf0 (by omega)
  obtain ⟨_, _, m6⟩ := append_trailing_filled hd hs shape.length st1 st2 _ _ _ _ h2 m5 m2
  have hlen := m6.length_shape
  simp only [List.nil_append] at hlen
  rw [← hlen, k5]


/-- Every in-range multi-index of `array_2x3` has a flat index inside its storage of
`6` elements. -/
theorem array_2x3_in_storage : ∀ i, in_range i array_2x3.m_shape → array_2x3.flat_index i < 6 := by
  intro i hi
  cases hi with
  | cons h1 hi =>
    cases hi with
    | cons h2 hi =>
      cases hi
      rename_i a b
      have ha : a < 2 := h1
      have hb : b < 3 := h2
      interval_cases a <;> interval_cases b <;> decide


/-! ## Lemmas on the layout of a transposition -/

theorem transpose_impl_none_layout {α : Type} {e t : xstrided_view α} {permutation : List Int}
    (h : transpose_impl_none e permutation = .ok t) :
    t.m_layout =
      if is_sorted (fun a b => decide (a < b)) permutation = true then e.m_layout
      else if is_sorted (fun a b => decide (b < a)) permutation = true then
        transpose_layout_noexcept e.m_layout
      else layout_type.dynamic := by
  unfold transpose_impl_none at h
  split at h
  · cases h
  · obtain ⟨temp, _, h2⟩ := bind_ok h
    cases h2
    rfl

theorem is_sorted_less_iff (l : List Int) :
    is_sorted (fun a b => decide (a < b)) l = true ↔ l.Sorted (fun a b => a ≤ b) := by
  induction l with
  | nil => simp [is_sorted]
  | cons a rest ih =>
    cases rest with
    | nil => simp [is_sorted]
    | cons b rest =>
      rw [is_sorted, Bool.and_eq_true, ih]
      unfold List.Sorted
      rw [← List.chain'_iff_pairwise, ← List.chain'_iff_pairwise, List.chain'_cons]
      simp

theorem is_sorted_greater_iff (l : List Int) :
    is_sorted (fun a b => decide (b < a)) l = true ↔ l.Sorted (fun a b => b ≤ a) := by
  induction l with
  | nil => simp [is_sorted]
  | cons a rest ih =>
    cases rest with
    | nil => simp [is_sorted]
    | cons b rest =>
      rw [is_sorted, Bool.and_eq_true, ih]
      unfold List.Sorted
      rw [← List.chain'_iff_pairwise, ← List.chain'_iff_pairwise, List.chain'_cons]
      simp

theorem identity_permutation_sorted (n : Nat) :
    (identity_permutation n).Sorted (fun a b => a ≤ b) := by
  unfold identity_permutation List.Sorted
  rw [List.pairwise_map]
  exact (List.pairwise_lt_range n).imp (fun h => by exact_mod_cast Nat.le_of_lt h)

theorem identity_permutation_reverse_sorted (n : Nat) :
    (identity_permutation n).reverse.Sorted (fun a b => b ≤ a) := by
  unfold List.Sorted
  rw [List.pairwise_reverse]
  exact identity_permutation_sorted n

theorem is_sorted_less_of_perm {p : List Int} {n : Nat} (hperm : p.Perm (identity_permutation n)) :
    is_sorted (fun a b => decide (a < b)) p = true ↔ p = identity_permutation n := by
  rw [is_sorted_less_iff]
  constructor
  · intro h
    exact List.eq_of_perm_of_sorted hperm h (identity_permutation_sorted n)
  · intro h
    rw [h]
    exact identity_permutation_sorted n

theorem is_sorted_greater_of_perm {p : List Int} {n : Nat}
    (hperm : p.Perm (identity_permutation n)) :
    is_sorted (fun a b => decide (b < a)) p = true ↔ p = (identity_permutation n).reverse := by
  rw [is_sorted_greater_iff]
  constructor
  · intro h
    haveI : IsAntisymm Int (fun a b => b ≤ a) := ⟨fun a b h1 h2 => le_antisymm h2 h1⟩
    exact List.eq_of_perm_of_sorted (hperm.trans (List.reverse_perm _).symm) h
      (identity_permutation_reverse_sorted n)
  · intro h
    rw [h]
    exact identity_permutation_reverse_sorted n

theorem identity_permutation_valid {p : List Int} {n : Nat} (hn : n < 2 ^ 64)
    (hperm : p.Perm (identity_permutation n)) :
    p.length = n ∧ p.Nodup ∧ ∀ q ∈ p, XTENSOR_MU q < n := by
  refine ⟨?_, ?_, ?_⟩
  · rw [hperm.length_eq]
    simp [identity_permutation]
  · rw [hperm.nodup_iff]
    unfold identity_permutation
    exact (List.nodup_range n).map (fun a b h => by exact_mod_cast h)
  · intro q hq
    have hq2 := hperm.subset hq
    simp only [identity_permutation, List.mem_map, List.mem_range] at hq2
    obtain ⟨i, hi, rfl⟩ := hq2
    have := XTENSOR_MU_eq_of_nonneg (v := (i : Int)) (by omega) (by omega)
    omega

theorem identity_permutation_ne_reverse {n : Nat} (hn : 2 ≤ n) :
    identity_permutation n ≠ (identity_permutation n).reverse := by
  intro h
  have h0 : (identity_permutation n)[0]? = (identity_permutation n).reverse[0]? := by rw [← h]
  have hl : (identity_permutation n).length = n := by simp [identity_permutation]
  rw [List.getElem?_reverse (by omega)] at h0
  simp only [identity_permutation, List.getElem?_map, List.length_map, List.length_range] at h0
  rw [List.getElem?_range (by omega), List.getElem?_range (by omega)] at h0
  simp at h0
  omega


/-! ## The claims -/

/-- C1 (address equivalence of the view builder).  Let `v` be the view that
`strided_view` builds from the descriptor of a source `e` (a shape of fewer than
`2 ^ 64` axes, as many strides, any base offset) and an accepted slice list whose
`Index` and `Range` slices lie inside the axes they address.  For every in-range
multi-index `i` of `v`, the flat index `new_offset + sum_k i_k * new_strides[k]`
that `operator()` computes in `std::size_t` is the flat index
`base_offset + sum_a t(i)_a * source_strides[a]` of the source at the translated
multi-index `t(i)`, which is in range for the source; so both name the same
element. -/
theorem address_equivalence {α : Type}
    (do_strides_match : List Nat → List Nat → layout_type → Bool)
    (e v : xstrided_view α) (slices : List slice_variant) (i : List Nat)
    (hd : e.m_shape.length < 2 ^ 64) (hs : e.m_strides.length = e.m_shape.length)
    (h : strided_view do_strides_match e slices = .ok v)
    (hin : slices_inside e.m_shape (ellipsis_count e.m_shape slices) slices 0 = true)
    (hi : in_range i v.m_shape) :
    v.flat_index i = e.flat_index (index_translation e.m_shape slices i) ∧
    in_range (index_translation e.m_shape slices i) e.m_shape ∧
    v.operator_call i = e.operator_call (index_translation e.m_shape slices i) := by
  obtain ⟨p1, p2, p3⟩ := strided_view_flat_index hd hs h hin i hi
  exact ⟨p2, p1, p3⟩

/-- Witness of C1: the view `[range(1, _), newaxis, index(2), range(_, _, -1)]` of
a source of shape `[2, 3, 4]` with base offset `5`, at the multi-index
`(0, 0, 3)`, which is translated to `(1, 2, 0)`; both flat indices are `25`. -/
theorem address_equivalence_witness :
    (array_2x3x4_from_5.m_shape.length < 2 ^ 64 ∧
      array_2x3x4_from_5.m_strides.length = array_2x3x4_from_5.m_shape.length ∧
      strided_view no_strides_match array_2x3x4_from_5
          [.range (some 1) none none, .newaxis, .index 2, .range none none (some (-1))]
        = .ok (xstrided_view.ctor array_2x3x4_from_5 [1, 1, 4] [12, 0, 2 ^ 64 - 1] 28
            layout_type.dynamic) ∧
      slices_inside array_2x3x4_from_5.m_shape
          (ellipsis_count array_2x3x4_from_5.m_shape
            [.range (some 1) none none, .newaxis, .index 2, .range none none (some (-1))])
          [.range (some 1) none none, .newaxis, .index 2, .range none none (some (-1))] 0
        = true ∧
      in_range [0, 0, 3] [1, 1, 4]) ∧
    ((xstrided_view.ctor array_2x3x4_from_5 [1, 1, 4] [12, 0, 2 ^ 64 - 1] 28
          layout_type.dynamic).flat_index [0, 0, 3]
        = array_2x3x4_from_5.flat_index
            (index_translation array_2x3x4_from_5.m_shape
              [.range (some 1) none none, .newaxis, .index 2, .range none none (some (-1))]
              [0, 0, 3]) ∧
      in_range
        (index_translation array_2x3x4_from_5.m_shape
          [.range (some 1) none none, .newaxis, .index 2, .range none none (some (-1))]
          [0, 0, 3])
        array_2x3x4_from_5.m_shape ∧
      (xstrided_view.ctor array_2x3x4_from_5 [1, 1, 4] [12, 0, 2 ^ 64 - 1] 28
          layout_type.dynamic).operator_call [0, 0, 3]
        = array_2x3x4_from_5.operator_call
            (index_translation array_2x3x4_from_5.m_shape
              [.range (some 1) none none, .newaxis, .index 2, .range none none (some (-1))]
              [0, 0, 3])) ∧
    index_translation array_2x3x4_from_5.m_shape
        [.range (some 1) none none, .newaxis, .index 2, .range none none (some (-1))]
        [0, 0, 3] = [1, 2, 0] ∧
    array_2x3x4_from_5.flat_index [1, 2, 0] = 25 :=
  have hi : in_range [0, 0, 3] [1, 1, 4] :=
    List.Forall₂.cons (by decide) (List.Forall₂.cons (by decide)
      (List.Forall₂.cons (by decide) List.Forall₂.nil))
  ⟨⟨by decide, rfl, rfl, rfl, hi⟩,
    address_equivalence no_strides_match array_2x3x4_from_5
      (xstrided_view.ctor array_2x3x4_from_5 [1, 1, 4] [12, 0, 2 ^ 64 - 1] 28 layout_type.dynamic)
      [.range (some 1) none none, .newaxis, .index 2, .range none none (some (-1))]
      [0, 0, 3] (by decide) rfl rfl rfl hi,
    rfl, rfl⟩

/-- C2 (the range branch).  When `get_strided_view_args` accepts a slice list
with a `Range` slice, the range addresses an existing source axis `axis`, it
reduces against the length of that axis to `(start, length, step)`, and the
result is the one for the same list with `All` in the place of the range, except
that the one axis emitted at that place has shape `length` instead of the source
length and stride `step * source_strides[axis]` instead of the source stride, and
that `start * source_strides[axis]` is added to the offset (all in
`std::size_t`). -/
theorem range_slice_effect
    (do_strides_match : List Nat → List Nat → layout_type → Bool) (shape strides : List Nat)
    (base : Nat) (layout : layout_type) (pre post : List slice_variant)
    (start stop step : Option Int) (sh sd : List Nat) (off : Nat) (lay : layout_type)
    (hd : shape.length < 2 ^ 64) (hs : strides.length = shape.length) (hb : base < 2 ^ 64)
    (h : get_strided_view_args do_strides_match shape strides base layout
          (pre ++ .range start stop step :: post) = .ok (sh, sd, off, lay)) :
    let n_add_all := ellipsis_count shape (pre ++ .range start stop step :: post)
    let axis := axis_after n_add_all pre 0
    let p := (view_shape shape n_add_all pre 0).length
    let info := range_info start stop step (shape.getD axis 0)
    axis < shape.length ∧
    xrange_adaptor_get start stop step (shape.getD axis 0) = .ok info ∧
    ∃ sh' sd' off' lay',
      get_strided_view_args do_strides_match shape strides base layout (pre ++ .all :: post)
        = .ok (sh', sd', off', lay') ∧
      sh'[p]? = some (shape.getD axis 0) ∧ sd'[p]? = some (strides.getD axis 0) ∧
      sh = sh'.set p (XTENSOR_MU info.2.1) ∧
      sd = sd'.set p (size_mul (XTENSOR_MU info.2.2) (strides.getD axis 0)) ∧
      off = size_add off' (size_mul (XTENSOR_MU info.1) (strides.getD axis 0)) :=
  range_branch_vs_all do_strides_match shape strides base layout pre post start stop
    step sh sd off lay hd hs hb h

/-- Witness of C2, the example of the documentation: for the row-major array
`{{1, 2, 3}, {4, 5, 6}}` the slice list `[range(0, 1), range(0, 3, 2)]` gives the
shape `[1, 2]` and the values `{{1, 3}}`; its second range addresses the axis `1`
and reduces to `(0, 2, 2)`. -/
theorem range_slice_effect_witness :
    (([2, 3] : List Nat).length < 2 ^ 64 ∧ ([3, 1] : List Nat).length = ([2, 3] : List Nat).length ∧
      (0 : Nat) < 2 ^ 64 ∧
      get_strided_view_args no_strides_match [2, 3] [3, 1] 0 layout_type.row_major
          ([.range (some 0) (some 1) none] ++ .range (some 0) (some 3) (some 2) :: [])
        = .ok ([1, 2], [3, 2], 0, layout_type.dynamic)) ∧
    (let n_add_all := ellipsis_count [2, 3]
        ([.range (some 0) (some 1) none] ++ .range (some 0) (some 3) (some 2) :: [])
      let axis := axis_after n_add_all [.range (some 0) (some 1) none] 0
      let p := (view_shape [2, 3] n_add_all [.range (some 0) (some 1) none] 0).length
      let info := range_info (some 0) (some 3) (some 2) (([2, 3] : List Nat).getD axis 0)
      axis < ([2, 3] : List Nat).length ∧
      xrange_adaptor_get (some 0) (some 3) (some 2) (([2, 3] : List Nat).getD axis 0)
        = .ok info ∧
      ∃ sh' sd' off' lay',
        get_strided_view_args no_strides_match [2, 3] [3, 1] 0 layout_type.row_major
            ([.range (some 0) (some 1) none] ++ .all :: [])
          = .ok (sh', sd', off', lay') ∧
        sh'[p]? = some (([2, 3] : List Nat).getD axis 0) ∧
        sd'[p]? = some (([3, 1] : List Nat).getD axis 0) ∧
        [1, 2] = sh'.set p (XTENSOR_MU info.2.1) ∧
        [3, 2] = sd'.set p (size_mul (XTENSOR_MU info.2.2) (([3, 1] : List Nat).getD axis 0)) ∧
        0 = size_add off' (size_mul (XTENSOR_MU info.1) (([3, 1] : List Nat).getD axis 0))) ∧
    range_info (some 0) (some 3) (some 2) 3 = (0, 2, 2) ∧
    (∃ v, strided_view no_strides_match array_2x3
          [.range (some 0) (some 1) none, .range (some 0) (some 3) (some 2)] = .ok v ∧
        v.m_shape = [1, 2] ∧ v.operator_call [0, 0] = some 1 ∧
        v.operator_call [0, 1] = some 3) :=
  ⟨⟨by decide, rfl, by decide, rfl⟩,
    range_slice_effect no_strides_match [2, 3] [3, 1] 0 layout_type.row_major
      [.range (some 0) (some 1) none] [] (some 0) (some 3) (some 2) [1, 2] [3, 2] 0
      layout_type.dynamic (by decide) rfl (by decide) rfl,
    rfl, ⟨_, rfl, rfl, rfl, rfl⟩⟩

/-- C3 (the ellipsis branch).  When `get_strided_view_args` accepts a slice list
with an `Ellipsis`, the ellipsis stands for
`n = source_dim - (|slices| - 1 - n_newaxis)` source axes: these axes exist at
the position the ellipsis has reached, their shape and strides are copied in
place to the result, and the result (shape, strides, offset, layout) is the one
for the list in which the ellipsis is replaced by `n` slices `All`, so that the
slices after it address the source axes that follow. -/
theorem ellipsis_expansion
    (do_strides_match : List Nat → List Nat → layout_type → Bool) (shape strides : List Nat)
    (base : Nat) (layout : layout_type) (pre post : List slice_variant)
    (sh sd : List Nat) (off : Nat) (lay : layout_type)
    (hd : shape.length < 2 ^ 64) (hs : strides.length = shape.length) (hb : base < 2 ^ 64)
    (h : get_strided_view_args do_strides_match shape strides base layout
          (pre ++ .ellipsis :: post) = .ok (sh, sd, off, lay)) :
    let n := shape.length
      - ((pre ++ slice_variant.ellipsis :: post).length - 1
          - n_newaxis_of (pre ++ slice_variant.ellipsis :: post))
    let axis := n_addressing_of pre
    let p := n_newaxis_of pre + n_addressing_of pre - n_scalar_of pre
    axis + n ≤ shape.length ∧
    (sh.drop p).take n = (shape.drop axis).take n ∧
    (sd.drop p).take n = (strides.drop axis).take n ∧
    get_strided_view_args do_strides_match shape strides base layout
        (pre ++ List.replicate n slice_variant.all ++ post) = .ok (sh, sd, off, lay) :=
  ellipsis_branch_vs_all do_strides_match shape strides base layout pre post sh sd off lay
    hd hs hb h

/-- Witness of C3, the example of the spec: on a source of shape `[2, 3, 4]` the
list `[newaxis, ellipsis, index(2)]` yields the shape `[1, 2, 3]`; the ellipsis
stands for the two source axes `0` and `1`, and the element `(0, i, j)` of the
view is the element `(i, j, 2)` of the source. -/
theorem ellipsis_expansion_witness :
    (([2, 3, 4] : List Nat).length < 2 ^ 64 ∧
      ([12, 4, 1] : List Nat).length = ([2, 3, 4] : List Nat).length ∧ (0 : Nat) < 2 ^ 64 ∧
      get_strided_view_args no_strides_match [2, 3, 4] [12, 4, 1] 0 layout_type.row_major
          ([.newaxis] ++ .ellipsis :: [.index 2])
        = .ok ([1, 2, 3], [0, 12, 4], 2, layout_type.dynamic)) ∧
    (let n := ([2, 3, 4] : List Nat).length
        - (([slice_variant.newaxis] ++ slice_variant.ellipsis :: [.index 2]).length - 1
            - n_newaxis_of ([slice_variant.newaxis] ++ slice_variant.ellipsis :: [.index 2]))
      let axis := n_addressing_of [slice_variant.newaxis]
      let p := n_newaxis_of [slice_variant.newaxis] + n_addressing_of [slice_variant.newaxis]
        - n_scalar_of [slice_variant.newaxis]
      axis + n ≤ ([2, 3, 4] : List Nat).length ∧
      (([1, 2, 3] : List Nat).drop p).take n = (([2, 3, 4] : List Nat).drop axis).take n ∧
      (([0, 12, 4] : List Nat).drop p).take n = (([12, 4, 1] : List Nat).drop axis).take n ∧
      get_strided_view_args no_strides_match [2, 3, 4] [12, 4, 1] 0 layout_type.row_major
          ([.newaxis] ++ List.replicate n slice_variant.all ++ [.index 2])
        = .ok ([1, 2, 3], [0, 12, 4], 2, layout_type.dynamic)) ∧
    (∃ v, strided_view no_strides_match array_2x3x4 [.newaxis, .ellipsis, .index 2] = .ok v ∧
        v.m_shape = [1, 2, 3] ∧
        ∀ i j, i < 2 → j < 3 →
          v.flat_index [0, i, j] = array_2x3x4.flat_index [i, j, 2] ∧
          v.operator_call [0, i, j] = array_2x3x4.operator_call [i, j, 2]) :=
  ⟨⟨by decide, rfl, by decide, rfl⟩,
    ellipsis_expansion no_strides_match [2, 3, 4] [12, 4, 1] 0 layout_type.row_major
      [.newaxis] [.index 2] [1, 2, 3] [0, 12, 4] 2 layout_type.dynamic (by decide) rfl
      (by decide) rfl,
    ⟨_, rfl, rfl, fun i j hi hj => by
      interval_cases i <;> interval_cases j <;> exact ⟨rfl, rfl⟩⟩⟩

/-- C4 (slice composition).  Let `v1 = strided_view(e, s1)` and
`v2 = strided_view(v1, s2)`, the `Index` and `Range` slices of `s1` lying inside
the axes of `e` and those of `s2` inside the axes of `v1`.  At every in-range
multi-index `i`, `v2` names the element of `e` at `t1(t2(i))`, the index
translation of `s2` followed by that of `s1`; hence every view
`strided_view(e, s12)` whose index translation at `i` is that composition names
the same element as `v2` at `i`. -/
theorem slice_composition {α : Type}
    (do_strides_match : List Nat → List Nat → layout_type → Bool)
    (e v1 v2 : xstrided_view α) (s1 s2 : List slice_variant) (i : List Nat)
    (hd : e.m_shape.length < 2 ^ 64) (hs : e.m_strides.length = e.m_shape.length)
    (h1 : strided_view do_strides_match e s1 = .ok v1)
    (h2 : strided_view do_strides_match v1 s2 = .ok v2)
    (hin1 : slices_inside e.m_shape (ellipsis_count e.m_shape s1) s1 0 = true)
    (hin2 : slices_inside v1.m_shape (ellipsis_count v1.m_shape s2) s2 0 = true)
    (hi : in_range i v2.m_shape) :
    in_range (index_translation e.m_shape s1 (index_translation v1.m_shape s2 i)) e.m_shape ∧
    v2.flat_index i
      = e.flat_index (index_translation e.m_shape s1 (index_translation v1.m_shape s2 i)) ∧
    v2.operator_call i
      = e.operator_call (index_translation e.m_shape s1 (index_translation v1.m_shape s2 i)) ∧
    ∀ (s12 : List slice_variant) (v12 : xstrided_view α),
      strided_view do_strides_match e s12 = .ok v12 →
      slices_inside e.m_shape (ellipsis_count e.m_shape s12) s12 0 = true →
      in_range i v12.m_shape →
      index_translation e.m_shape s12 i
        = index_translation e.m_shape s1 (index_translation v1.m_shape s2 i) →
      v12.flat_index i = v2.flat_index i ∧ v12.operator_call i = v2.operator_call i := by
  obtain ⟨w1, w2⟩ := strided_view_wf hd hs h1
  obtain ⟨p1, p2, p3⟩ := strided_view_flat_index w1 w2 h2 hin2 i hi
  obtain ⟨q1, q2, q3⟩ := strided_view_flat_index hd hs h1 hin1 _ p1
  refine ⟨q1, p2.trans q2, p3.trans q3, ?_⟩
  intro s12 v12 h12 hin12 hi12 ht
  obtain ⟨r1, r2, r3⟩ := strided_view_flat_index hd hs h12 hin12 i hi12
  rw [ht] at r2 r3
  exact ⟨r2.trans (p2.trans q2).symm, r3.trans (p3.trans q3).symm⟩

/-- Witness of C4: `e` of shape `[2, 3, 4]`, `s1 = [index(1)]` and
`s2 = [range(1, 3), index(2)]`, at the multi-index `(1)`, which the two
translations send to `(2, 2)` and then to `(1, 2, 2)`; the single list
`[index(1), range(1, 3), index(2)]` has the same translation. -/
theorem slice_composition_witness :
    (array_2x3x4.m_shape.length < 2 ^ 64 ∧
      array_2x3x4.m_strides.length = array_2x3x4.m_shape.length ∧
      strided_view no_strides_match array_2x3x4 [.index 1]
        = .ok (xstrided_view.ctor array_2x3x4 [3, 4] [4, 1] 12 layout_type.dynamic) ∧
      strided_view no_strides_match
          (xstrided_view.ctor array_2x3x4 [3, 4] [4, 1] 12 layout_type.dynamic)
          [.range (some 1) (some 3) none, .index 2]
        = .ok (xstrided_view.ctor array_2x3x4 [2] [4] 18 layout_type.dynamic) ∧
      slices_inside array_2x3x4.m_shape (ellipsis_count array_2x3x4.m_shape [.index 1])
        [.index 1] 0 = true ∧
      slices_inside [3, 4] (ellipsis_count [3, 4] [.range (some 1) (some 3) none, .index 2])
        [.range (some 1) (some 3) none, .index 2] 0 = true ∧
      in_range [1] [2]) ∧
    (in_range
        (index_translation array_2x3x4.m_shape [.index 1]
          (index_translation [3, 4] [.range (some 1) (some 3) none, .index 2] [1]))
        array_2x3x4.m_shape ∧
      (xstrided_view.ctor array_2x3x4 [2] [4] 18 layout_type.dynamic).flat_index [1]
        = array_2x3x4.flat_index
            (index_translation array_2x3x4.m_shape [.index 1]
              (index_translation [3, 4] [.range (some 1) (some 3) none, .index 2] [1])) ∧
      (xstrided_view.ctor array_2x3x4 [2] [4] 18 layout_type.dynamic).operator_call [1]
        = array_2x3x4.operator_call
            (index_translation array_2x3x4.m_shape [.index 1]
              (index_translation [3, 4] [.range (some 1) (some 3) none, .index 2] [1])) ∧
      ∀ (s12 : List slice_variant) (v12 : xstrided_view Nat),
        strided_view no_strides_match array_2x3x4 s12 = .ok v12 →
        slices_inside array_2x3x4.m_shape (ellipsis_count array_2x3x4.m_shape s12) s12 0
          = true →
        in_range [1] v12.m_shape →
        index_translation array_2x3x4.m_shape s12 [1]
          = index_translation array_2x3x4.m_shape [.index 1]
              (index_translation [3, 4] [.range (some 1) (some 3) none, .index 2] [1]) →
        v12.flat_index [1]
            = (xstrided_view.ctor array_2x3x4 [2] [4] 18 layout_type.dynamic).flat_index [1] ∧
          v12.operator_call [1]
            = (xstrided_view.ctor array_2x3x4 [2] [4] 18
                layout_type.dynamic).operator_call [1]) ∧
    index_translation array_2x3x4.m_shape [.index 1]
        (index_translation [3, 4] [.range (some 1) (some 3) none, .index 2] [1]) = [1, 2, 2] ∧
    index_translation array_2x3x4.m_shape [.index 1, .range (some 1) (some 3) none, .index 2]
        [1] = [1, 2, 2] ∧
    (xstrided_view.ctor array_2x3x4 [2] [4] 18 layout_type.dynamic).operator_call [1]
      = some 22 :=
  have hi : in_range [1] [2] := List.Forall₂.cons (by decide) List.Forall₂.nil
  ⟨⟨by decide, rfl, rfl, rfl, rfl, rfl, hi⟩,
    slice_composition no_strides_match array_2x3x4
      (xstrided_view.ctor array_2x3x4 [3, 4] [4, 1] 12 layout_type.dynamic)
      (xstrided_view.ctor array_2x3x4 [2] [4] 18 layout_type.dynamic)
      [.index 1] [.range (some 1) (some 3) none, .index 2] [1]
      (by decide) rfl rfl rfl rfl rfl hi,
    rfl, rfl, rfl⟩

/-- C5 (the descriptor of `transpose(e)`).  For every source that exposes as
many strides as it has axes, `transpose(e)` returns a view whose shape is the
reverse of `e.shape()`, whose strides are the reverse of `e.strides()`, and
whose layout is `column_major` when that of `e` is `row_major`, `row_major` when
it is `column_major`, and the layout of `e` otherwise. -/
theorem transpose_descriptor {α : Type} (e : xstrided_view α)
    (hs : e.m_strides.length = e.m_shape.length) :
    ∃ v, transpose e = .ok v ∧
      v.m_shape = e.m_shape.reverse ∧
      v.m_strides = e.m_strides.reverse ∧
      v.m_layout = (match e.m_layout with
        | layout_type.row_major => layout_type.column_major
        | layout_type.column_major => layout_type.row_major
        | l => l) := by
  refine ⟨xstrided_view.ctor e e.m_shape.reverse e.m_strides.reverse 0
    (transpose_layout_noexcept e.m_layout), ?_, rfl, rfl, ?_⟩
  · unfold transpose compute_transposed_strides copy_reversed resize_container
    simp only [List.length_replicate, le_refl, if_true, hs, ok_bind, List.drop_replicate,
      Nat.sub_self, List.replicate_zero, List.append_nil]
  · unfold xstrided_view.ctor transpose_layout_noexcept
    cases e.m_layout <;> rfl

/-- Witness of C5: the transpose of the row-major array of shape `[2, 3]` has the
shape `[3, 2]`, the strides `[1, 3]` and the layout `column_major`. -/
theorem transpose_descriptor_witness :
    array_2x3.m_strides.length = array_2x3.m_shape.length ∧
    (∃ v, transpose array_2x3 = .ok v ∧
      v.m_shape = array_2x3.m_shape.reverse ∧
      v.m_strides = array_2x3.m_strides.reverse ∧
      v.m_layout = (match array_2x3.m_layout with
        | layout_type.row_major => layout_type.column_major
        | layout_type.column_major => layout_type.row_major
        | l => l)) ∧
    transpose array_2x3
      = .ok (xstrided_view.ctor array_2x3 [3, 2] [1, 3] 0 layout_type.column_major) :=
  ⟨rfl, transpose_descriptor array_2x3 rfl, rfl⟩

/-- C6 (code at a failing input).  The view `e = strided_view(a, {range(1, 3)})`
of a container `a` of shape `[3, 4]` has data offset `4`.  `transpose(e)` is
built with offset `0`: its element `(1, 0)` is the element of `a` at the flat
position `1`, whereas the element `(0, 1)` of `e` is at the flat position `5`. -/
theorem transpose_of_offset_view :
    strided_view no_strides_match array_3x4 [.range (some 1) (some 3) none]
      = .ok rows_1_2_of_3x4 ∧
    ∃ t, transpose rows_1_2_of_3x4 = .ok t ∧
      t.m_shape = [4, 2] ∧ t.m_strides = [1, 4] ∧ t.m_offset = 0 ∧
      in_range [1, 0] t.m_shape ∧
      t.flat_index [1, 0] = 1 ∧ rows_1_2_of_3x4.flat_index [0, 1] = 5 ∧
      t.operator_call [1, 0] = some 1 ∧ rows_1_2_of_3x4.operator_call [0, 1] = some 5 :=
  ⟨rfl, _, rfl, rfl, rfl, rfl,
    List.Forall₂.cons (by decide) (List.Forall₂.cons (by decide) List.Forall₂.nil),
    rfl, rfl, rfl, rfl⟩

/-- C7 (code at a failing input).  For the view `e` of data offset `4` that
`strided_view(a, {range(1, 3)})` builds, `transpose(transpose(e))` has the shape
of `e` but the offset `0`: its element `(0, 1)` is at the flat position `1`,
whereas the element `(0, 1)` of `e` is at the flat position `5`. -/
theorem transpose_twice_of_offset_view :
    ∃ t tt, transpose rows_1_2_of_3x4 = .ok t ∧ transpose t = .ok tt ∧
      tt.m_shape = rows_1_2_of_3x4.m_shape ∧ tt.m_strides = rows_1_2_of_3x4.m_strides ∧
      tt.m_offset = 0 ∧ in_range [0, 1] tt.m_shape ∧
      tt.flat_index [0, 1] = 1 ∧ rows_1_2_of_3x4.flat_index [0, 1] = 5 ∧
      tt.operator_call [0, 1] = some 1 ∧ rows_1_2_of_3x4.operator_call [0, 1] = some 5 :=
  ⟨_, _, rfl, rfl, rfl, rfl, rfl,
    List.Forall₂.cons (by decide) (List.Forall₂.cons (by decide) List.Forall₂.nil),
    rfl, rfl, rfl, rfl⟩

/-- C8 (code at a failing input).  For the view `e` of data offset `4` and the
permutation `p = (1, 0)`, `transpose(e, p)` has `shape[i] = e.shape[p[i]]` and
`strides[i] = e.strides[p[i]]`, but it is built with offset `0`: its element
`(1, 0)` is at the flat position `1`, whereas the element `j = (0, 1)` of `e`
(`j[p[k]] = i_k`) is at the flat position `5`. -/
theorem transpose_permutation_of_offset_view :
    ∃ t, transpose_permutation rows_1_2_of_3x4 [1, 0] check_policy.none = .ok t ∧
      t.m_shape = [4, 2] ∧ t.m_strides = [1, 4] ∧ t.m_offset = 0 ∧
      in_range [1, 0] t.m_shape ∧
      t.flat_index [1, 0] = 1 ∧ rows_1_2_of_3x4.flat_index [0, 1] = 5 ∧
      t.operator_call [1, 0] = some 1 ∧ rows_1_2_of_3x4.operator_call [0, 1] = some 5 :=
  ⟨_, rfl, rfl, rfl, rfl,
    List.Forall₂.cons (by decide) (List.Forall₂.cons (by decide) List.Forall₂.nil),
    rfl, rfl, rfl, rfl⟩

/-- C9 (code at a failing input).  For the view `e` of data offset `4` and the
permutation `p = (1, 0)`, which is its own inverse,
`transpose(transpose(e, p), inverse(p))` has the shape of `e` but the offset `0`:
its element `(0, 1)` is at the flat position `1`, whereas the element `(0, 1)` of
`e` is at the flat position `5`. -/
theorem transpose_permutation_twice_of_offset_view :
    ∃ t tt, transpose_permutation rows_1_2_of_3x4 [1, 0] check_policy.none = .ok t ∧
      transpose_permutation t [1, 0] check_policy.none = .ok tt ∧
      tt.m_shape = rows_1_2_of_3x4.m_shape ∧ tt.m_strides = rows_1_2_of_3x4.m_strides ∧
      tt.m_offset = 0 ∧ in_range [0, 1] tt.m_shape ∧
      tt.flat_index [0, 1] = 1 ∧ rows_1_2_of_3x4.flat_index [0, 1] = 5 ∧
      tt.operator_call [0, 1] = some 1 ∧ rows_1_2_of_3x4.operator_call [0, 1] = some 5 :=
  ⟨_, _, rfl, rfl, rfl, rfl, rfl,
    List.Forall₂.cons (by decide) (List.Forall₂.cons (by decide) List.Forall₂.nil),
    rfl, rfl, rfl, rfl⟩

/-- C10 (errors of the checked transposition).  For a source of fewer than
`2 ^ 63` axes that exposes as many strides, and a permutation whose entries are
representable in `std::ptrdiff_t`, `transpose(e, perm, check_policy::full)` fails
with one of the three transpose errors if and only if `|perm| != e.dimension()`,
or `perm` contains the same axis twice, or `perm` contains an entry that is not
in `[0, e.dimension())`; in every other case, and only then, it returns a view.
The function returns either an error or a view, so that no view is built when it
fails. -/
theorem transpose_full_fails_iff {α : Type} (e : xstrided_view α) (permutation : List Int)
    (hs : e.m_strides.length = e.m_shape.length) (hd : e.dimension < 2 ^ 63)
    (hp : ∀ p ∈ permutation, -(2 ^ 63 : Int) ≤ p ∧ p < 2 ^ 63) :
    ((∃ err, transpose_permutation e permutation check_policy.full = .error err
          ∧ is_transpose_error err = true)
      ↔ (permutation.length ≠ e.dimension ∨ ¬ permutation.Nodup
          ∨ ∃ p ∈ permutation, ¬ (0 ≤ p ∧ p < (e.dimension : Int)))) ∧
    ((∃ v, transpose_permutation e permutation check_policy.full = .ok v)
      ↔ ¬ (permutation.length ≠ e.dimension ∨ ¬ permutation.Nodup
          ∨ ∃ p ∈ permutation, ¬ (0 ≤ p ∧ p < (e.dimension : Int)))) := by
  obtain ⟨c1, c2, c3, c4⟩ := transpose_impl_full_cases e permutation hs
  have hrun : transpose_permutation e permutation check_policy.full
      = transpose_impl_full e permutation := rfl
  have hvalid : (∀ p ∈ permutation, XTENSOR_MU p < e.dimension)
      ↔ ¬ ∃ p ∈ permutation, ¬ (0 ≤ p ∧ p < (e.dimension : Int)) := by
    constructor
    · rintro h ⟨p, hm, hn⟩
      exact hn ((XTENSOR_MU_lt_iff hd (hp p hm)).mp (h p hm))
    · intro h p hm
      by_contra hc
      exact h ⟨p, hm, fun hh => hc ((XTENSOR_MU_lt_iff hd (hp p hm)).mpr hh)⟩
  rw [hrun]
  by_cases hnd : permutation.Nodup
  · by_cases hlen : permutation.length = e.dimension
    · by_cases hv : ∀ p ∈ permutation, XTENSOR_MU p < e.dimension
      · obtain ⟨v, hv'⟩ := c4 hnd hlen hv
        have hno := hvalid.mp hv
        rw [hv']
        constructor
        · constructor
          · rintro ⟨err, he, _⟩; cases he
          · rintro (h | h | h)
            · exact absurd hlen h
            · exact absurd hnd h
            · exact absurd h hno
        · constructor
          · rintro _ (h | h | h)
            · exact absurd hlen h
            · exact absurd hnd h
            · exact absurd h hno
          · intro _; exact ⟨v, rfl⟩
      · have hbad : ∃ p ∈ permutation, ¬ (0 ≤ p ∧ p < (e.dimension : Int)) := by
          by_contra hc
          exact hv (hvalid.mpr hc)
        rw [c3 hnd hlen hv]
        constructor
        · constructor
          · intro _; exact Or.inr (Or.inr hbad)
          · intro _; exact ⟨_, rfl, rfl⟩
        · constructor
          · rintro ⟨v, he⟩; cases he
          · intro h; exact absurd (Or.inr (Or.inr hbad)) h
    · rw [c2 hnd hlen]
      constructor
      · constructor
        · intro _; exact Or.inl hlen
        · intro _; exact ⟨_, rfl, rfl⟩
      · constructor
        · rintro ⟨v, he⟩; cases he
        · intro h; exact absurd (Or.inl hlen) h
  · rw [c1 hnd]
    constructor
    · constructor
      · intro _; exact Or.inr (Or.inl hnd)
      · intro _; exact ⟨_, rfl, rfl⟩
    · constructor
      · rintro ⟨v, he⟩; cases he
      · intro h; exact absurd (Or.inr (Or.inl hnd)) h

/-- Witness of C10: on the array of shape `[2, 3]` the permutation `(1, 0)` gives
a view, `(0, 0)` is rejected for its repeated axis, `(0)` for its size, and
`(0, 2)` and `(1, -1)` for an entry that is not an axis. -/
theorem transpose_full_fails_iff_witness :
    (array_2x3.m_strides.length = array_2x3.m_shape.length ∧ array_2x3.dimension < 2 ^ 63 ∧
      ∀ p ∈ ([1, 0] : List Int), -(2 ^ 63 : Int) ≤ p ∧ p < 2 ^ 63) ∧
    (((∃ err, transpose_permutation array_2x3 [1, 0] check_policy.full = .error err
          ∧ is_transpose_error err = true)
        ↔ (([1, 0] : List Int).length ≠ array_2x3.dimension ∨ ¬ ([1, 0] : List Int).Nodup
            ∨ ∃ p ∈ ([1, 0] : List Int), ¬ (0 ≤ p ∧ p < (array_2x3.dimension : Int)))) ∧
      ((∃ v, transpose_permutation array_2x3 [1, 0] check_policy.full = .ok v)
        ↔ ¬ (([1, 0] : List Int).length ≠ array_2x3.dimension ∨ ¬ ([1, 0] : List Int).Nodup
            ∨ ∃ p ∈ ([1, 0] : List Int), ¬ (0 ≤ p ∧ p < (array_2x3.dimension : Int))))) ∧
    transpose_permutation array_2x3 [1, 0] check_policy.full
      = .ok (xstrided_view.ctor array_2x3 [3, 2] [1, 3] 0 layout_type.column_major) ∧
    transpose_permutation array_2x3 [0, 0] check_policy.full = .error .transpose_twice ∧
    transpose_permutation array_2x3 [0] check_policy.full = .error .transpose_size ∧
    transpose_permutation array_2x3 [0, 2] check_policy.full = .error .transpose_axis ∧
    transpose_permutation array_2x3 [1, -1] check_policy.full = .error .transpose_axis :=
  have hp : ∀ p ∈ ([1, 0] : List Int), -(2 ^ 63 : Int) ≤ p ∧ p < 2 ^ 63 := by
    intro p hm
    simp only [List.mem_cons, List.mem_singleton, List.not_mem_nil, or_false] at hm
    rcases hm with rfl | rfl <;> decide
  ⟨⟨rfl, by decide, hp⟩,
    transpose_full_fails_iff array_2x3 [1, 0] rfl (by decide) hp,
    rfl, rfl, rfl, rfl, rfl⟩

/-! ## Claims on the derived operations -/

/-- C11 (amended).  For every source `e` of static layout `static_layout` and
every layout `L`: when the static layout is `L`, or the run-time layout of `e`
is `row_major` or `column_major`, `ravel<L>(e)` is a 1-D view whose shape is
`[e.size()]`, the product of the lengths of `e` in the size type, and whose
stride is `[1]`, so that its size is that product; in the remaining case (a
static layout other than `L` and a run-time layout that is neither `row_major`
nor `column_major`) `ravel<L>(e)` fails with the transpose error of
`transpose_layout` and builds no view. -/
theorem ravel_descriptor {α : Type} (L static_layout : layout_type) (e : xstrided_view α) :
    ((static_layout = L ∨ e.m_layout = layout_type.row_major
        ∨ e.m_layout = layout_type.column_major) →
      ∃ v, ravel L static_layout e = .ok v ∧ v.m_shape = [e.m_shape.prod % 2 ^ 64] ∧
        v.m_strides = [1] ∧ v.dimension = 1 ∧ v.size = e.m_shape.prod % 2 ^ 64) ∧
    (¬ (static_layout = L ∨ e.m_layout = layout_type.row_major
        ∨ e.m_layout = layout_type.column_major) →
      ravel L static_layout e = .error xerror.transpose_layout) := by
  obtain ⟨c1, c2, c3⟩ := ravel_cases L static_layout e
  constructor
  · intro h
    by_cases hs : static_layout = L
    · exact ⟨_, c1 hs, congrArg (fun x => [x]) (compute_size_eq _), rfl, rfl,
        build_ravel_view_size e⟩
    · have hl := h.resolve_left hs
      exact ⟨_, c2 hs hl, congrArg (fun x => [x]) (compute_size_eq _), rfl, rfl,
        build_ravel_view_size e⟩
  · intro h
    exact c3 (fun hs => h (Or.inl hs)) (fun hl => h (Or.inr hl))

/-- Witness of C11 (amended): the column-major ravel of the row-major
container `array_2x3`, and the two row-major ravels of the view
`rows_1_2_of_3x4`, whose layout is `dynamic`. -/
theorem ravel_descriptor_witness :
    (∃ v, ravel layout_type.column_major layout_type.row_major array_2x3 = .ok v ∧
      v.m_shape = [6] ∧ v.m_strides = [1] ∧ v.dimension = 1 ∧ v.size = 6) ∧
    ravel layout_type.row_major layout_type.dynamic rows_1_2_of_3x4
      = .error xerror.transpose_layout :=
  ⟨(ravel_descriptor layout_type.column_major layout_type.row_major array_2x3).1
      (Or.inr (Or.inl rfl)),
    (ravel_descriptor layout_type.row_major layout_type.dynamic rows_1_2_of_3x4).2
      (by decide)⟩

/-- C11 (counterexample).  The view `rows_1_2_of_3x4` has the static layout
`dynamic` and the run-time layout `dynamic`: `ravel<row_major>` of it is no 1-D
view, it fails in `transpose_layout`. -/
theorem ravel_of_dynamic_layout_fails :
    ravel layout_type.row_major layout_type.dynamic rows_1_2_of_3x4
      = .error xerror.transpose_layout ∧
    ¬ ∃ v, ravel layout_type.row_major layout_type.dynamic rows_1_2_of_3x4 = .ok v ∧
      v.m_shape = [8] ∧ v.m_strides = [1] :=
  ⟨rfl, by rintro ⟨v, h, _⟩; cases h⟩

/-- C12 (amended).  For every source `e` that is a container of static layout
`row_major` or `column_major` (its run-time layout is the static one, its
strides are the canonical strides of its shape for that layout, its data offset
is `0`, and the product of its lengths fits the size type) and every `L` in
`{row_major, column_major}`, `ravel<L>(e)` succeeds and its element `i`, for
`i < prod(e.shape)`, is the element of `e` at the multi-index obtained by
unravelling `i` over `e.shape` in `L` order, which is in range; when the static
layout differs from `L`, the flat storage of the view is the adaptor built with
the strides computed for `L` and with the layout `L`. -/
theorem ravel_elements {α : Type} (L static_layout : layout_type) (e : xstrided_view α)
    (i : Nat)
    (hS : static_layout = layout_type.row_major ∨ static_layout = layout_type.column_major)
    (hL : L = layout_type.row_major ∨ L = layout_type.column_major)
    (hlay : e.m_layout = static_layout)
    (hstr : e.m_strides = compute_strides e.m_shape static_layout)
    (hoff : e.m_offset = 0)
    (hp : e.m_shape.prod < 2 ^ 64) (hi : i < e.m_shape.prod) :
    ∃ v, ravel L static_layout e = .ok v ∧
      v.operator_call [i] = e.element (unravel_noexcept i (compute_strides e.m_shape L) L) ∧
      in_range (unravel_noexcept i (compute_strides e.m_shape L) L) e.m_shape ∧
      (static_layout ≠ L →
        v.m_storage
          = (flat_expression_adaptor.ctor e (compute_strides e.m_shape L) L).get) := by
  obtain ⟨c1, c2, _⟩ := ravel_cases L static_layout e
  obtain ⟨_, r2⟩ := unravel_noexcept_spec e.m_shape L i hp hi
  by_cases hs : static_layout = L
  · subst hs
    refine ⟨_, c1 rfl, ?_, r2, fun h => absurd rfl h⟩
    rw [build_ravel_view_at, (element_unravel e static_layout i hstr hp hi).1]
  · have hl : transpose_layout_noexcept e.m_layout = L := by
      rw [hlay]; exact transpose_layout_noexcept_of_ne hS hL hs
    have h2 := c2 hs (by rw [hlay]; exact hS)
    rw [hl] at h2
    exact ⟨_, h2, build_ravel_view_flatten_at e _ L i hoff (by omega), r2,
      fun _ => rfl⟩

/-- Witness of C12 (amended): element `1` of the column-major ravel of the
row-major container `array_2x3` is its element `(1, 0)`, which is `4`. -/
theorem ravel_elements_witness :
    ∃ v, ravel layout_type.column_major layout_type.row_major array_2x3 = .ok v ∧
      v.operator_call [1] = array_2x3.element [1, 0] ∧
      in_range [1, 0] array_2x3.m_shape ∧
      (layout_type.row_major ≠ layout_type.column_major →
        v.m_storage
          = (flat_expression_adaptor.ctor array_2x3 [1, 2] layout_type.column_major).get) :=
  ravel_elements layout_type.column_major layout_type.row_major array_2x3 1
    (Or.inl rfl) (Or.inr rfl) rfl rfl rfl (by decide) (by decide)

/-- C12 (counterexample).  The view `rows_1_2_of_3x4` has the static layout
`dynamic` and the run-time layout `dynamic`: `ravel<column_major>` of it has no
element, it fails in `transpose_layout`. -/
theorem ravel_column_major_of_dynamic_layout_fails :
    ravel layout_type.column_major layout_type.dynamic rows_1_2_of_3x4
      = .error xerror.transpose_layout ∧
    ∀ i, ¬ ∃ v, ravel layout_type.column_major layout_type.dynamic rows_1_2_of_3x4 = .ok v ∧
      v.operator_call [i]
        = rows_1_2_of_3x4.element
            (unravel_noexcept i
              (compute_strides rows_1_2_of_3x4.m_shape layout_type.column_major)
              layout_type.column_major) :=
  ⟨rfl, by rintro i ⟨v, h, _⟩; cases h⟩

/-- The row-major ravel of a source of static layout `dynamic` whose run-time
layout is `row_major` reads the source in column-major order: the layout of the
adaptor is the transposed run-time layout, not `L`. -/
theorem ravel_row_major_of_row_major_view :
    ∃ v, ravel layout_type.row_major layout_type.dynamic array_2x3 = .ok v ∧
      (List.range 6).map (fun i => v.operator_call [i])
        = [some 1, some 4, some 2, some 5, some 3, some 6] :=
  ⟨_, rfl, rfl⟩

/-- C13 (amended).  For every source `b` whose strides are the canonical strides
of its shape for a layout `l` (row-major strides for `row_major`, column-major
strides otherwise; the product of its lengths fitting the size type), `flatten(b)` is the 1-D view of shape
`[prod(b.shape)]` and stride `[1]` over the flat buffer of `b` from the data
offset of `b`, and its element `i`, for `i < prod(b.shape)`, is the element of
`b` at the multi-index obtained by unravelling `i` over `b.shape` in `l` order,
which is in range. -/
theorem flatten_elements {α : Type} (static_layout l : layout_type) (b : xstrided_view α)
    (i : Nat)
    (hstr : b.m_strides = compute_strides b.m_shape l)
    (hp : b.m_shape.prod < 2 ^ 64) (hi : i < b.m_shape.prod) :
    ∃ v, flatten static_layout b = .ok v ∧
      v.m_shape = [b.m_shape.prod] ∧ v.m_strides = [1] ∧ v.m_offset = b.m_offset ∧
      v.m_storage = b.m_storage ∧
      v.operator_call [i] = b.element (unravel_noexcept i b.m_strides l) ∧
      in_range (unravel_noexcept i b.m_strides l) b.m_shape := by
  obtain ⟨c1, _, _⟩ := ravel_cases static_layout static_layout b
  obtain ⟨r1, r2⟩ := element_unravel b l i hstr hp hi
  refine ⟨_, c1 rfl, ?_, rfl, rfl, rfl, ?_, ?_⟩
  · show [compute_size b.m_shape] = _
    rw [compute_size_eq, Nat.mod_eq_of_lt hp]
  · rw [build_ravel_view_at, hstr, r1]
  · rw [hstr]; exact r2

/-- Witness of C13 (amended): the transposed view of `array_2x3` has the
column-major strides of its shape `[3, 2]`; element `1` of its flattened view is
its element `(1, 0)`, and the elements of the flattened view are `1, ..., 6`
in this order. -/
theorem flatten_elements_witness :
    (∃ v, flatten layout_type.dynamic
          (xstrided_view.ctor array_2x3 [3, 2] [1, 3] 0 layout_type.column_major) = .ok v ∧
      v.m_shape = [6] ∧ v.m_strides = [1] ∧ v.m_offset = 0 ∧
      v.m_storage = array_2x3.m_storage ∧
      v.operator_call [1]
        = (xstrided_view.ctor array_2x3 [3, 2] [1, 3] 0 layout_type.column_major).element
            [1, 0] ∧
      in_range [1, 0] [3, 2]) ∧
    transpose array_2x3
      = .ok (xstrided_view.ctor array_2x3 [3, 2] [1, 3] 0 layout_type.column_major) :=
  ⟨flatten_elements layout_type.dynamic layout_type.column_major
      (xstrided_view.ctor array_2x3 [3, 2] [1, 3] 0 layout_type.column_major) 1
      rfl (by decide) (by decide),
    rfl⟩

/-- C13 (counterexample).  For the row-major container `array_2x3` with the
values `1, ..., 6` and `b = transpose(array_2x3)`, the elements of `flatten(b)`
are `1, 2, 3, 4, 5, 6` in this order, the order of the buffer, while the
elements of `b` at the multi-indices obtained by unravelling `0, ..., 5` over
the shape of `b` in row-major order are `1, 4, 2, 5, 3, 6`. -/
theorem flatten_of_transpose_reads_buffer :
    ∃ b v, transpose array_2x3 = .ok b ∧ flatten layout_type.dynamic b = .ok v ∧
      (List.range 6).map (fun i => v.operator_call [i])
        = [some 1, some 2, some 3, some 4, some 5, some 6] ∧
      (List.range 6).map (fun i => b.operator_call
          (unravel_noexcept i (compute_strides b.m_shape layout_type.row_major)
            layout_type.row_major))
        = [some 1, some 4, some 2, some 5, some 3, some 6] :=
  ⟨_, _, rfl, rfl, rfl, rfl⟩

/-- The flattened view of a view that is not contiguous reads the buffer from
the data offset on: for the first two columns of `array_2x3`, whose elements are
`1, 2, 4, 5`, it gives `1, 2, 3, 4`. -/
theorem flatten_of_column_slice :
    ∃ b v, strided_view no_strides_match array_2x3
        [slice_variant.all, slice_variant.range (some 0) (some 2) none] = .ok b ∧
      b.m_shape = [2, 2] ∧ b.m_strides = [3, 1] ∧
      flatten layout_type.dynamic b = .ok v ∧
      (List.range 4).map (fun i => v.operator_call [i]) = [some 1, some 2, some 3, some 4] :=
  ⟨_, _, rfl, rfl, rfl, rfl, rfl⟩

/-- C14 (failing input).  The view
`strided_view(array_2x3, {2, 3}, {0, 1}, 0, dynamic)`, the first row of
`array_2x3` taken twice, has the shape `[2, 3]` and the strides `[0, 1]`, and no
axis of length `1`; its element `(1, 2)` is the element `3` of the first row.
`squeeze` of it has the shape `[2, 3]` and the strides `[1]`: no axis is
dropped, the stride `0` of the first axis is, and the shape and the strides of
the result differ in length. -/
theorem squeeze_of_broadcast_view :
    (strided_view_of array_2x3 [2, 3] [0, 1] 0 layout_type.dynamic).m_shape = [2, 3] ∧
    (strided_view_of array_2x3 [2, 3] [0, 1] 0 layout_type.dynamic).m_strides = [0, 1] ∧
    (strided_view_of array_2x3 [2, 3] [0, 1] 0 layout_type.dynamic).operator_call [1, 2]
      = some 3 ∧
    (squeeze (strided_view_of array_2x3 [2, 3] [0, 1] 0 layout_type.dynamic)).m_shape
      = [2, 3] ∧
    (squeeze (strided_view_of array_2x3 [2, 3] [0, 1] 0 layout_type.dynamic)).m_strides
      = [1] ∧
    (squeeze (strided_view_of array_2x3 [2, 3] [0, 1] 0 layout_type.dynamic)).m_shape.length
      ≠ (squeeze
          (strided_view_of array_2x3 [2, 3] [0, 1] 0 layout_type.dynamic)).m_strides.length :=
  ⟨rfl, rfl, rfl, rfl, rfl, by decide⟩

/-- C15.  Squeeze idempotence: for every source `e`, `squeeze(squeeze(e))` is
the same view as `squeeze(e)`: it has the same shape, the same strides, the
same offset and storage, and so the same element at every multi-index. -/
theorem squeeze_idempotent {α : Type} (e : xstrided_view α) :
    squeeze (squeeze e) = squeeze e ∧
    (squeeze (squeeze e)).m_shape = (squeeze e).m_shape ∧
    (squeeze (squeeze e)).m_strides = (squeeze e).m_strides ∧
    ∀ args, (squeeze (squeeze e)).operator_call args = (squeeze e).operator_call args := by
  have h : squeeze (squeeze e) = squeeze e := by
    simp only [squeeze, xstrided_view.ctor, get_strides, List.filter_filter, Bool.and_self]
  exact ⟨h, by rw [h], by rw [h], fun args => by rw [h]⟩

/-- C16 (failing input).  The row `1` of `array_3x4`, taken as the view
`e = strided_view(array_3x4, {range(1, 2)})`, has the shape `[1, 4]`, the
strides `[4, 1]` and the data offset `4`; `squeeze(e, {0})` has the shape `[4]`
and the strides `[1]` but the offset `0`: its element `(2)` is the element `2`
of the buffer, while the element `(0, 2)` of `e` is the element `6`. -/
theorem squeeze_axis_of_offset_view :
    ∃ e v, strided_view no_strides_match array_3x4
        [slice_variant.range (some 1) (some 2) none] = .ok e ∧
      e.m_shape = [1, 4] ∧ e.m_strides = [4, 1] ∧ e.m_offset = 4 ∧
      squeeze_axes_of e [0] check_policy.none = .ok v ∧
      v.m_shape = [4] ∧ v.m_strides = [1] ∧ v.m_offset = 0 ∧
      v.operator_call [2] = some 2 ∧ e.operator_call [0, 2] = some 6 :=
  ⟨_, _, rfl, rfl, rfl, rfl, rfl, rfl, rfl, rfl, rfl, rfl⟩

/-- C17 (failing input).  The container `array_2x3` has dimension `2`; for the
axis `2`, which is out of range, the test `ix > e.dimension()` does not hold and
`squeeze(array_2x3, {2}, check_policy::full)` reads `e.shape()[2]`, outside the
bounds of the shape, instead of throwing. -/
theorem squeeze_full_reads_outside_shape :
    array_2x3.dimension = 2 ∧
    squeeze_check array_2x3 [2] = .error xerror.out_of_bounds ∧
    squeeze_axes_of array_2x3 [2] check_policy.full = .error xerror.out_of_bounds :=
  ⟨rfl, rfl, rfl⟩


/-- C18.  For every source `e` (with as many strides as lengths, a data offset
in the size type and a dimension below `2 ^ 63`) and every `axis` that is at
most `e.dimension()`, `expand_dims(e, axis)` returns a view over the storage of
`e` whose shape is the shape of `e` with a `1` inserted at the position `axis`,
whose strides are the strides of `e` with a `0` inserted at the position `axis`,
and whose offset is the offset of `e`: the axes of the source keep their
lengths, their strides and their order. -/
theorem expand_dims_descriptor {α : Type} (dsm : List Nat → List Nat → layout_type → Bool)
    (e : xstrided_view α) (axis : Nat)
    (hs : e.m_strides.length = e.m_shape.length) (hb : e.m_offset < 2 ^ 64)
    (hd : e.dimension < 2 ^ 63) (ha : axis ≤ e.dimension) :
    ∃ v, expand_dims dsm e axis = .ok v ∧
      v.m_shape = e.m_shape.take axis ++ 1 :: e.m_shape.drop axis ∧
      v.m_strides = e.m_strides.take axis ++ 0 :: e.m_strides.drop axis ∧
      v.m_offset = e.m_offset ∧ v.m_storage = e.m_storage := by
  unfold xstrided_view.dimension at hd ha
  have hall : ∀ el ∈ List.replicate axis slice_variant.all
      ++ slice_variant.newaxis :: List.replicate (e.m_shape.length - axis) slice_variant.all,
      el = slice_variant.all ∨ el = slice_variant.newaxis := by
    intro el hel
    simp only [List.mem_append, List.mem_cons, List.mem_replicate] at hel
    rcases hel with ⟨_, h⟩ | h | ⟨_, h⟩
    · exact Or.inl h
    · exact Or.inr h
    · exact Or.inl h
  have hcount : (List.replicate axis slice_variant.all
      ++ slice_variant.newaxis :: List.replicate (e.m_shape.length - axis) slice_variant.all).count
        slice_variant.all = e.m_shape.length := by
    simp [List.count_append, List.count_replicate, List.count_cons]
    omega
  obtain ⟨v, h1, h2, h3, h4, h5⟩ := strided_view_pads dsm e
    (List.replicate axis slice_variant.all
      ++ slice_variant.newaxis :: List.replicate (e.m_shape.length - axis) slice_variant.all)
    hs hb
    (by simp only [List.length_append, List.length_replicate, List.length_cons]; omega)
    hall (by rw [hcount])
  refine ⟨v, ?_, ?_, ?_, h4, h5⟩
  · unfold expand_dims xstrided_view.dimension
    simp only []
    rw [expand_dims_slices ha (by omega)]
    exact h1
  · rw [h2, hcount, view_shape_append, axis_after_replicate_all,
      view_shape_replicate_all _ _ _ (by omega)]
    simp only [view_shape, slice_shape, slice_axes]
    rw [view_shape_replicate_all _ _ _ (by omega)]
    simp
  · rw [h3, hcount, view_strides_append, axis_after_replicate_all,
      view_strides_replicate_all _ _ _ (by omega)]
    simp only [view_strides, slice_strides, slice_axes]
    rw [view_strides_replicate_all _ _ _ (by omega), ← hs]
    simp

/-- Witness of C18: a new axis at the position `1` of
`array_2x3x4_from_5`. -/
theorem expand_dims_descriptor_witness :
    ∃ v, expand_dims no_strides_match array_2x3x4_from_5 1 = .ok v ∧
      v.m_shape = [2, 1, 3, 4] ∧ v.m_strides = [12, 0, 4, 1] ∧ v.m_offset = 5 ∧
      v.m_storage = array_2x3x4_from_5.m_storage :=
  expand_dims_descriptor no_strides_match array_2x3x4_from_5 1 rfl (by decide) (by decide)
    (by decide)

/-- C19 (amended).  `expand_dims(e, axis)` makes no check of `axis`: for every
source `e` and every `axis` above `e.dimension()` it raises no dimension error;
the write `sv[axis]` falls outside the slice vector of `e.dimension() + 1`
entries, which is undefined behaviour, and no view is built. -/
theorem expand_dims_beyond_dimension {α : Type}
    (dsm : List Nat → List Nat → layout_type → Bool) (e : xstrided_view α) (axis : Nat)
    (ha : e.dimension < axis) :
    expand_dims dsm e axis = .error xerror.out_of_bounds := by
  unfold expand_dims write_slice
  have : ¬ axis < (List.replicate (size_add e.dimension 1) slice_variant.all).length := by
    rw [List.length_replicate]; unfold size_add; omega
  simp only [if_neg this]
  rfl

/-- Witness of C19 (amended): the axis `5` for the source
`array_2x3x4` of dimension `3`. -/
theorem expand_dims_beyond_dimension_witness :
    array_2x3x4.dimension < 5 ∧
    expand_dims no_strides_match array_2x3x4 5 = .error xerror.out_of_bounds :=
  ⟨by decide, expand_dims_beyond_dimension no_strides_match array_2x3x4 5 (by decide)⟩

/-- C19 (counterexample).  For the container `array_2x3` of dimension `2` and
the axis `3`, `expand_dims` throws no exception: it writes `sv[3]` in a slice
vector of `3` entries. -/
theorem expand_dims_axis_3_of_2x3 :
    array_2x3.dimension = 2 ∧
    write_slice (List.replicate 3 slice_variant.all) 3 slice_variant.newaxis
      = .error xerror.out_of_bounds ∧
    expand_dims no_strides_match array_2x3 3 = .error xerror.out_of_bounds :=
  ⟨rfl, rfl, rfl⟩

/-- C20 (amended).  For every `N` below `2 ^ 53` and every source `e` (with as
many strides as lengths and a data offset in the size type) of dimension
`dim < N`, `atleast_Nd<N>(e)` places `k` new axes before the source axes and
the remaining `N - dim - k` new axes after them, where `k` is `(N - dim) / N`
rounded to the nearest integer, a half going up: `k = 1` when `2 * dim ≤ N` and
`k = 0` otherwise.  The slice vector is `k` times `newaxis`, `dim` times `all`
and `N - dim - k` times `newaxis`; the view has the lengths of `e` between `k`
and `N - dim - k` lengths `1`, the strides of `e` between as many strides `0`,
and the offset and the storage of `e`. -/
theorem atleast_Nd_rounds {α : Type} (dsm : List Nat → List Nat → layout_type → Bool)
    (N : Nat) (e : xstrided_view α)
    (hs : e.m_strides.length = e.m_shape.length) (hb : e.m_offset < 2 ^ 64)
    (hN : N < 2 ^ 53) (hdim : e.dimension < N) :
    round_ratio (N - e.dimension) N = (if 2 * e.dimension ≤ N then 1 else 0) ∧
    atleast_Nd_slices N e.dimension
      = .ok (List.replicate (round_ratio (N - e.dimension) N) slice_variant.newaxis
          ++ List.replicate e.dimension slice_variant.all
          ++ List.replicate (N - e.dimension - round_ratio (N - e.dimension) N)
              slice_variant.newaxis) ∧
    ∃ v, atleast_Nd dsm N e = .ok v ∧
      v.m_shape = List.replicate (round_ratio (N - e.dimension) N) 1 ++ e.m_shape
        ++ List.replicate (N - e.dimension - round_ratio (N - e.dimension) N) 1 ∧
      v.m_strides = List.replicate (round_ratio (N - e.dimension) N) 0 ++ e.m_strides
        ++ List.replicate (N - e.dimension - round_ratio (N - e.dimension) N) 0 ∧
      v.m_offset = e.m_offset ∧ v.m_storage = e.m_storage := by
  have hk := round_ratio_le_one hdim
  have hsl := atleast_Nd_slices_eq hdim (show N < 2 ^ 64 by omega)
  refine ⟨hk, hsl, ?_⟩
  have hkle : round_ratio (N - e.dimension) N ≤ 1 := by rw [hk]; split <;> omega
  obtain ⟨v, h1, h2, h3, h4, h5⟩ := strided_view_newaxis_all_newaxis dsm e
    (round_ratio (N - e.dimension) N) e.dimension
    (N - e.dimension - round_ratio (N - e.dimension) N) hs hb
    (by unfold xstrided_view.dimension at hdim hkle ⊢; omega) (Nat.le_refl _)
  refine ⟨v, ?_, ?_, ?_, h4, h5⟩
  · unfold atleast_Nd
    rw [hsl]
    exact h1
  · rw [h2]; unfold xstrided_view.dimension; simp
  · rw [h3]; unfold xstrided_view.dimension; rw [← hs]; simp

/-- Witness of C20 (amended): `atleast_Nd<4>` of the container
`array_2x3`, with one new axis before its axes and one after them. -/
theorem atleast_Nd_rounds_witness :
    round_ratio (4 - 2) 4 = 1 ∧
    atleast_Nd_slices 4 2
      = .ok [slice_variant.newaxis, slice_variant.all, slice_variant.all,
          slice_variant.newaxis] ∧
    ∃ v, atleast_Nd no_strides_match 4 array_2x3 = .ok v ∧
      v.m_shape = [1, 2, 3, 1] ∧ v.m_strides = [0, 3, 1, 0] ∧
      v.m_offset = 0 ∧ v.m_storage = array_2x3.m_storage :=
  atleast_Nd_rounds no_strides_match 4 array_2x3 rfl (by decide) (by decide) (by decide)

/-- C20 (counterexample).  For `N = 3` and the 1-D container `array_4`, the
floor of `(N - dim) / N` is `0`, but `atleast_Nd<3>` places one new axis before
the source axis and one after it: the slice vector is `newaxis, all, newaxis`
and the view has the shape `[1, 4, 1]`, not `[4, 1, 1]`. -/
theorem atleast_3d_of_1d :
    array_4.dimension = 1 ∧ (3 - 1) / 3 = 0 ∧
    atleast_Nd_slices 3 1
      = .ok [slice_variant.newaxis, slice_variant.all, slice_variant.newaxis] ∧
    ∃ v, atleast_Nd no_strides_match 3 array_4 = .ok v ∧
      v.m_shape = [1, 4, 1] ∧ v.m_strides = [0, 1, 0] ∧
      v.m_shape ≠ List.replicate ((3 - 1) / 3) 1 ++ array_4.m_shape
        ++ List.replicate (3 - 1 - (3 - 1) / 3) 1 :=
  ⟨rfl, rfl, rfl, _, rfl, rfl, rfl, by decide⟩


/-! ## Claims on `atleast_Nd`, `split`, `flip`, `trim_zeros` and on the failures of the view builder -/

/-- C30.  `get_strided_view_args` fails with "Ellipsis can only appear once."
for every slice list that has more than one `Ellipsis`, whatever the source and
the other slices are; for a slice list with at most one `Ellipsis` it never
fails with that error. -/
theorem duplicate_ellipsis_rejected
    (dsm : List Nat → List Nat → layout_type → Bool) (shape strides : List Nat) (base : Nat)
    (layout : layout_type) (slices : List slice_variant) :
    (2 ≤ n_ellipsis_of slices →
      get_strided_view_args dsm shape strides base layout slices
        = .error xerror.ellipsis_twice) ∧
    (n_ellipsis_of slices ≤ 1 →
      get_strided_view_args dsm shape strides base layout slices
        ≠ .error xerror.ellipsis_twice) := by
  constructor
  · intro h
    unfold get_strided_view_args
    rw [count_slices_ellipsis_twice slices _ (by simpa using h)]
    rfl
  · intro h habs
    obtain ⟨c, hc⟩ := count_slices_complete slices
      { dimension := shape.length, n_newaxis := 0,
        dimension_check := (shape.length : Int), has_ellipsis := false } (by simpa using h)
    unfold get_strided_view_args at habs
    rw [hc] at habs
    simp only [ok_bind] at habs
    split at habs
    · cases habs
    rcases bind_error habs with h1 | ⟨_, _, habs⟩
    · have := apply_slices_error _ _ _ h1
      simp [is_loop_error] at this
    rcases bind_error habs with h1 | ⟨_, _, habs⟩
    · have := append_trailing_error _ _ _ h1
      simp [is_loop_error] at this
    · cases habs

/-- Witness of C30: two ellipses around an integer are rejected on a source of
shape `[2, 3, 4]`, and the list of the spec with one ellipsis is not. -/
theorem duplicate_ellipsis_rejected_witness :
    get_strided_view_args no_strides_match [2, 3, 4] [12, 4, 1] 0 layout_type.row_major
        [slice_variant.ellipsis, slice_variant.index 1, slice_variant.ellipsis]
      = .error xerror.ellipsis_twice ∧
    get_strided_view_args no_strides_match [2, 3, 4] [12, 4, 1] 0 layout_type.row_major
        [slice_variant.newaxis, slice_variant.ellipsis, slice_variant.index 2]
      ≠ .error xerror.ellipsis_twice ∧
    get_strided_view_args no_strides_match [2, 3, 4] [12, 4, 1] 0 layout_type.row_major
        [slice_variant.newaxis, slice_variant.ellipsis, slice_variant.index 2]
      = .ok ([1, 2, 3], [0, 12, 4], 2, layout_type.dynamic) :=
  ⟨(duplicate_ellipsis_rejected no_strides_match [2, 3, 4] [12, 4, 1] 0 layout_type.row_major
      [slice_variant.ellipsis, slice_variant.index 1, slice_variant.ellipsis]).1 (by decide),
    (duplicate_ellipsis_rejected no_strides_match [2, 3, 4] [12, 4, 1] 0 layout_type.row_major
      [slice_variant.newaxis, slice_variant.ellipsis, slice_variant.index 2]).2 (by decide),
    rfl⟩


/-- C21.  For every `N` below `2 ^ 53` and every source `e` (with as many
strides as lengths and a data offset in the size type) of dimension `dim < N`,
the number `k` of new axes that `atleast_Nd<N>(e)` places before the source
axes is `(N - dim) / N` rounded to the nearest integer, halves away from zero:
`k - 1/2 ≤ (N - dim) / N < k + 1/2`, stated without fractions; the other
`N - dim - k` new axes follow the source axes.  In particular `atleast_3d` of a
1-D source of shape `(n)` has the shape `(1, n, 1)`. -/
theorem atleast_Nd_leading_axes {α : Type}
    (dsm : List Nat → List Nat → layout_type → Bool) (N : Nat) (e : xstrided_view α)
    (hs : e.m_strides.length = e.m_shape.length) (hb : e.m_offset < 2 ^ 64)
    (hN : N < 2 ^ 53) (hdim : e.dimension < N) :
    ∃ k v, 2 * k * N ≤ 2 * (N - e.dimension) + N ∧
      2 * (N - e.dimension) + N < 2 * (k + 1) * N ∧
      atleast_Nd_slices N e.dimension
        = .ok (List.replicate k slice_variant.newaxis
            ++ List.replicate e.dimension slice_variant.all
            ++ List.replicate (N - e.dimension - k) slice_variant.newaxis) ∧
      atleast_Nd dsm N e = .ok v ∧
      v.m_shape = List.replicate k 1 ++ e.m_shape ++ List.replicate (N - e.dimension - k) 1 ∧
      (∀ n, N = 3 → e.m_shape = [n] →
        atleast_3d dsm e = .ok v ∧ v.m_shape = [1, n, 1]) := by
  have hk := round_ratio_le_one hdim
  have hsl := atleast_Nd_slices_eq hdim (show N < 2 ^ 64 by omega)
  have hkle : round_ratio (N - e.dimension) N ≤ 1 := by rw [hk]; split <;> omega
  obtain ⟨v, h1, h2, _, _, _⟩ := strided_view_newaxis_all_newaxis dsm e
    (round_ratio (N - e.dimension) N) e.dimension
    (N - e.dimension - round_ratio (N - e.dimension) N) hs hb
    (by unfold xstrided_view.dimension at hdim hkle ⊢; omega) (Nat.le_refl _)
  have hv : atleast_Nd dsm N e = .ok v := by
    unfold atleast_Nd
    rw [hsl]
    exact h1
  have hshape : v.m_shape = List.replicate (round_ratio (N - e.dimension) N) 1 ++ e.m_shape
      ++ List.replicate (N - e.dimension - round_ratio (N - e.dimension) N) 1 := by
    rw [h2]; unfold xstrided_view.dimension; simp
  refine ⟨round_ratio (N - e.dimension) N, v, ?_, ?_, hsl, hv, hshape, ?_⟩
  · rw [hk]; split <;> omega
  · rw [hk]; split <;> omega
  · intro n h3 hn
    subst h3
    refine ⟨hv, ?_⟩
    have hd1 : e.dimension = 1 := by unfold xstrided_view.dimension; rw [hn]; rfl
    rw [hshape, hk, hd1, hn]
    rfl

/-- Witness of C21: `atleast_3d` of the 1-D container `array_4`. -/
theorem atleast_Nd_leading_axes_witness :
    ∃ k v, 2 * k * 3 ≤ 2 * (3 - array_4.dimension) + 3 ∧
      2 * (3 - array_4.dimension) + 3 < 2 * (k + 1) * 3 ∧
      atleast_Nd_slices 3 array_4.dimension
        = .ok (List.replicate k slice_variant.newaxis
            ++ List.replicate array_4.dimension slice_variant.all
            ++ List.replicate (3 - array_4.dimension - k) slice_variant.newaxis) ∧
      atleast_Nd no_strides_match 3 array_4 = .ok v ∧
      v.m_shape = List.replicate k 1 ++ array_4.m_shape
        ++ List.replicate (3 - array_4.dimension - k) 1 ∧
      (∀ n, 3 = 3 → array_4.m_shape = [n] →
        atleast_3d no_strides_match array_4 = .ok v ∧ v.m_shape = [1, n, 1]) :=
  atleast_Nd_leading_axes no_strides_match 3 array_4 rfl (by decide) (by decide) (by decide)

/-- C22.  For every `N` below `2 ^ 53` and every source `e` (with as many
strides as lengths, a data offset in the size type and a dimension below
`2 ^ 63`): if `e.dimension() < N`, `atleast_Nd<N>(e)` has exactly `N` axes, made
of `k` axes of length `1` and stride `0`, then the axes of `e` in their order
with their lengths and their strides, then `N - dim - k` axes of length `1` and
stride `0`; if `e.dimension() >= N` it has the shape, the strides and the offset
of `e`. -/
theorem atleast_Nd_axes {α : Type}
    (dsm : List Nat → List Nat → layout_type → Bool) (N : Nat) (e : xstrided_view α)
    (hs : e.m_strides.length = e.m_shape.length) (hb : e.m_offset < 2 ^ 64)
    (hN : N < 2 ^ 53) (hd : e.dimension < 2 ^ 63) :
    (e.dimension < N →
      ∃ v k, atleast_Nd dsm N e = .ok v ∧ v.dimension = N ∧ k ≤ N - e.dimension ∧
        v.m_shape = List.replicate k 1 ++ e.m_shape
          ++ List.replicate (N - e.dimension - k) 1 ∧
        v.m_strides = List.replicate k 0 ++ e.m_strides
          ++ List.replicate (N - e.dimension - k) 0) ∧
    (N ≤ e.dimension →
      ∃ v, atleast_Nd dsm N e = .ok v ∧ v.m_shape = e.m_shape ∧ v.m_strides = e.m_strides ∧
        v.m_offset = e.m_offset) := by
  constructor
  · intro hdim
    have hk := round_ratio_le_one hdim
    have hsl := atleast_Nd_slices_eq hdim (show N < 2 ^ 64 by omega)
    have hkle : round_ratio (N - e.dimension) N ≤ 1 := by rw [hk]; split <;> omega
    have hkle2 : round_ratio (N - e.dimension) N ≤ N - e.dimension := by omega
    obtain ⟨v, h1, h2, h3, _, _⟩ := strided_view_newaxis_all_newaxis dsm e
      (round_ratio (N - e.dimension) N) e.dimension
      (N - e.dimension - round_ratio (N - e.dimension) N) hs hb
      (by unfold xstrided_view.dimension at hdim hkle ⊢; omega) (Nat.le_refl _)
    have hshape : v.m_shape = List.replicate (round_ratio (N - e.dimension) N) 1 ++ e.m_shape
        ++ List.replicate (N - e.dimension - round_ratio (N - e.dimension) N) 1 := by
      rw [h2]; unfold xstrided_view.dimension; simp
    refine ⟨v, round_ratio (N - e.dimension) N, ?_, ?_, hkle2, hshape, ?_⟩
    · unfold atleast_Nd
      rw [hsl]
      exact h1
    · unfold xstrided_view.dimension at hdim hkle2 ⊢
      rw [hshape]
      simp only [List.length_append, List.length_replicate]
      unfold xstrided_view.dimension
      omega
    · rw [h3]; unfold xstrided_view.dimension; rw [← hs]; simp
  · intro hdim
    obtain ⟨v, h1, h2, h3, h4, _⟩ := strided_view_newaxis_all_newaxis dsm e 0 e.dimension 0
      hs hb (by unfold xstrided_view.dimension at hd ⊢; omega) (Nat.le_refl _)
    refine ⟨v, ?_, ?_, ?_, h4⟩
    · unfold atleast_Nd
      rw [atleast_Nd_slices_identity hdim]
      simpa using h1
    · rw [h2]; unfold xstrided_view.dimension; simp
    · rw [h3]; unfold xstrided_view.dimension; rw [← hs]; simp

/-- Witness of C22: `atleast_Nd<5>` and `atleast_Nd<2>` of the view
`array_2x3x4_from_5` of dimension `3`. -/
theorem atleast_Nd_axes_witness :
    (∃ v k, atleast_Nd no_strides_match 5 array_2x3x4_from_5 = .ok v ∧ v.dimension = 5 ∧
        k ≤ 5 - array_2x3x4_from_5.dimension ∧
        v.m_shape = List.replicate k 1 ++ [2, 3, 4]
          ++ List.replicate (5 - array_2x3x4_from_5.dimension - k) 1 ∧
        v.m_strides = List.replicate k 0 ++ [12, 4, 1]
          ++ List.replicate (5 - array_2x3x4_from_5.dimension - k) 0) ∧
    (∃ v, atleast_Nd no_strides_match 2 array_2x3x4_from_5 = .ok v ∧ v.m_shape = [2, 3, 4] ∧
        v.m_strides = [12, 4, 1] ∧ v.m_offset = 5) :=
  ⟨(atleast_Nd_axes no_strides_match 5 array_2x3x4_from_5 rfl (by decide) (by decide)
      (by decide)).1 (by decide),
    (atleast_Nd_axes no_strides_match 2 array_2x3x4_from_5 rfl (by decide) (by decide)
      (by decide)).2 (by decide)⟩

/-- C25 (code at a failing input).  The view `rows_1_2_of_3x4` has the shape
`[2, 4]`, the strides `[4, 1]` and the data offset `4`.  `flip` of it along the
axis `1` keeps the shape, negates the stride of the axis `1` and has the layout
`dynamic`, but its offset is `1 * (4 - 1) = 3`, not `4 + 3 = 7`: its element
`(0, 0)` is the element `3` of the buffer, which is no element of the view,
while the element `(0, 3)` of the view is the element `7`. -/
theorem flip_of_offset_view :
    ∃ v, flip rows_1_2_of_3x4 1 = .ok v ∧
      rows_1_2_of_3x4.m_offset = 4 ∧ rows_1_2_of_3x4.m_strides = [4, 1] ∧
      v.m_shape = [2, 4] ∧ v.m_strides = [4, XTENSOR_MU (-1)] ∧
      v.m_layout = layout_type.dynamic ∧
      v.m_offset = 3 ∧ v.m_offset ≠ 4 + 1 * (4 - 1) ∧
      v.operator_call [0, 0] = some 3 ∧ rows_1_2_of_3x4.operator_call [0, 3] = some 7 :=
  ⟨_, rfl, rfl, rfl, rfl, rfl, rfl, rfl, by decide, rfl, rfl⟩

/-- C26 (code at a failing input).  For the 1-D container `array_4`, of data
offset `0`, `flip(array_4, 0)` has the stride `-1` and the offset `3`; the
second `flip` restores the stride `1` but takes `-1 * (4 - 1)` as offset, in
the size type, without the offset `3` of its source: the element `(0)` of
`flip(flip(array_4, 0), 0)` lies outside the buffer, while the element `(0)` of
`array_4` is `0`. -/
theorem flip_twice_of_container :
    ∃ v w, flip array_4 0 = .ok v ∧ v.m_strides = [XTENSOR_MU (-1)] ∧ v.m_offset = 3 ∧
      flip v 0 = .ok w ∧ w.m_shape = [4] ∧ w.m_strides = [1] ∧
      w.m_offset = XTENSOR_MU (-3) ∧
      w.operator_call [0] = none ∧ array_4.operator_call [0] = some 0 ∧
      w.operator_call [3] = some 0 ∧ array_4.operator_call [3] = some 3 :=
  ⟨_, _, rfl, rfl, rfl, rfl, rfl, rfl, rfl, rfl, rfl, rfl, rfl⟩

/-- C29 (amended).  An `Index(k)` slice addressed to a source axis is taken as
it is: for every source `e` (with as many strides as lengths and a data offset
in the size type), every `axis < e.dimension()` and every integer `k`, negative
or not, inside the axis or not, `strided_view` raises no error; it drops the
axis and adds `static_cast<std::size_t>(k) * strides[axis]` to the offset in the
size type, where the cast of a negative `k` is `2 ^ 64 + k`, not `n + k`. -/
theorem index_slice_unchecked {α : Type}
    (dsm : List Nat → List Nat → layout_type → Bool) (e : xstrided_view α) (axis : Nat)
    (k : Int)
    (hs : e.m_strides.length = e.m_shape.length) (hb : e.m_offset < 2 ^ 64)
    (hd : e.dimension < 2 ^ 64) (ha : axis < e.dimension) :
    (∃ v, strided_view dsm e
          (List.replicate axis slice_variant.all ++ [slice_variant.index k]) = .ok v ∧
        v.m_shape = e.m_shape.take axis ++ e.m_shape.drop (axis + 1) ∧
        v.m_strides = e.m_strides.take axis ++ e.m_strides.drop (axis + 1) ∧
        v.m_offset = (e.m_offset + XTENSOR_MU k * e.m_strides.getD axis 0) % 2 ^ 64) ∧
    (k < 0 → -(2 ^ 64) ≤ k → (XTENSOR_MU k : Int) = 2 ^ 64 + k) := by
  unfold xstrided_view.dimension at hd ha
  constructor
  · obtain ⟨v, h1, h2, h3, h4, _⟩ := strided_view_at_axis dsm e axis 0 (slice_variant.index k)
      hs hb hd rfl (by omega) ha
    refine ⟨v, h1, ?_, ?_, h4⟩
    · rw [h2]; simp [slice_shape]
    · rw [h3]; simp [slice_strides]
  · intro h1 h2
    rw [XTENSOR_MU_cast]
    omega

/-- Witness of C29 (amended): the index `-1` at the axis `1` of
`array_2x3x4_from_5`, whose stride is `4`. -/
theorem index_slice_unchecked_witness :
    (∃ v, strided_view no_strides_match array_2x3x4_from_5
          (List.replicate 1 slice_variant.all ++ [slice_variant.index (-1)]) = .ok v ∧
        v.m_shape = [2, 4] ∧ v.m_strides = [12, 1] ∧
        v.m_offset = (5 + XTENSOR_MU (-1) * 4) % 2 ^ 64) ∧
    ((-1 : Int) < 0 → -(2 ^ 64) ≤ (-1 : Int) → (XTENSOR_MU (-1) : Int) = 2 ^ 64 + (-1)) :=
  index_slice_unchecked no_strides_match array_2x3x4_from_5 1 (-1) rfl (by decide) (by decide)
    (by decide)

/-- C29 (counterexample).  On the container `array_2x3`, whose first axis has
the length `2` and the stride `3`, the slice `Index(-1)` gives a view at the
offset `2 ^ 64 - 3`, not at the offset `3` of the row `2 + (-1)`, and the slice
`Index(5)` gives a view at the offset `15`: no error is raised. -/
theorem index_slice_out_of_range :
    strided_view no_strides_match array_2x3 [slice_variant.index (-1)]
      = .ok (xstrided_view.ctor array_2x3 [3] [1] (2 ^ 64 - 3) layout_type.dynamic) ∧
    strided_view no_strides_match array_2x3 [slice_variant.index 5]
      = .ok (xstrided_view.ctor array_2x3 [3] [1] 15 layout_type.dynamic) ∧
    strided_view no_strides_match array_2x3 [slice_variant.index 1]
      = .ok (xstrided_view.ctor array_2x3 [3] [1] 3 layout_type.dynamic) :=
  ⟨rfl, rfl, rfl⟩

/-- C23.  For every source `e` (with as many strides as lengths, a data offset
in the size type, and at the axis a length below `2 ^ 63` and a stride in the
size type), every `n >= 1` and every `axis`, `split(e, n, axis)` fails if and
only if `axis >= e.dimension()` or `e.shape[axis] mod n != 0`: with "Split along
axis > dimension." in the first case, with "Split does not result in equal
division." in the second one; in every other case it returns `n` views. -/
theorem split_fails_iff {α : Type} (dsm : List Nat → List Nat → layout_type → Bool)
    (e : xstrided_view α) (n axis : Nat)
    (hs : e.m_strides.length = e.m_shape.length) (hb : e.m_offset < 2 ^ 64)
    (hd : e.dimension < 2 ^ 64)
    (h63 : e.m_shape.getD axis 0 < 2 ^ 63) (hsa : e.m_strides.getD axis 0 < 2 ^ 64)
    (hn : 1 ≤ n) (hn64 : n < 2 ^ 64) :
    ((∃ err, split dsm e n axis = .error err)
      ↔ (e.dimension ≤ axis ∨ e.m_shape.getD axis 0 % n ≠ 0)) ∧
    (e.dimension ≤ axis → split dsm e n axis = .error xerror.split_axis) ∧
    (axis < e.dimension → e.m_shape.getD axis 0 % n ≠ 0 →
      split dsm e n axis = .error xerror.split_rest) ∧
    (axis < e.dimension → e.m_shape.getD axis 0 % n = 0 →
      ∃ views, split dsm e n axis = .ok views ∧ views.length = n) := by
  unfold xstrided_view.dimension at hd ⊢
  obtain ⟨c1, c2, c3⟩ := split_cases dsm e n axis hs hb hd h63 hsa hn hn64
  have c4 : axis < e.m_shape.length → e.m_shape.getD axis 0 % n = 0 →
      ∃ views, split dsm e n axis = .ok views ∧ views.length = n := by
    intro h hr
    obtain ⟨views, h1, h2⟩ := c3 h hr
    exact ⟨views, h1, (forall₂_range_get h2).1⟩
  refine ⟨⟨?_, ?_⟩, c1, c2, c4⟩
  · rintro ⟨err, herr⟩
    by_contra hcon
    rw [not_or, not_not, Nat.not_le] at hcon
    obtain ⟨views, h1, _⟩ := c4 hcon.1 hcon.2
    rw [h1] at herr
    cases herr
  · rintro (h | h)
    · exact ⟨_, c1 h⟩
    · by_cases hax : axis < e.m_shape.length
      · exact ⟨_, c2 hax h⟩
      · exact ⟨_, c1 (by omega)⟩

/-- Witness of C23: on the container `array_4x2` of shape `[4, 2]`,
`split(a, 3, 0)` fails and `split(a, 2, 0)` returns two views. -/
theorem split_fails_iff_witness :
    split no_strides_match array_4x2 3 0 = .error xerror.split_rest ∧
    (∃ views, split no_strides_match array_4x2 2 0 = .ok views ∧ views.length = 2) ∧
    split no_strides_match array_4x2 2 2 = .error xerror.split_axis :=
  ⟨(split_fails_iff no_strides_match array_4x2 3 0 rfl (by decide) (by decide) (by decide)
      (by decide) (by decide) (by decide)).2.2.1 (by decide) (by decide),
    (split_fails_iff no_strides_match array_4x2 2 0 rfl (by decide) (by decide) (by decide)
      (by decide) (by decide) (by decide)).2.2.2 (by decide) (by decide),
    (split_fails_iff no_strides_match array_4x2 2 2 rfl (by decide) (by decide) (by decide)
      (by decide) (by decide) (by decide)).2.1 (by decide)⟩

/-- C24.  For every source `e` (with as many strides as lengths, a data offset
in the size type, and at the axis a length below `2 ^ 63` and a stride in the
size type), every `n >= 1` and every `axis < e.dimension()` with
`e.shape[axis] mod n = 0`, `split(e, n, axis)` returns exactly `n` views over
the storage of `e`.  With `step = e.shape[axis] / n`, the view `i` has the shape
of `e` except `shape[axis] = step`, the strides of `e`, and the offset of `e`
advanced by `i * step * strides[axis]`; its element at an in-range multi-index
with `j` at the axis is the element of `e` at the same multi-index with
`i * step + j` at the axis, which is in range.  The `n` views cover the indices
`0 .. e.shape[axis] - 1` of the axis without overlap or gap: each index is
`i * step + j` for exactly one `i < n` and one `j < step`. -/
theorem split_views_cover {α : Type} (dsm : List Nat → List Nat → layout_type → Bool)
    (e : xstrided_view α) (n axis : Nat)
    (hs : e.m_strides.length = e.m_shape.length) (hb : e.m_offset < 2 ^ 64)
    (hd : e.dimension < 2 ^ 64)
    (h63 : e.m_shape.getD axis 0 < 2 ^ 63) (hsa : e.m_strides.getD axis 0 < 2 ^ 64)
    (hn : 1 ≤ n) (hn64 : n < 2 ^ 64)
    (ha : axis < e.dimension) (hr : e.m_shape.getD axis 0 % n = 0) :
    ∃ views, split dsm e n axis = .ok views ∧ views.length = n ∧
      (∀ i, i < n → ∃ v, views[i]? = some v ∧
        v.m_shape = e.m_shape.set axis (e.m_shape.getD axis 0 / n) ∧
        v.m_strides = e.m_strides ∧
        v.m_offset = (e.m_offset + i * (e.m_shape.getD axis 0 / n)
          * e.m_strides.getD axis 0) % 2 ^ 64 ∧
        v.m_storage = e.m_storage ∧
        ∀ idx j, in_range idx v.m_shape → idx[axis]? = some j →
          in_range (idx.set axis (i * (e.m_shape.getD axis 0 / n) + j)) e.m_shape ∧
          v.operator_call idx
            = e.operator_call (idx.set axis (i * (e.m_shape.getD axis 0 / n) + j))) ∧
      (∀ r, r < e.m_shape.getD axis 0 →
        ∃ i j, i < n ∧ j < e.m_shape.getD axis 0 / n ∧
          r = i * (e.m_shape.getD axis 0 / n) + j ∧
          ∀ i2 j2, j2 < e.m_shape.getD axis 0 / n →
            r = i2 * (e.m_shape.getD axis 0 / n) + j2 → i2 = i ∧ j2 = j) := by
  unfold xstrided_view.dimension at hd ha
  obtain ⟨_, _, c3⟩ := split_cases dsm e n axis hs hb hd h63 hsa hn hn64
  obtain ⟨views, h1, h2⟩ := c3 ha hr
  obtain ⟨hlen, hget⟩ := forall₂_range_get h2
  have hmul : n * (e.m_shape.getD axis 0 / n) = e.m_shape.getD axis 0 :=
    Nat.mul_div_cancel' (Nat.dvd_of_mod_eq_zero hr)
  generalize e.m_shape.getD axis 0 / n = step at hmul hget ⊢
  refine ⟨views, h1, hlen, ?_, ?_⟩
  · intro i hi
    obtain ⟨v, g0, g1, g2, g3, g4⟩ := hget i hi
    refine ⟨v, g0, g1, g2, g3, g4, ?_⟩
    intro idx j hin hj
    rw [g1] at hin
    have hjlt : j < step := in_range_set_lt hin hj ha
    have h1 : (i + 1) * step ≤ n * step := Nat.mul_le_mul_right _ hi
    have h3 : (i + 1) * step = i * step + step := by rw [Nat.succ_mul]
    have hlen1 : idx.length = e.m_shape.length := by
      rw [in_range_length hin, List.length_set]
    refine ⟨in_range_set hin hj ha (by omega), ?_⟩
    unfold xstrided_view.operator_call xstrided_view.flat_index
    rw [g4, g2, g3, data_offset_eq_dot (by rw [hs]; exact hlen1),
      data_offset_eq_dot (by rw [List.length_set, hs]; exact hlen1),
      dot_set_add idx e.m_strides axis j (i * step) (by rw [hs]; exact hlen1) hj]
    unfold size_add
    congr 1
    omega
  · intro r hrlt
    have hstep : 0 < step := by
      rcases Nat.eq_zero_or_pos step with h0 | h0
      · rw [h0, Nat.mul_zero] at hmul; omega
      · exact h0
    refine ⟨r / step, r % step, ?_, Nat.mod_lt _ hstep, ?_, ?_⟩
    · apply Nat.div_lt_of_lt_mul
      rw [Nat.mul_comm, hmul]; exact hrlt
    · rw [Nat.mul_comm]; exact (Nat.div_add_mod r step).symm
    · intro i2 j2 hj2 hreq
      subst hreq
      constructor
      · rw [Nat.add_comm, Nat.add_mul_div_right _ _ hstep, Nat.div_eq_of_lt hj2, Nat.zero_add]
      · rw [Nat.add_comm, Nat.add_mul_mod_self_right, Nat.mod_eq_of_lt hj2]

/-- Witness of C24: the container `array_4x2` of shape `[4, 2]` split in `2`
along the axis `0` gives two views of shape `[2, 2]`, at the offsets `0` and
`4`, that is over the rows `0, 1` and `2, 3`. -/
theorem split_views_cover_witness :
    (∃ views, split no_strides_match array_4x2 2 0 = .ok views ∧ views.length = 2 ∧
      (∀ i, i < 2 → ∃ v, views[i]? = some v ∧
        v.m_shape = array_4x2.m_shape.set 0 (array_4x2.m_shape.getD 0 0 / 2) ∧
        v.m_strides = array_4x2.m_strides ∧
        v.m_offset = (array_4x2.m_offset + i * (array_4x2.m_shape.getD 0 0 / 2)
          * array_4x2.m_strides.getD 0 0) % 2 ^ 64 ∧
        v.m_storage = array_4x2.m_storage ∧
        ∀ idx j, in_range idx v.m_shape → idx[0]? = some j →
          in_range (idx.set 0 (i * (array_4x2.m_shape.getD 0 0 / 2) + j)) array_4x2.m_shape ∧
          v.operator_call idx
            = array_4x2.operator_call (idx.set 0 (i * (array_4x2.m_shape.getD 0 0 / 2) + j))) ∧
      (∀ r, r < array_4x2.m_shape.getD 0 0 →
        ∃ i j, i < 2 ∧ j < array_4x2.m_shape.getD 0 0 / 2 ∧
          r = i * (array_4x2.m_shape.getD 0 0 / 2) + j ∧
          ∀ i2 j2, j2 < array_4x2.m_shape.getD 0 0 / 2 →
            r = i2 * (array_4x2.m_shape.getD 0 0 / 2) + j2 → i2 = i ∧ j2 = j)) ∧
    split no_strides_match array_4x2 2 0
      = .ok [xstrided_view.ctor array_4x2 [2, 2] [2, 1] 0 layout_type.dynamic,
          xstrided_view.ctor array_4x2 [2, 2] [2, 1] 4 layout_type.dynamic] :=
  ⟨split_views_cover no_strides_match array_4x2 2 0 rfl (by decide) (by decide) (by decide)
      (by decide) (by decide) (by decide) (by decide) (by decide),
    rfl⟩

/-- C27.  For every 1-D source `e` of length `n` below `2 ^ 63` (with a stride
and a data offset in the size type, and elements `val 0, ..., val (n - 1)` in
its storage) and every direction, `trim_zeros(e, direction)` is the view of `e`
over the index range `[start, stop)`: it has the length `stop - start` and the
stride of `e`, and its element `j` is the element `start + j` of `e`.  When the
direction has an `f`, `start` is the index of the first element that is not `0`
(`n` if there is none), else `start = 0`.  When the direction has a `b`, `stop`
is one past the index of the last element that is not `0`, the range being empty
if there is none, else `stop = n`.  So with "fb" a result that is not empty
starts and ends with an element that is not `0`, and an input of zeros, or an
empty one, gives an empty view. -/
theorem trim_zeros_view {α : Type} [Zero α] [DecidableEq α]
    (dsm : List Nat → List Nat → layout_type → Bool) (e : xstrided_view α)
    (direction : String) (n s : Nat) (val : Nat → α)
    (hshape : e.m_shape = [n]) (hstr : e.m_strides = [s]) (hn : n < 2 ^ 63)
    (hs : s < 2 ^ 64) (hb : e.m_offset < 2 ^ 64)
    (hread : ∀ k, k < n → e.operator_call [k] = some (val k)) :
    ∃ v start stop, trim_zeros dsm e direction = .ok v ∧ start ≤ stop ∧ stop ≤ n ∧
      v.m_shape = [stop - start] ∧ v.m_strides = [s] ∧
      (∀ j, v.operator_call [j] = e.operator_call [start + j]) ∧
      ('f' ∈ direction.data →
        (∀ k, k < start → val k = 0) ∧ (start < n → val start ≠ 0)) ∧
      ('f' ∉ direction.data → start = 0) ∧
      ('b' ∈ direction.data →
        (∀ k, stop ≤ k → k < n → val k = 0) ∧ (start < stop → val (stop - 1) ≠ 0)) ∧
      ('b' ∉ direction.data → stop = n) := by
  have hsize : e.size = n := by
    unfold xstrided_view.size; rw [hshape]; exact compute_size_singleton (by omega)
  have hdim : e.dimension = 1 := by unfold xstrided_view.dimension; rw [hshape]; rfl
  have heq := trim_zeros_eq dsm e direction val hdim (by omega)
    (fun k hk => by rw [iterate_1d e n k hshape]; exact hread k (by omega))
  rw [hsize] at heq
  obtain ⟨t1, t2, t3, t4, t5, t6⟩ := trim_bounds direction ((List.range n).map val)
  have hlen : ((List.range n).map val).length = n := by simp
  rw [hlen] at t2 t3 t5 t6
  have hget : ∀ k, k < n → ((List.range n).map val)[k]? = some (val k) := by
    intro k hk
    simp [List.getElem?_map, List.getElem?_range hk]
  obtain ⟨v, h1, h2, h3, h4⟩ := strided_view_range_1d dsm e n s
    (trim_start direction ((List.range n).map val))
    (trim_stop direction ((List.range n).map val)) hshape hstr hs hb t1 (by omega)
  rw [← heq] at h1
  refine ⟨v, _, _, h1, t1, t2, h2, h3, h4, ?_, t4, ?_, t6⟩
  · intro hf
    obtain ⟨a1, a2⟩ := t3 hf
    constructor
    · intro k hk
      have := a1 k hk
      rw [hget k (by omega)] at this
      injection this
    · intro hlt
      obtain ⟨x, hx, hx0⟩ := a2 hlt
      rw [hget _ hlt] at hx
      injection hx with hx
      rw [hx]; exact hx0
  · intro hbk
    obtain ⟨a1, a2⟩ := t5 hbk
    constructor
    · intro k hk1 hk2
      have := a1 k hk1 hk2
      rw [hget k hk2] at this
      injection this
    · intro hlt
      obtain ⟨x, hx, hx0⟩ := a2 hlt
      rw [hget _ (by omega)] at hx
      injection hx with hx
      rw [hx]; exact hx0

/-- Witness of C27: for the container `array_zeros` with the elements
`0, 0, 1, 2, 0, 3, 0` and the direction "fb", the view is the one over the
indices `[2, 6)`, with the elements `1, 2, 0, 3`. -/
theorem trim_zeros_view_witness :
    (∃ v start stop, trim_zeros no_strides_match array_zeros "fb" = .ok v ∧
      start ≤ stop ∧ stop ≤ 7 ∧
      v.m_shape = [stop - start] ∧ v.m_strides = [1] ∧
      (∀ j, v.operator_call [j] = array_zeros.operator_call [start + j]) ∧
      ('f' ∈ "fb".data →
        (∀ k, k < start → [0, 0, 1, 2, 0, 3, 0].getD k 0 = 0) ∧
        (start < 7 → [0, 0, 1, 2, 0, 3, 0].getD start 0 ≠ 0)) ∧
      ('f' ∉ "fb".data → start = 0) ∧
      ('b' ∈ "fb".data →
        (∀ k, stop ≤ k → k < 7 → [0, 0, 1, 2, 0, 3, 0].getD k 0 = 0) ∧
        (start < stop → [0, 0, 1, 2, 0, 3, 0].getD (stop - 1) 0 ≠ 0)) ∧
      ('b' ∉ "fb".data → stop = 7)) ∧
    trim_zeros no_strides_match array_zeros "fb"
      = .ok (xstrided_view.ctor array_zeros [4] [1] 2 layout_type.dynamic) :=
  ⟨trim_zeros_view no_strides_match array_zeros "fb" 7 1
      (fun k => [0, 0, 1, 2, 0, 3, 0].getD k 0) rfl rfl (by decide) (by decide) (by decide)
      (by decide),
    rfl⟩


/-- C28.  For every source `e`, every direction and every layout predicate,
`trim_zeros(e, direction)` fails with the dimension error of its assertion
`e.dimension() == 1`, "Dimension for trim_zeros has to be 1.", if and only if
the dimension of `e` is not `1`; and whenever the dimension of `e` is not `1`
it builds no view. -/
theorem trim_zeros_dimension_error {α : Type} [Zero α] [DecidableEq α]
    (dsm : List Nat → List Nat → layout_type → Bool) (e : xstrided_view α)
    (direction : String) :
    (trim_zeros dsm e direction = .error xerror.trim_zeros_dimension ↔ e.dimension ≠ 1) ∧
    (e.dimension ≠ 1 → ∀ v, trim_zeros dsm e direction ≠ .ok v) := by
  have h : e.dimension ≠ 1 →
      trim_zeros dsm e direction = .error xerror.trim_zeros_dimension := by
    intro hdim
    unfold trim_zeros
    rw [show XTENSOR_ASSERT_MSG (decide (e.dimension = 1)) xerror.trim_zeros_dimension
      = .error xerror.trim_zeros_dimension from by simp [XTENSOR_ASSERT_MSG, hdim]]
    rfl
  refine ⟨⟨?_, h⟩, ?_⟩
  · intro herr hdim
    rcases trim_zeros_error hdim herr with h1 | h1 | h1
    · cases h1
    · cases h1
    · simp [is_loop_error] at h1
  · intro hdim v hv
    rw [h hdim] at hv
    cases hv

/-- Witness of C28: the 2-D container `array_3x1` is rejected; so is the view of
dimension `0` at the element `3` of `array_3x4`, and the 1-D container
`array_zeros` is not. -/
theorem trim_zeros_dimension_error_witness :
    array_3x1.dimension ≠ 1 ∧
    trim_zeros no_strides_match array_3x1 "fb" = .error xerror.trim_zeros_dimension ∧
    (∀ v, trim_zeros no_strides_match array_3x1 "fb" ≠ .ok v) ∧
    trim_zeros no_strides_match (xstrided_view.ctor array_3x4 [] [] 3 layout_type.dynamic) "fb"
      = .error xerror.trim_zeros_dimension ∧
    trim_zeros no_strides_match array_zeros "fb"
      = .ok (xstrided_view.ctor array_zeros [4] [1] 2 layout_type.dynamic) :=
  ⟨by decide,
    (trim_zeros_dimension_error no_strides_match array_3x1 "fb").1.2 (by decide),
    (trim_zeros_dimension_error no_strides_match array_3x1 "fb").2 (by decide), rfl, rfl⟩


/-! ## Claims on the checks of the view builder and on layouts -/

/-- C34.  For every view `v` and every stride vector `s`,
`v.is_trivial_broadcast(s)` returns a boolean, without reading a container
outside its bounds, and this boolean is true if and only if `s` has the length
of `v.strides()` and `s[k] == v.strides()[k]` for every `k`. -/
theorem is_trivial_broadcast_iff {α : Type} (v : xstrided_view α) (s : List Nat) :
    ∃ b, v.is_trivial_broadcast s = .ok b ∧
      (b = true ↔
        (s.length = v.m_strides.length ∧ ∀ k, k < s.length → s[k]? = v.m_strides[k]?)) := by
  unfold xstrided_view.is_trivial_broadcast
  by_cases hl : s.length = v.m_strides.length
  · rw [if_pos hl, std_equal_eq _ _ hl]
    refine ⟨_, rfl, ?_⟩
    rw [decide_eq_true_iff]
    constructor
    · intro h; subst h; exact ⟨rfl, fun _ _ => rfl⟩
    · rintro ⟨_, h⟩
      apply List.ext_getElem? 
      intro k
      by_cases hk : k < s.length
      · exact h k hk
      · rw [List.getElem?_eq_none (by omega), List.getElem?_eq_none (by omega)]
  · rw [if_neg hl]
    refine ⟨false, rfl, ?_⟩
    constructor
    · intro h; cases h
    · rintro ⟨h, _⟩; exact absurd h hl

/-- C40 (code at a failing input).  For the container `array_4x2`, `n = 0` and
the axis `0`, which is below the dimension, `split` evaluates
`e.shape()[axis] / n` with `n = 0` before any test of `n`: it neither throws nor
returns `0` views. -/
theorem split_in_zero_parts :
    (0 : Nat) < array_4x2.dimension ∧
    split no_strides_match array_4x2 0 0 = .error xerror.division_by_zero :=
  ⟨by decide, rfl⟩


/-- C31.  For every source and every slice list with at most one `Ellipsis`,
`get_strided_view_args` fails with "Too many slices for view." if and only if
the number of slices that are neither `NewAxis` nor `Ellipsis` exceeds the
dimension of the source. -/
theorem too_many_slices_iff
    (dsm : List Nat → List Nat → layout_type → Bool) (shape strides : List Nat) (base : Nat)
    (layout : layout_type) (slices : List slice_variant) (he : n_ellipsis_of slices ≤ 1) :
    get_strided_view_args dsm shape strides base layout slices = .error xerror.too_many_slices
      ↔ shape.length < n_addressing_of slices := by
  obtain ⟨c, hc⟩ := count_slices_complete slices
    { dimension := shape.length, n_newaxis := 0,
      dimension_check := (shape.length : Int), has_ellipsis := false } (by simpa using he)
  obtain ⟨k1, _⟩ := count_slices_spec _ _ _ hc
  simp only [] at k1
  unfold get_strided_view_args
  rw [hc]
  simp only [ok_bind]
  constructor
  · intro h
    split at h
    · omega
    · exfalso
      rcases bind_error h with h1 | ⟨_, _, h⟩
      · have := apply_slices_error _ _ _ h1
        simp [is_loop_error] at this
      rcases bind_error h with h1 | ⟨_, _, h⟩
      · have := append_trailing_error _ _ _ h1
        simp [is_loop_error] at this
      · cases h
  · intro h
    rw [if_pos (by omega)]

/-- Witness of C31: on a source of dimension `2`, three integers are too many,
and two integers with a new axis and an ellipsis are not. -/
theorem too_many_slices_iff_witness :
    (get_strided_view_args no_strides_match [2, 3] [3, 1] 0 layout_type.row_major
        [slice_variant.index 0, slice_variant.index 1, slice_variant.index 0]
      = .error xerror.too_many_slices
        ↔ ([2, 3] : List Nat).length
          < n_addressing_of
              [slice_variant.index 0, slice_variant.index 1, slice_variant.index 0]) ∧
    get_strided_view_args no_strides_match [2, 3] [3, 1] 0 layout_type.row_major
        [slice_variant.index 0, slice_variant.index 1, slice_variant.index 0]
      = .error xerror.too_many_slices ∧
    get_strided_view_args no_strides_match [2, 3] [3, 1] 0 layout_type.row_major
        [slice_variant.index 1, slice_variant.newaxis, slice_variant.ellipsis,
          slice_variant.index 2]
      = .ok ([1], [0], 5, layout_type.dynamic) :=
  ⟨too_many_slices_iff no_strides_match [2, 3] [3, 1] 0 layout_type.row_major
      [slice_variant.index 0, slice_variant.index 1, slice_variant.index 0] (by decide),
    rfl, rfl⟩

/-- C37 (amended).  For every accepted slice list, the layout returned by
`get_strided_view_args` is the source layout when the resulting
`(new_shape, new_strides)` satisfies `do_strides_match` for the source layout,
and `dynamic` otherwise; so it is the source layout if and only if
`do_strides_match` holds or the source layout is `dynamic` itself. -/
theorem layout_of_view_args
    (dsm : List Nat → List Nat → layout_type → Bool) (shape strides : List Nat) (base : Nat)
    (layout : layout_type) (slices : List slice_variant)
    (sh sd : List Nat) (off : Nat) (lay : layout_type)
    (h : get_strided_view_args dsm shape strides base layout slices = .ok (sh, sd, off, lay)) :
    (dsm sh sd layout = true → lay = layout) ∧
    (dsm sh sd layout = false → lay = layout_type.dynamic) ∧
    (lay = layout ↔ (dsm sh sd layout = true ∨ layout = layout_type.dynamic)) := by
  have hlay : lay = (if dsm sh sd layout = true then layout else layout_type.dynamic) := by
    unfold get_strided_view_args at h
    obtain ⟨c, _, h⟩ := bind_ok h
    split at h
    · cases h
    obtain ⟨st1, _, h⟩ := bind_ok h
    obtain ⟨st2, _, h⟩ := bind_ok h
    injection h with h
    injection h with h1 h
    injection h with h2 h
    injection h with h3 h4
    subst h1; subst h2
    exact h4.symm
  by_cases hm : dsm sh sd layout = true
  · rw [if_pos hm] at hlay
    have hno : dsm sh sd layout = false → lay = layout_type.dynamic := by
      intro hf; rw [hm] at hf; cases hf
    exact ⟨fun _ => hlay, hno, ⟨fun _ => Or.inl hm, fun _ => hlay⟩⟩
  · rw [if_neg hm] at hlay
    have hdyn2 : lay = layout → layout = layout_type.dynamic := by
      intro hl; rw [← hl, hlay]
    refine ⟨fun ht => absurd ht hm, fun _ => hlay, ⟨fun hl => Or.inr (hdyn2 hl), ?_⟩⟩
    rintro (ht | hdyn)
    · exact absurd ht hm
    · rw [hlay, hdyn]

/-- Witness of C37 (amended): the documented view `{{1, 3}}` of the row-major
array of shape `[2, 3]`, with a predicate that does not hold. -/
theorem layout_of_view_args_witness :
    (no_strides_match [1, 2] [3, 2] layout_type.row_major = true →
      layout_type.dynamic = layout_type.row_major) ∧
    (no_strides_match [1, 2] [3, 2] layout_type.row_major = false →
      layout_type.dynamic = layout_type.dynamic) ∧
    (layout_type.dynamic = layout_type.row_major ↔
      (no_strides_match [1, 2] [3, 2] layout_type.row_major = true
        ∨ layout_type.row_major = layout_type.dynamic)) :=
  layout_of_view_args no_strides_match [2, 3] [3, 1] 0 layout_type.row_major
    [slice_variant.range (some 0) (some 1) none, slice_variant.range (some 0) (some 3) (some 2)]
    [1, 2] [3, 2] 0 layout_type.dynamic rfl

/-- C37 (counterexample).  For a source whose layout is `dynamic`, such as the
view `rows_1_2_of_3x4`, the returned layout is `dynamic`, the source layout,
also when `do_strides_match` does not hold for the result. -/
theorem layout_of_dynamic_source :
    get_strided_view_args no_strides_match [2, 4] [4, 1] 4 layout_type.dynamic []
      = .ok ([2, 4], [4, 1], 4, layout_type.dynamic) ∧
    rows_1_2_of_3x4.m_layout = layout_type.dynamic ∧
    no_strides_match [2, 4] [4, 1] layout_type.dynamic = false :=
  ⟨rfl, rfl, rfl⟩


/-- C39.  Index safety of the view builder.  For every source of dimension `d`
(below `2 ^ 64`, with as many strides as lengths) and every slice list that
passes the first-pass checks of `get_strided_view_args` (at most one `Ellipsis`,
at most `d` slices that are neither `NewAxis` nor `Ellipsis`; the target
dimension `d + n_newaxis - n_scalar` fits the size type), no read of the source
shape or strides and no write of `new_shape` or `new_strides` in the second
pass and in the trailing loop is outside its container: the function returns
its result, or stops at a range whose step is `0` with the error of the step,
and the trailing loop ends within `d` iterations. -/
theorem view_builder_index_safety
    (dsm : List Nat → List Nat → layout_type → Bool) (shape strides : List Nat) (base : Nat)
    (layout : layout_type) (slices : List slice_variant)
    (hd : shape.length < 2 ^ 64) (hs : strides.length = shape.length)
    (hD : (shape.length : Int) + n_newaxis_of slices - n_scalar_of slices < 2 ^ 64)
    (he : n_ellipsis_of slices ≤ 1) (ha : n_addressing_of slices ≤ shape.length) :
    get_strided_view_args dsm shape strides base layout slices ≠ .error xerror.out_of_bounds ∧
    get_strided_view_args dsm shape strides base layout slices ≠ .error xerror.out_of_fuel ∧
    (steps_nonzero slices = true →
      ∃ res, get_strided_view_args dsm shape strides base layout slices = .ok res) ∧
    (steps_nonzero slices = false →
      get_strided_view_args dsm shape strides base layout slices
        = .error xerror.invalid_step) := by
  obtain ⟨c1, c2⟩ := get_strided_view_args_checked dsm base layout hd hs hD he ha
  refine ⟨?_, ?_, c1, c2⟩
  · intro habs
    by_cases hst : steps_nonzero slices = true
    · obtain ⟨res, hres⟩ := c1 hst
      rw [hres] at habs; cases habs
    · rw [c2 (by simpa using hst)] at habs; cases habs
  · intro habs
    by_cases hst : steps_nonzero slices = true
    · obtain ⟨res, hres⟩ := c1 hst
      rw [hres] at habs; cases habs
    · rw [c2 (by simpa using hst)] at habs; cases habs

/-- Witness of C39: the slice list `[newaxis, ellipsis, index(2)]` of the spec
on a source of shape `[2, 3, 4]`. -/
theorem view_builder_index_safety_witness :
    get_strided_view_args no_strides_match [2, 3, 4] [12, 4, 1] 0 layout_type.row_major
        [slice_variant.newaxis, slice_variant.ellipsis, slice_variant.index 2]
      ≠ .error xerror.out_of_bounds ∧
    get_strided_view_args no_strides_match [2, 3, 4] [12, 4, 1] 0 layout_type.row_major
        [slice_variant.newaxis, slice_variant.ellipsis, slice_variant.index 2]
      ≠ .error xerror.out_of_fuel ∧
    (steps_nonzero [slice_variant.newaxis, slice_variant.ellipsis, slice_variant.index 2]
        = true →
      ∃ res, get_strided_view_args no_strides_match [2, 3, 4] [12, 4, 1] 0
        layout_type.row_major
        [slice_variant.newaxis, slice_variant.ellipsis, slice_variant.index 2] = .ok res) ∧
    (steps_nonzero [slice_variant.newaxis, slice_variant.ellipsis, slice_variant.index 2]
        = false →
      get_strided_view_args no_strides_match [2, 3, 4] [12, 4, 1] 0 layout_type.row_major
        [slice_variant.newaxis, slice_variant.ellipsis, slice_variant.index 2]
        = .error xerror.invalid_step) :=
  view_builder_index_safety no_strides_match [2, 3, 4] [12, 4, 1] 0 layout_type.row_major
    [slice_variant.newaxis, slice_variant.ellipsis, slice_variant.index 2]
    (by decide) rfl (by decide) (by decide) (by decide)

/-- C33.  For every source (of dimension below `2 ^ 64`, with as many strides
as lengths and a base offset in the size type) and every slice list without an
`Ellipsis` and without a range of step `0` that addresses `k` axes, `k` being at
most the dimension, `get_strided_view_args` returns a result whose shape and
strides are those of the `n_newaxis + k - n_scalar` axes that the slices emit,
followed by the lengths and the strides of the source axes from `k` on, in
their order.  In particular the empty slice list gives the shape, the strides
and the offset of the source. -/
theorem trailing_axes_appended
    (dsm : List Nat → List Nat → layout_type → Bool) (shape strides : List Nat) (base : Nat)
    (layout : layout_type) (slices : List slice_variant)
    (hd : shape.length < 2 ^ 64) (hs : strides.length = shape.length) (hb : base < 2 ^ 64)
    (hD : (shape.length : Int) + n_newaxis_of slices - n_scalar_of slices < 2 ^ 64)
    (hne : slice_variant.ellipsis ∉ slices) (ha : n_addressing_of slices ≤ shape.length)
    (hst : steps_nonzero slices = true) :
    (∃ sh sd off lay,
      get_strided_view_args dsm shape strides base layout slices = .ok (sh, sd, off, lay) ∧
      sh = view_shape shape 0 slices 0 ++ shape.drop (n_addressing_of slices) ∧
      sd = view_strides shape strides 0 slices 0 ++ strides.drop (n_addressing_of slices) ∧
      (view_shape shape 0 slices 0).length + n_scalar_of slices
        = n_newaxis_of slices + n_addressing_of slices ∧
      (view_strides shape strides 0 slices 0).length = (view_shape shape 0 slices 0).length) ∧
    get_strided_view_args dsm shape strides base layout []
      = .ok (shape, strides, base,
          if dsm shape strides layout = true then layout else layout_type.dynamic) := by
  have he : n_ellipsis_of slices = 0 := n_ellipsis_zero_of_not_mem hne
  have hec : ellipsis_count shape slices = 0 := by unfold ellipsis_count; rw [if_neg hne]
  have hadr := @slices_addressed_of_checks shape slices (by omega) ha hst
  obtain ⟨⟨sh, sd, off, lay⟩, hres⟩ := get_strided_view_args_complete dsm base layout hd hs hD
    (by omega) ha hadr
  obtain ⟨k1, k2, _, _⟩ := get_strided_view_args_eq hd hs hb hres
  rw [hec] at hadr
  rw [hec, axis_after_eq_count slices 0 0 hne, Nat.zero_add] at k1 k2
  have hlen := view_shape_length slices 0 hadr
  rw [axis_after_eq_count slices 0 0 hne] at hlen
  have hlen2 := view_strides_length hs slices 0 hadr
  constructor
  · exact ⟨sh, sd, off, lay, hres, k1, k2, by omega, by omega⟩
  · obtain ⟨⟨sh0, sd0, off0, lay0⟩, h0⟩ := @get_strided_view_args_complete dsm shape strides base layout
      [] hd hs (by simp [n_newaxis_of, n_scalar_of]; omega)
      (by simp [n_ellipsis_of]) (by simp [n_addressing_of]) trivial
    obtain ⟨e1, e2, e3, e4⟩ := get_strided_view_args_eq hd hs hb h0
    simp only [view_shape, view_strides, view_offset, axis_after, List.nil_append,
      List.drop_zero, Nat.add_zero] at e1 e2 e3
    rw [Nat.mod_eq_of_lt hb] at e3
    rw [h0, e4, e1, e2, e3]

/-- Witness of C33: the slice list `[newaxis, index(1)]` on the source of shape
`[2, 3, 4]` at the offset `5` emits one axis and leaves the source axes `1` and
`2` as they are. -/
theorem trailing_axes_appended_witness :
    ((∃ sh sd off lay,
      get_strided_view_args no_strides_match [2, 3, 4] [12, 4, 1] 5 layout_type.row_major
          [slice_variant.newaxis, slice_variant.index 1] = .ok (sh, sd, off, lay) ∧
      sh = view_shape [2, 3, 4] 0 [slice_variant.newaxis, slice_variant.index 1] 0
        ++ ([2, 3, 4] : List Nat).drop
            (n_addressing_of [slice_variant.newaxis, slice_variant.index 1]) ∧
      sd = view_strides [2, 3, 4] [12, 4, 1] 0 [slice_variant.newaxis, slice_variant.index 1] 0
        ++ ([12, 4, 1] : List Nat).drop
            (n_addressing_of [slice_variant.newaxis, slice_variant.index 1]) ∧
      (view_shape [2, 3, 4] 0 [slice_variant.newaxis, slice_variant.index 1] 0).length
          + n_scalar_of [slice_variant.newaxis, slice_variant.index 1]
        = n_newaxis_of [slice_variant.newaxis, slice_variant.index 1]
          + n_addressing_of [slice_variant.newaxis, slice_variant.index 1] ∧
      (view_strides [2, 3, 4] [12, 4, 1] 0
          [slice_variant.newaxis, slice_variant.index 1] 0).length
        = (view_shape [2, 3, 4] 0 [slice_variant.newaxis, slice_variant.index 1] 0).length) ∧
    get_strided_view_args no_strides_match [2, 3, 4] [12, 4, 1] 5 layout_type.row_major []
      = .ok ([2, 3, 4], [12, 4, 1], 5,
          if no_strides_match [2, 3, 4] [12, 4, 1] layout_type.row_major = true then
            layout_type.row_major
          else layout_type.dynamic)) ∧
    get_strided_view_args no_strides_match [2, 3, 4] [12, 4, 1] 5 layout_type.row_major
        [slice_variant.newaxis, slice_variant.index 1]
      = .ok ([1, 3, 4], [0, 4, 1], 17, layout_type.dynamic) :=
  ⟨trailing_axes_appended no_strides_match [2, 3, 4] [12, 4, 1] 5 layout_type.row_major
      [slice_variant.newaxis, slice_variant.index 1] (by decide) rfl (by decide) (by decide)
      (by decide) (by decide) rfl,
    rfl⟩


/-- C36.  For every source (of dimension below `2 ^ 64`, with as many strides
as lengths and a base offset in the size type): in every accepted slice list, an
`Index(k)` slice with `k >= 0` is addressed to an existing source axis `axis`,
emits no axis, and adds `k * source_strides[axis]` to the offset, in the size
type, the slices before it and after it having their own effects; and the slice
list made of the integers `k_0, ..., k_{d-1}`, one for each source axis and each
inside its axis, is accepted and gives the empty shape, the empty strides and
the offset `base_offset + sum_a k_a * source_strides[a]`, in the size type: a
view of dimension `0` whose element is at that offset. -/
theorem index_slices_offset
    (dsm : List Nat → List Nat → layout_type → Bool) (shape strides : List Nat) (base : Nat)
    (layout : layout_type)
    (hd : shape.length < 2 ^ 64) (hs : strides.length = shape.length) (hb : base < 2 ^ 64) :
    (∀ (pre post : List slice_variant) (k : Int) (sh sd : List Nat) (off : Nat)
        (lay : layout_type), 0 ≤ k →
      get_strided_view_args dsm shape strides base layout (pre ++ slice_variant.index k :: post)
        = .ok (sh, sd, off, lay) →
      axis_after (ellipsis_count shape (pre ++ slice_variant.index k :: post)) pre 0
          < shape.length ∧
        sh = view_shape shape (ellipsis_count shape (pre ++ slice_variant.index k :: post))
              pre 0
            ++ view_shape shape (ellipsis_count shape (pre ++ slice_variant.index k :: post))
              post
              (axis_after (ellipsis_count shape (pre ++ slice_variant.index k :: post))
                pre 0 + 1)
            ++ shape.drop
              (axis_after (ellipsis_count shape (pre ++ slice_variant.index k :: post))
                (pre ++ slice_variant.index k :: post) 0) ∧
        off = (base
            + view_offset shape strides
                (ellipsis_count shape (pre ++ slice_variant.index k :: post)) pre 0
            + k.toNat * strides.getD
                (axis_after (ellipsis_count shape (pre ++ slice_variant.index k :: post))
                  pre 0) 0
            + view_offset shape strides
                (ellipsis_count shape (pre ++ slice_variant.index k :: post)) post
                (axis_after (ellipsis_count shape (pre ++ slice_variant.index k :: post))
                  pre 0 + 1)) % 2 ^ 64) ∧
    (∀ (ks : List Nat), in_range ks shape →
      ∃ lay, get_strided_view_args dsm shape strides base layout
          (ks.map (fun (k : Nat) => slice_variant.index (k : Int)))
        = .ok ([], [], (base + dot ks strides) % 2 ^ 64, lay)) := by
  constructor
  · intro pre post k sh sd off lay hk h
    obtain ⟨_, _, k3, _⟩ := get_strided_view_args_sound hd hs h
    obtain ⟨e1, _, e3, _⟩ := get_strided_view_args_eq hd hs hb h
    generalize ellipsis_count shape (pre ++ slice_variant.index k :: post) = n at k3 e1 e3 ⊢
    rw [slices_addressed_append] at k3
    have hax : axis_after n pre 0 < shape.length := k3.2.1
    refine ⟨hax, ?_, ?_⟩
    · rw [e1, view_shape_append]
      simp only [view_shape, slice_shape, slice_axes, List.nil_append, List.append_assoc]
    · rw [e3, view_offset_append]
      simp only [view_offset, slice_offset, slice_axes]
      rw [XTENSOR_MU_of_nonneg hk]
      have e : (k.toNat % 2 ^ 64 * strides.getD (axis_after n pre 0) 0) % 2 ^ 64
          = (k.toNat * strides.getD (axis_after n pre 0) 0) % 2 ^ 64 := Nat.mod_mul_mod
      omega
  · intro ks hin
    have hlen := in_range_length hin
    obtain ⟨c1, c2, c3, c4, c5⟩ := counts_index_list ks
    obtain ⟨⟨sh, sd, off, lay⟩, hres⟩ := get_strided_view_args_complete dsm base layout hd hs
      (by rw [c1, c2]; omega) (by rw [c3]; omega) (by rw [c4]; omega)
      (slices_addressed_of_checks (by rw [c3]; omega) (by rw [c4]; omega) c5)
    obtain ⟨e1, e2, e3, _⟩ := get_strided_view_args_eq hd hs hb hres
    obtain ⟨i1, i2, i3, i4⟩ := index_list_effect shape strides
      (ellipsis_count shape (ks.map (fun (k : Nat) => slice_variant.index (k : Int)))) ks 0
    rw [i1, i3, Nat.zero_add, hlen, List.drop_length, List.append_nil] at e1
    rw [i2, i3, Nat.zero_add, hlen, ← hs, List.drop_length, List.append_nil] at e2
    have h4 := i4 (by omega)
    simp only [List.drop_zero] at h4
    have hoff : off = (base + dot ks strides) % 2 ^ 64 := by rw [e3]; omega
    refine ⟨lay, ?_⟩
    rw [hres, e1, e2, hoff]

/-- Witness of C36: the integer `2` after a new axis and an ellipsis on a source
of shape `[2, 3, 4]`, and the three integers `1, 2, 3`. -/
theorem index_slices_offset_witness :
    get_strided_view_args no_strides_match [2, 3, 4] [12, 4, 1] 5 layout_type.row_major
        [slice_variant.newaxis, slice_variant.ellipsis, slice_variant.index 2]
      = .ok ([1, 2, 3], [0, 12, 4], 7, layout_type.dynamic) ∧
    (∃ lay, get_strided_view_args no_strides_match [2, 3, 4] [12, 4, 1] 5
        layout_type.row_major
        (([1, 2, 3] : List Nat).map (fun (k : Nat) => slice_variant.index (k : Int)))
      = .ok ([], [], (5 + dot [1, 2, 3] [12, 4, 1]) % 2 ^ 64, lay)) ∧
    (5 + dot [1, 2, 3] [12, 4, 1]) % 2 ^ 64 = 28 :=
  ⟨rfl,
    (index_slices_offset no_strides_match [2, 3, 4] [12, 4, 1] 5 layout_type.row_major
      (by decide) rfl (by decide)).2 [1, 2, 3]
        (List.Forall₂.cons (by decide) (List.Forall₂.cons (by decide)
          (List.Forall₂.cons (by decide) List.Forall₂.nil))),
    rfl⟩


/-! ## Target dimension and the in-bounds invariant -/

/-- C35.  For every source (of dimension below `2 ^ 64`, with as many strides
as lengths) and every slice list accepted by `get_strided_view_args`, the
returned `new_shape` and `new_strides` both have the length
`source_dim + n_newaxis - n_scalar`, where `n_scalar` is at most `source_dim`,
and the write cursor `idx`, which the second pass and the trailing loop advance
by one after each position they fill, ends at that length: every position is
filled, none twice. -/
theorem target_dimension
    (dsm : List Nat → List Nat → layout_type → Bool) (shape strides : List Nat) (base : Nat)
    (layout : layout_type) (slices : List slice_variant)
    (sh sd : List Nat) (off : Nat) (lay : layout_type)
    (hd : shape.length < 2 ^ 64) (hs : strides.length = shape.length)
    (h : get_strided_view_args dsm shape strides base layout slices = .ok (sh, sd, off, lay)) :
    n_scalar_of slices ≤ shape.length ∧
    sh.length = shape.length + n_newaxis_of slices - n_scalar_of slices ∧
    sd.length = shape.length + n_newaxis_of slices - n_scalar_of slices ∧
    ∃ st, view_args_final shape strides base slices = .ok st ∧
      st.new_shape = sh ∧ st.new_strides = sd ∧
      st.idx = shape.length + n_newaxis_of slices - n_scalar_of slices := by
  obtain ⟨_, k2, _⟩ := get_strided_view_args_sound hd hs h
  obtain ⟨l1, l2, _⟩ := get_strided_view_args_length hd hs h
  have hsc := n_scalar_le_n_addressing slices
  obtain ⟨st, f1, f2, f3, _, f5⟩ := view_args_final_of_ok hd hs h
  have hlen : sh.length = shape.length + n_newaxis_of slices - n_scalar_of slices := by omega
  exact ⟨by omega, hlen, by omega, st, f1, f2, f3, by omega⟩

/-- Witness of C35: the slice list `[newaxis, ellipsis, index(2)]` on a source
of shape `[2, 3, 4]` gives `3 + 1 - 1` axes. -/
theorem target_dimension_witness :
    n_scalar_of [slice_variant.newaxis, slice_variant.ellipsis, slice_variant.index 2]
      ≤ ([2, 3, 4] : List Nat).length ∧
    ([1, 2, 3] : List Nat).length
      = ([2, 3, 4] : List Nat).length
        + n_newaxis_of [slice_variant.newaxis, slice_variant.ellipsis, slice_variant.index 2]
        - n_scalar_of [slice_variant.newaxis, slice_variant.ellipsis, slice_variant.index 2] ∧
    ([0, 12, 4] : List Nat).length
      = ([2, 3, 4] : List Nat).length
        + n_newaxis_of [slice_variant.newaxis, slice_variant.ellipsis, slice_variant.index 2]
        - n_scalar_of [slice_variant.newaxis, slice_variant.ellipsis, slice_variant.index 2] ∧
    ∃ st, view_args_final [2, 3, 4] [12, 4, 1] 0
        [slice_variant.newaxis, slice_variant.ellipsis, slice_variant.index 2] = .ok st ∧
      st.new_shape = [1, 2, 3] ∧ st.new_strides = [0, 12, 4] ∧
      st.idx = ([2, 3, 4] : List Nat).length
        + n_newaxis_of [slice_variant.newaxis, slice_variant.ellipsis, slice_variant.index 2]
        - n_scalar_of [slice_variant.newaxis, slice_variant.ellipsis, slice_variant.index 2] :=
  target_dimension no_strides_match [2, 3, 4] [12, 4, 1] 0 layout_type.row_major
    [slice_variant.newaxis, slice_variant.ellipsis, slice_variant.index 2]
    [1, 2, 3] [0, 12, 4] 2 layout_type.dynamic (by decide) rfl rfl

/-- C32 (amended).  In-bounds invariant of built views.  For every source `e`
(of dimension below `2 ^ 64`, with as many strides as lengths) whose descriptor
maps every in-range multi-index to a flat index below `storage_size`, and every
slice list that `strided_view(e, slices)` accepts and whose `Index` and `Range`
slices lie inside the axes they address, the descriptor of the view maps every
in-range multi-index of the view to a flat index
`offset + sum_k i_k * strides[k]`, in the size type, that is below
`storage_size`; it is the flat index of an in-range multi-index of `e`. -/
theorem view_stays_in_storage {α : Type} (dsm : List Nat → List Nat → layout_type → Bool)
    (e v : xstrided_view α) (slices : List slice_variant) (storage_size : Nat)
    (hd : e.m_shape.length < 2 ^ 64) (hs : e.m_strides.length = e.m_shape.length)
    (hsrc : ∀ i, in_range i e.m_shape → e.flat_index i < storage_size)
    (h : strided_view dsm e slices = .ok v)
    (hin : slices_inside e.m_shape (ellipsis_count e.m_shape slices) slices 0 = true) :
    ∀ j, in_range j v.m_shape →
      v.flat_index j = size_add v.m_offset (data_offset v.m_strides j) ∧
      v.flat_index j < storage_size ∧
      ∃ i, in_range i e.m_shape ∧ v.flat_index j = e.flat_index i := by
  intro j hj
  obtain ⟨p1, p2, _⟩ := strided_view_flat_index hd hs h hin j hj
  refine ⟨rfl, ?_, _, p1, p2⟩
  rw [p2]
  exact hsrc _ p1

/-- Witness of C32 (amended): the first row of `array_2x3`, every other element
of it, in a storage of `6` elements, at the index `(0, 1)` of the view. -/
theorem view_stays_in_storage_witness :
    in_range [0, 1] [1, 2] ∧
    (xstrided_view.ctor array_2x3 [1, 2] [3, 2] 0 layout_type.dynamic).flat_index [0, 1]
      = size_add 0 (data_offset [3, 2] [0, 1]) ∧
    (xstrided_view.ctor array_2x3 [1, 2] [3, 2] 0 layout_type.dynamic).flat_index [0, 1] < 6 ∧
    ∃ i, in_range i array_2x3.m_shape ∧
      (xstrided_view.ctor array_2x3 [1, 2] [3, 2] 0 layout_type.dynamic).flat_index [0, 1]
        = array_2x3.flat_index i :=
  ⟨List.Forall₂.cons (by decide) (List.Forall₂.cons (by decide) List.Forall₂.nil),
    view_stays_in_storage no_strides_match array_2x3
      (xstrided_view.ctor array_2x3 [1, 2] [3, 2] 0 layout_type.dynamic)
      [slice_variant.range (some 0) (some 1) none,
        slice_variant.range (some 0) (some 3) (some 2)]
      6 (by decide) rfl array_2x3_in_storage rfl rfl [0, 1]
      (List.Forall₂.cons (by decide) (List.Forall₂.cons (by decide) List.Forall₂.nil))⟩

/-- C32 (counterexample).  The descriptor of `array_2x3` maps every in-range
multi-index to a flat index below `6`; `strided_view` accepts the slice list
`[Index(5)]` and returns a view of shape `[3]` whose in-range multi-index `(0)`
has the flat index `15`, outside the storage. -/
theorem index_view_leaves_storage :
    (∀ i, in_range i array_2x3.m_shape → array_2x3.flat_index i < 6) ∧
    ∃ v, strided_view no_strides_match array_2x3 [slice_variant.index 5] = .ok v ∧
      v.m_shape = [3] ∧ in_range [0] v.m_shape ∧ v.flat_index [0] = 15 ∧
      ¬ v.flat_index [0] < 6 ∧ v.operator_call [0] = none :=
  ⟨array_2x3_in_storage, _, rfl, rfl, List.Forall₂.cons (by decide) List.Forall₂.nil, rfl,
    by decide, rfl⟩


/-! ## Layout of a transposition -/

/-- C38.  For every source `e` of dimension `n` (below `2 ^ 64`, with as many
strides as lengths), every permutation `p` of `0 .. n - 1` and either check
policy, `transpose(e, p)` returns a view whose layout is the layout of `e` if
`p` is the identity (ascending), otherwise the swap
`transpose_layout_noexcept` of the layout of `e` (`row_major` and
`column_major` exchanged, anything else unchanged) if `p` is the reversal
(strictly descending), and `dynamic` for every other permutation.  The three
cases are tested in this order; for `2 <= n` the identity and the reversal
differ, so that at most one case applies. -/
theorem transpose_layout_selection {α : Type} (e : xstrided_view α) (p : List Int)
    (tag : check_policy)
    (hd : e.dimension < 2 ^ 64) (hs : e.m_strides.length = e.m_shape.length)
    (hperm : p.Perm (identity_permutation e.dimension)) :
    (∃ v, transpose_permutation e p tag = .ok v ∧
      v.m_layout =
        if p = identity_permutation e.dimension then e.m_layout
        else if p = (identity_permutation e.dimension).reverse then
          transpose_layout_noexcept e.m_layout
        else layout_type.dynamic) ∧
    (transpose_layout_noexcept layout_type.row_major = layout_type.column_major ∧
      transpose_layout_noexcept layout_type.column_major = layout_type.row_major ∧
      ∀ l, l ≠ layout_type.row_major → l ≠ layout_type.column_major →
        transpose_layout_noexcept l = l) ∧
    (2 ≤ e.dimension →
      identity_permutation e.dimension ≠ (identity_permutation e.dimension).reverse) := by
  obtain ⟨hlen, hnd, hv⟩ := identity_permutation_valid hd hperm
  obtain ⟨t, ht, _⟩ := transpose_impl_none_eq e p hs hlen hv
  have hl := transpose_impl_none_layout ht
  simp only [is_sorted_less_of_perm hperm, is_sorted_greater_of_perm hperm] at hl
  have hfull : transpose_impl_full e p = .ok t := by
    unfold transpose_impl_full
    rw [if_neg, ht]
    rw [axis_appears_twice_iff]
    exact not_not.mpr hnd
  refine ⟨⟨t, ?_, hl⟩, ⟨rfl, rfl, ?_⟩, identity_permutation_ne_reverse⟩
  · cases tag
    · exact ht
    · exact hfull
  · intro l h1 h2
    unfold transpose_layout_noexcept
    rw [if_neg h1, if_neg h2]

/-- Witness of C38: the reversal `[1, 0]` on `array_2x3`, which is
`row_major`, gives a `column_major` view. -/
theorem transpose_layout_selection_witness :
    (∃ v, transpose_permutation array_2x3 [1, 0] check_policy.full = .ok v ∧
      v.m_layout =
        if ([1, 0] : List Int) = identity_permutation array_2x3.dimension then array_2x3.m_layout
        else if ([1, 0] : List Int) = (identity_permutation array_2x3.dimension).reverse then
          transpose_layout_noexcept array_2x3.m_layout
        else layout_type.dynamic) ∧
    (transpose_layout_noexcept layout_type.row_major = layout_type.column_major ∧
      transpose_layout_noexcept layout_type.column_major = layout_type.row_major ∧
      ∀ l, l ≠ layout_type.row_major → l ≠ layout_type.column_major →
        transpose_layout_noexcept l = l) ∧
    (2 ≤ array_2x3.dimension →
      identity_permutation array_2x3.dimension
        ≠ (identity_permutation array_2x3.dimension).reverse) :=
  transpose_layout_selection array_2x3 [1, 0] check_policy.full (by decide) rfl
    (List.Perm.swap (0 : Int) 1 [])


end xt
